import Mathlib

/-!
# vmdktool: a shallow embedding of `vmdktool.c`

Bytes are natural numbers, a file is a list of bytes with a current offset, and
the zlib calls are an abstract `Codec`.  Assertion failures and `abort()` are the
`none` of `Option` (or `Run.aborted` where a loop needs fuel).
-/

namespace Vmdk

/-! ## Constants of `vmdktool.c` -/

/-- C macro `SECTORSZ`. -/
@[reducible, simp] def SECTORSZ : Nat := 512

/-- C macro `VMDK_MAGIC`, the bytes V, M, D, K as one big-endian composite. -/
@[reducible, simp] def VMDK_MAGIC : Nat := 0x564D444B

@[reducible, simp] def COMPRESSION_NONE : Nat := 0

@[reducible, simp] def COMPRESSION_DEFLATE : Nat := 1

@[reducible, simp] def MARKER_EOS : Nat := 0

@[reducible, simp] def MARKER_GT : Nat := 1

@[reducible, simp] def MARKER_GD : Nat := 2

@[reducible, simp] def MARKER_FOOTER : Nat := 3

@[reducible, simp] def FLAGBIT_NL : Nat := 1

@[reducible, simp] def FLAGBIT_COMPRESSED : Nat := 65536

@[reducible, simp] def FLAGBIT_MARKERS : Nat := 131072

@[reducible, simp] def SET_VMDKVER : Nat := 3

/-- C macro `SET_GRAINSZ`: 64KB grains, in sectors. -/
@[reducible, simp] def SET_GRAINSZ : Nat := 128

/-- C macro `SET_GTESPERGT`: grain tables are 4 blocks. -/
@[reducible, simp] def SET_GTESPERGT : Nat := 512

@[reducible, simp] def MIN_HEADER_OVERHEAD : Nat := 128

/-- The size in bytes of the `grain` array of `allraw2grains`, `SET_GRAINSZ * SECTORSZ`. -/
@[reducible, simp] def GRAINBYTES : Nat := 65536

/-- Two to the 32, the modulus of `uint32_t`. -/
@[reducible, simp] def U32 : Nat := 4294967296

/-- Two to the 64, the modulus of `uint64_t`. -/
@[reducible, simp] def U64 : Nat := 18446744073709551616

/-- Two to the 63, one more than the largest `off_t`. -/
@[reducible, simp] def OFFMAX : Nat := 9223372036854775808

/-! ## Little-endian packed fields -/

/-- The `n` little-endian bytes of an unsigned field holding `v` (truncating). -/
def encLE : Nat → Nat → List Nat
  | 0, _ => []
  | n + 1, v => (v % 256) :: encLE n (v / 256)

/-- The value of a little-endian field. -/
def decLE : List Nat → Nat
  | [] => 0
  | b :: bs => b + 256 * decLE bs

/-- A run of `n` zero bytes (`calloc`, `memset(_, 0, n)`, a hole in a file). -/
def zeros (n : Nat) : List Nat := List.replicate n 0

/-- The bytes `[off, off + len)` of a buffer. -/
def slice (d : List Nat) (off len : Nat) : List Nat := (d.drop off).take len

/-- The field of `len` bytes at offset `off` of a packed struct. -/
def field (d : List Nat) (off len : Nat) : Nat := decLE (slice d off len)

/-- The C call `memcpy(buf + off, src, src.length)` into a buffer large enough. -/
def bufwrite (buf : List Nat) (off : Nat) (src : List Nat) : List Nat :=
  buf.take off ++ src ++ buf.drop (off + src.length)

/-! ## Files -/

/-- An open regular file: its bytes and the offset of the descriptor. -/
structure File where
  data : List Nat
  pos : Nat
deriving DecidableEq, Repr

/-- A file just opened with `O_CREAT|O_TRUNC`. -/
def File.empty : File := ⟨[], 0⟩

/-- The call `lseek(fd, 0, SEEK_CUR)`. -/
def tell (f : File) : Nat := f.pos

/-- The call `lseek(fd, p, SEEK_SET)` for an offset `p` that is itself a file position
(obtained from `lseek` or by rounding one up to a sector); it cannot fail. -/
def seek (f : File) (p : Nat) : File := { f with pos := p }

/-- The call `lseek(fd, off, SEEK_SET)` where `off` is the result of `uint64_t`
arithmetic: the value is reduced modulo two to the 64 and, read as the signed
`off_t`, a negative offset makes the call fail and leaves the position alone. -/
def lseekSet (f : File) (off : Nat) : File :=
  if off % U64 < OFFMAX then { f with pos := off % U64 } else f

/-- The call `lseek(fd, off, SEEK_CUR)` with `off` a `uint64_t` expression. -/
def lseekCur (f : File) (off : Nat) : File :=
  let o := off % U64
  if o < OFFMAX then
    (if f.pos + o < OFFMAX then { f with pos := f.pos + o } else f)
  else
    (if U64 - o ≤ f.pos then { f with pos := f.pos - (U64 - o) } else f)

/-- The bytes `write(2)` leaves in a file: a write past the end fills the gap with
zero bytes, a write inside the file overwrites. -/
def pwrite (d : List Nat) (pos : Nat) (buf : List Nat) : List Nat :=
  (d ++ zeros (pos - d.length)).take pos ++ buf ++ d.drop (pos + buf.length)

/-- The function `awrite`: the whole buffer is written at the current offset
(a short write aborts); writing nothing changes nothing. -/
def awrite (f : File) (buf : List Nat) : File :=
  if buf = [] then f
  else { data := pwrite f.data f.pos buf, pos := f.pos + buf.length }

/-- The call `read(fd, buf, n)` on a regular file: the bytes obtained and the file. -/
def readRaw (f : File) (n : Nat) : List Nat × File :=
  let got := slice f.data f.pos n
  (got, { f with pos := f.pos + got.length })

/-- The function `aread`: the buffer of `n` bytes (zero filled after a short read),
the number of bytes obtained, and the file. -/
def aread (f : File) (n : Nat) : List Nat × Nat × File :=
  let r := readRaw f n
  (r.1 ++ zeros (n - r.1.length), r.1.length, r.2)

/-- The call `ftruncate(fd, len)` with `len` a `uint64_t` expression; `none` when it
fails (a negative `off_t`). The file offset is not changed. -/
def ftruncate (f : File) (len : Nat) : Option File :=
  if len % U64 < OFFMAX then
    some { f with data := (f.data ++ zeros (len % U64 - f.data.length)).take (len % U64) }
  else none

/-! ## The packed structs -/

/-- The C struct `SparseExtentHeader` (packed, 512 bytes). -/
structure SparseExtentHeader where
  magicNumber : Nat
  version : Nat
  flags : Nat
  capacity : Nat
  grainSize : Nat
  descriptorOffset : Nat
  descriptorSize : Nat
  numGTEsPerGT : Nat
  rgdOffset : Nat
  gdOffset : Nat
  overHead : Nat
  uncleanShutdown : Nat
  singleEndLineChar : Nat
  nonEndLineChar : Nat
  doubleEndLineChar1 : Nat
  doubleEndLineChar2 : Nat
  compressAlgorithm : Nat
  pad : List Nat
  streamoptimized : Nat
deriving DecidableEq, Repr

/-- The in-memory bytes of a header, as `awrite(ofd, &h, sizeof h, _)` sends them. -/
def encodeHeader (h : SparseExtentHeader) : List Nat :=
  encLE 4 h.magicNumber ++ encLE 4 h.version ++ encLE 4 h.flags ++
  encLE 8 h.capacity ++ encLE 8 h.grainSize ++ encLE 8 h.descriptorOffset ++
  encLE 8 h.descriptorSize ++ encLE 4 h.numGTEsPerGT ++ encLE 8 h.rgdOffset ++
  encLE 8 h.gdOffset ++ encLE 8 h.overHead ++ encLE 1 h.uncleanShutdown ++
  encLE 1 h.singleEndLineChar ++ encLE 1 h.nonEndLineChar ++
  encLE 1 h.doubleEndLineChar1 ++ encLE 1 h.doubleEndLineChar2 ++
  encLE 2 h.compressAlgorithm ++ (h.pad ++ zeros (432 - h.pad.length)).take 432 ++
  encLE 1 h.streamoptimized

/-- The header a 512-byte buffer holds, as `aread(fd, h, sizeof *h)` fills it. -/
def decodeHeader (b : List Nat) : SparseExtentHeader where
  magicNumber := field b 0 4
  version := field b 4 4
  flags := field b 8 4
  capacity := field b 12 8
  grainSize := field b 20 8
  descriptorOffset := field b 28 8
  descriptorSize := field b 36 8
  numGTEsPerGT := field b 44 4
  rgdOffset := field b 48 8
  gdOffset := field b 56 8
  overHead := field b 64 8
  uncleanShutdown := field b 72 1
  singleEndLineChar := field b 73 1
  nonEndLineChar := field b 74 1
  doubleEndLineChar1 := field b 75 1
  doubleEndLineChar2 := field b 76 1
  compressAlgorithm := field b 77 2
  pad := slice b 79 432
  streamoptimized := field b 511 1

/-- The C struct `Marker` (packed, 512 bytes): `val`, `size` and the 500-byte union
`u`, whose first four bytes are `u.type`. -/
structure Marker where
  val : Nat
  size : Nat
  data : List Nat
deriving DecidableEq, Repr

/-- The marker a 512-byte buffer holds. -/
def decodeMarker (b : List Nat) : Marker where
  val := field b 0 8
  size := field b 8 4
  data := slice b 12 500

/-- The member `u.type` of a marker. -/
def Marker.type (m : Marker) : Nat := field m.data 0 4

/-- The 512 bytes of a marker zeroed by `memset` or `calloc` and then given
`val`, `size = 0` and `u.type`. -/
def metaMarker (val type : Nat) : List Nat :=
  encLE 8 val ++ encLE 4 0 ++ encLE 4 type ++ zeros 496

/-! ## zlib -/

/-- The two zlib entry points used: `deflate g z` is the whole stream that
`deflateInit(z)` and `deflate(Z_FINISH)` produce for the grain `g`, and `inflate s` is
the output of `inflate(Z_FINISH)` when it ends with `Z_STREAM_END` having consumed
exactly `s`, `none` otherwise. -/
structure Codec where
  deflate : List Nat → Nat → List Nat
  inflate : List Nat → Option (List Nat)

/-- The contract assumed of zlib on 64KB grains: inflating a deflated grain gives
the grain back, a deflate stream is never empty, and with the 12 bytes of the
grain header before it, it is shorter than 4GB. -/
def Codec.Lossless (c : Codec) : Prop :=
  ∀ g z, g.length = GRAINBYTES →
    c.inflate (c.deflate g z) = some g ∧ 0 < (c.deflate g z).length ∧
      (c.deflate g z).length + 12 < U32

/-- A codec that stores the grain behind a one-byte tag. -/
def storedCodec : Codec where
  deflate := fun g _ => 1 :: g
  inflate := fun s => match s with
    | [] => none
    | _ :: g => some g

/-! ## Writing: `raw2grain` and `allraw2grains` -/

/-- The scan `for (i = n; i; i--) if (grain[i - 1]) break;` of `raw2grain`: the value of
`i` after the loop. -/
def scanNonzero (grain : List Nat) : Nat → Nat
  | 0 => 0
  | i + 1 => if grain.getD i 0 ≠ 0 then i + 1 else scanNonzero grain i

/-- The later passes of the `while (ret == Z_OK)` loop of `raw2grain`: each pass
hands `deflate` the whole 512-byte marker as output space and writes what was
produced; a pass that produces nothing writes nothing. -/
def writeChunks (f : File) : Nat → List Nat → File
  | 0, _ => f
  | fuel + 1, z => if z = [] then f else writeChunks (awrite f (z.take 512)) fuel (z.drop 512)

/-- The function `raw2grain`: the grain-table entry returned and the output file;
`none` when an assertion fails. -/
def raw2grain (c : Codec) (grain : List Nat) (ofd : File) (sec zstrength : Nat) :
    Option (Nat × File) :=
  if scanNonzero grain GRAINBYTES = 0 then some (0, ofd)
  else
    let start := tell ofd
    let z := c.deflate grain zstrength
    -- first pass: `m.val = sec`, `m.size = -1`, 500 bytes of output space after them
    let ofd := awrite ofd (encLE 8 sec ++ encLE 4 (U32 - 1) ++ z.take 500)
    let ofd := writeChunks ofd z.length (z.drop 500)
    let «end» := tell ofd
    if «end» - start ≤ 12 then none
    else
      let ofd := seek ofd start
      let ofd := awrite ofd (encLE 8 sec ++ encLE 4 («end» - start - 12))
      let «end» := if «end» % SECTORSZ ≠ 0 then («end» / SECTORSZ + 1) * SECTORSZ else «end»
      let ofd := seek ofd «end»
      some ((start / SECTORSZ) % U32, ofd)

/-- The header `allraw2grains` builds before the loop, with the two fields that are
assigned at the end as parameters. -/
def writerHeader (capacity gdOffset : Nat) : SparseExtentHeader where
  magicNumber := VMDK_MAGIC
  version := SET_VMDKVER
  flags := FLAGBIT_NL ||| FLAGBIT_COMPRESSED ||| FLAGBIT_MARKERS
  capacity := capacity
  grainSize := SET_GRAINSZ
  descriptorOffset := 512 / SECTORSZ
  descriptorSize := 512 / SECTORSZ
  numGTEsPerGT := SET_GTESPERGT
  rgdOffset := 0
  gdOffset := gdOffset
  overHead :=
    if MIN_HEADER_OVERHEAD * SECTORSZ < 512 + 512 then (512 + 512) / SECTORSZ + 1
    else MIN_HEADER_OVERHEAD
  uncleanShutdown := 0
  singleEndLineChar := 10
  nonEndLineChar := 32
  doubleEndLineChar1 := 13
  doubleEndLineChar2 := 10
  compressAlgorithm := COMPRESSION_DEFLATE
  pad := zeros 432
  streamoptimized := 0

/-- The bytes of an ASCII string. -/
def bytesOf (s : String) : List Nat := s.toList.map Char.toNat

/-- The conversion `%lu` of `snprintf` (64-bit `unsigned long`). -/
def fmtLu (n : Nat) : List Nat := (Nat.toDigits 10 (n % U64)).map Char.toNat

/-- The text `snprintf` formats in `allraw2grains`, given its two `%lu` arguments. -/
def descText (sectors cylinders : Nat) : List Nat :=
  bytesOf "# Disk DescriptorFile\nversion=1\nCID=278f54ff\nparentCID=ffffffff\n" ++
  bytesOf "createType=\"streamOptimized\"\n\n\n# Extent description\nRDONLY " ++
  fmtLu sectors ++
  bytesOf " SPARSE \"generated-stream.vmdk\"\n\n#DDB\nddb.virtualHWVersion = \"4\"\n" ++
  bytesOf "ddb.geometry.cylinders = \"" ++
  fmtLu cylinders ++
  bytesOf "\"\nddb.geometry.heads = \"255\"\nddb.geometry.sectors = \"63\"\n" ++
  bytesOf "ddb.adapterType = \"lsilogic\"\nddb.toolsVersion = \"6532\"\n"

/-- The array `descblk` after `memset` and `snprintf(descblk, sizeof descblk, ...)`,
for the final value of the variable `capacity` (in bytes). -/
def descblk (capacity : Nat) : List Nat :=
  let text := descText (capacity / SECTORSZ) (capacity / 63 / 255)
  (text.take 511 ++ zeros 512).take 512

/-- The variables of `allraw2grains` that live across its loop. `mdirsz` is the
length of `mdir`, and `mtbl` is the whole `SECTORSZ + mtblsz` byte buffer. -/
structure WState where
  ifd : File
  ofd : File
  mdir : List Nat
  mtbl : List Nat
  mdirent : Nat
  mtblent : Nat
  read_total : Nat
  sec : Nat
deriving DecidableEq, Repr

/-- The variable `mdirsz`. -/
def WState.mdirsz (s : WState) : Nat := s.mdir.length

/-- The variable `mtblsz`, `SET_GTESPERGT * sizeof(uint32_t)`. -/
@[reducible, simp] def mtblsz : Nat := SET_GTESPERGT * 4

/-- The state of `allraw2grains` on entering its loop. -/
def writerInit (ifd ofd : File) : WState where
  ifd := seek ifd 0
  ofd := seek ofd ((writerHeader 0 0).overHead * SECTORSZ)
  mdir := zeros (SECTORSZ * 2)
  mtbl := zeros (SECTORSZ + mtblsz)
  mdirent := 0
  mtblent := 0
  read_total := 0
  sec := 0

/-- The block of the loop that flushes the grain table and enters it in the
directory; `none` when the assertion on `mdirsz` fails. -/
def flushTable (s : WState) : Option WState :=
  let mtbl := bufwrite s.mtbl 0 (encLE 8 (mtblsz / SECTORSZ) ++ encLE 4 0 ++ encLE 4 MARKER_GT)
  let ent := (tell s.ofd / SECTORSZ + 1) % U32
  let ofd := awrite s.ofd mtbl
  let n := SECTORSZ / 4 + s.mdirent
  let grow := decide (n * 4 ≥ s.mdir.length)
  let mdir := if grow then s.mdir ++ zeros SECTORSZ else s.mdir
  if grow ∧ ¬ (n * 4 < mdir.length) then none
  else
    some { s with
      ofd := ofd
      mdir := bufwrite mdir (n * 4) (encLE 4 ent)
      mdirent := s.mdirent + 1
      mtbl := zeros (SECTORSZ + mtblsz)
      mtblent := 0 }

/-- One pass of the `for (sec = 0; got; sec += SET_GRAINSZ)` loop of `allraw2grains`:
the state after the pass and the value of `got`. -/
def writerPass (c : Codec) (capacity zstrength : Nat) (s : WState) : Option (WState × Nat) :=
  let r : List Nat × Nat × File :=
    if capacity ≠ 0 ∧ s.read_total ≥ capacity then ([], 0, s.ifd) else aread s.ifd GRAINBYTES
  let got := r.2.1
  let s1 : Option WState :=
    if got ≠ 0 then
      match raw2grain c r.1 s.ofd s.sec zstrength with
      | none => none
      | some (ent, ofd) =>
        some { s with
          ifd := r.2.2
          ofd := ofd
          read_total := (s.read_total + got) % U64
          mtbl := bufwrite s.mtbl (SECTORSZ + s.mtblent * 4) (encLE 4 ent)
          mtblent := s.mtblent + 1 }
    else some { s with ifd := r.2.2 }
  match s1 with
  | none => none
  | some s1 =>
    let s2 : Option WState :=
      if s1.mtblent = SET_GTESPERGT ∨ (s1.mtblent ≠ 0 ∧ got = 0) then flushTable s1 else some s1
    match s2 with
    | none => none
    | some s2 => some ({ s2 with sec := (s2.sec + SET_GRAINSZ) % U64 }, got)

/-- The loop of `allraw2grains`, run for at most `fuel` passes. -/
def writerLoop (c : Codec) (capacity zstrength : Nat) : Nat → WState → Option WState
  | 0, _ => none
  | fuel + 1, s =>
    match writerPass c capacity zstrength s with
    | none => none
    | some (s, got) => if got = 0 then some s else writerLoop c capacity zstrength fuel s

/-- The header `allraw2grains` ends up with, from the state after its loop. -/
def finalHeader (capacity : Nat) (s : WState) : SparseExtentHeader :=
  writerHeader ((if capacity = 0 then s.read_total else capacity) / SECTORSZ % U64)
    ((tell s.ofd / SECTORSZ + 1) % U32)

/-- The part of `allraw2grains` after its loop: grain directory, footer, header,
end-of-stream marker, then the header and descriptor block at the beginning. -/
def writerFinish (capacity : Nat) (s : WState) : File :=
  let mdir := bufwrite s.mdir 0
    (encLE 8 (s.mdirsz / SECTORSZ - 1) ++ encLE 4 0 ++ encLE 4 MARKER_GD)
  let h := finalHeader capacity s
  let ofd := awrite s.ofd mdir
  let ofd := awrite ofd (metaMarker (512 / SECTORSZ) MARKER_FOOTER)
  let capacity := if capacity = 0 then s.read_total else capacity
  let ofd := awrite ofd (encodeHeader h)
  let ofd := awrite ofd (metaMarker 0 MARKER_EOS)
  let ofd := seek ofd 0
  let ofd := awrite ofd (encodeHeader h)
  awrite ofd (descblk capacity)

/-- The state of `allraw2grains` when its loop ends; every pass but the last reads
at least one byte, so one pass per input byte and one more are enough. -/
def writerRun (c : Codec) (ifd : File) (capacity : Nat) (ofd : File) (zstrength : Nat) :
    Option WState :=
  writerLoop c capacity zstrength (ifd.data.length + 1) (writerInit ifd ofd)

/-- The function `allraw2grains`: the output file it leaves, `none` when an
assertion fails. -/
def allraw2grains (c : Codec) (ifd : File) (capacity : Nat) (ofd : File) (zstrength : Nat) :
    Option File :=
  (writerRun c ifd capacity ofd zstrength).map (writerFinish capacity)

/-! ## Inspection: `vmdkdesc` and `vmdkinfo` -/

/-- The C string a buffer holds: its bytes before the first NUL. -/
def cstr (buf : List Nat) : List Nat := buf.takeWhile (fun b => b ≠ 0)

/-- The test `strstr(hay, needle) != NULL` on the bytes of two C strings. -/
def strstr (hay needle : List Nat) : Bool := hay.tails.any (fun t => needle.isPrefixOf t)

/-- The needle of `vmdkinfo`. -/
def streamOptimizedTag : List Nat := bytesOf "createType=\"streamOptimized\""

/-- The function `vmdkdesc`: the descriptor buffer with its terminating NUL and the
file; `none` when an assertion fails. The size `descriptorSize * SECTORSZ + 1` of the
buffer is `uint64_t` arithmetic, and an allocation of two to the 63 bytes or more
fails. -/
def vmdkdesc (fd : File) (h : SparseExtentHeader) : Option (List Nat × File) :=
  if h.descriptorOffset = 0 then none
  else if h.descriptorSize = 0 then none
  else if OFFMAX ≤ (h.descriptorSize * SECTORSZ + 1) % U64 then none
  else
    let fd := lseekSet fd (h.descriptorOffset * SECTORSZ)
    let sz := (h.descriptorSize * SECTORSZ) % U64
    let r := aread fd sz
    some (r.1 ++ [0], r.2.2)

/-- The ways `vmdkinfo` ends: an assertion failure, `return 0` after the bad-magic
message, or `return 1`; the last two with the header filled in and the file. -/
inductive Info where
  | aborted
  | badMagic (h : SparseExtentHeader) (fd : File)
  | ok (h : SparseExtentHeader) (fd : File)
deriving DecidableEq, Repr

/-- The function `vmdkinfo` without diagnostics (`diag = 0`). -/
def vmdkinfo (fd : File) : Info :=
  let r := aread fd 512
  let h := decodeHeader r.1
  if h.magicNumber ≠ VMDK_MAGIC then Info.badMagic h r.2.2
  else
    match vmdkdesc r.2.2 h with
    | none => Info.aborted
    | some (dbuf, fd) =>
      Info.ok { h with streamoptimized := if strstr (cstr dbuf) streamOptimizedTag then 1 else 0 } fd

/-! ## Reading grains -/

/-- The function `marker2grain`: the grain buffer, the input file and the scratch
buffer `*buf` (whose length is `*bufsz`) afterwards; `none` when an assertion fails.
`m->size + 12` is `uint32_t` arithmetic, and an allocation of two to the 63 bytes
or more fails. -/
def marker2grain (c : Codec) (ifd : File) (h : SparseExtentHeader) (m : Marker)
    (grain buf : List Nat) : Option (List Nat × File × List Nat) :=
  let want := (m.size + 12) % U32
  let want := if want % SECTORSZ ≠ 0 then (want / SECTORSZ + 1) * SECTORSZ else want
  let need := (want + U64 - 12) % U64
  if buf.length < need ∧ OFFMAX ≤ need then none
  else
    let buf := if buf.length < need then buf ++ zeros (need - buf.length) else buf
    let buf := bufwrite buf 0 m.data
    let r : List Nat × File :=
      if want > SECTORSZ then
        let a := aread ifd (want - SECTORSZ)
        (bufwrite buf 500 a.1, a.2.2)
      else (buf, ifd)
    let buf := r.1
    let ifd := r.2
    if h.flags &&& FLAGBIT_COMPRESSED ≠ 0 ∧ h.compressAlgorithm = COMPRESSION_DEFLATE then
      match c.inflate (buf.take m.size) with
      | none => none
      | some g =>
        if g.length = (h.grainSize * SECTORSZ) % U64 % U32 then some (g, ifd, buf) else none
    else if h.flags &&& FLAGBIT_COMPRESSED = 0 ∨ h.compressAlgorithm = COMPRESSION_NONE then
      if m.size = (h.grainSize * SECTORSZ) % U64 then
        some (bufwrite grain 0 (buf.take m.size), ifd, buf)
      else none
    else some (grain, ifd, buf)

/-- The value of a `uint64_t` after `return` through `int` (two's complement). -/
def toInt32 (x : Nat) : Int := if x % U32 < 2147483648 then (x % U32 : Nat) else (x % U32 : Nat) - (U32 : Int)

/-- The value of an `int` assigned to a `uint64_t` variable. -/
def ofInt64 (i : Int) : Nat := (i % (U64 : Int)).toNat

/-- The function `dirblks`; `none` is the division by zero. -/
def dirblks (h : SparseExtentHeader) : Option Int :=
  if h.grainSize = 0 ∨ h.numGTEsPerGT = 0 then none
  else
    let blks := (h.capacity * SECTORSZ) % U64
    let blks := (blks / h.grainSize + (if blks % h.grainSize ≠ 0 then 1 else 0)) % U64
    let blks := (blks / h.numGTEsPerGT + (if blks % h.numGTEsPerGT ≠ 0 then 1 else 0)) % U64
    let blks := (blks * 4) % U64
    let blks := (blks / SECTORSZ + (if blks % h.numGTEsPerGT ≠ 0 then 1 else 0)) % U64
    let blks := if blks % SECTORSZ ≠ 0 then (blks + SECTORSZ) % U64 else blks
    let blks := blks / SECTORSZ
    some (toInt32 blks)

/-- The function `readentry`: the 32-bit entry and the input file. -/
def readentry (ifd : File) (sec entry : Nat) : Nat × File :=
  let itemsperblock := SECTORSZ / 4
  let ifd := lseekSet ifd ((sec + entry / itemsperblock) * SECTORSZ)
  let r := aread ifd SECTORSZ
  (field r.1 (4 * (entry % 128)) 4, r.2.2)

/-- The files and the scratch buffer that `allgrains2raw` threads through
`grain2raw`. -/
structure RState where
  ifd : File
  ofd : File
  dbuf : List Nat
deriving DecidableEq, Repr

/-- The function `grain2raw` without diagnostics; `none` when an assertion fails or
`numGTEsPerGT` is zero. The size `grainSize * SECTORSZ` of the grain buffer is
`uint64_t` arithmetic, and an allocation of two to the 63 bytes or more fails. -/
def grain2raw (c : Codec) (h : SparseExtentHeader) (n : Nat) (s : RState) : Option RState :=
  if h.numGTEsPerGT = 0 then none
  else
    let t := readentry s.ifd h.gdOffset (n / h.numGTEsPerGT)
    if t.1 = 0 then some { s with ifd := t.2 }
    else
      let b := readentry t.2 t.1 (n % h.numGTEsPerGT)
      if b.1 ≤ 1 then some { s with ifd := b.2 }
      else
        let blk := (b.1 * SECTORSZ) % U64
        let ifd := lseekSet b.2 blk
        let r := aread ifd 512
        let m := decodeMarker r.1
        if m.size = 0 then none
        else if m.val ≠ (n * h.grainSize) % U64 then none
        else if OFFMAX ≤ (h.grainSize * SECTORSZ) % U64 then none
        else
          match marker2grain c r.2.2 h m (zeros ((h.grainSize * SECTORSZ) % U64)) s.dbuf with
          | none => none
          | some (grain, ifd, dbuf) =>
            let ofd := lseekSet s.ofd (n * h.grainSize * SECTORSZ)
            some { ifd := ifd, ofd := awrite ofd grain, dbuf := dbuf }

/-- The loop `for (n = 0; n < grains; n++)` of `allgrains2raw`, with `count` passes
left and `n` the next grain. -/
def grainLoop (c : Codec) (h : SparseExtentHeader) : Nat → Nat → RState → Option RState
  | 0, _, s => some s
  | count + 1, n, s =>
    match grain2raw c h n s with
    | none => none
    | some s => grainLoop c h count (n + 1) s

/-- The function `allgrains2raw`: the two files afterwards; `none` when an assertion
fails or `grainSize` is zero. -/
def allgrains2raw (c : Codec) (ifd : File) (h : SparseExtentHeader) (ofd : File) :
    Option (File × File) :=
  if h.grainSize = 0 then none
  else
    let grains := (h.capacity / h.grainSize + (if h.capacity % h.grainSize ≠ 0 then 1 else 0)) % U64
    (grainLoop c h grains 0 { ifd := ifd, ofd := ofd, dbuf := [] }).map (fun s => (s.ifd, s.ofd))

/-- The function `setsize`; `none` when the assertion on `ftruncate` fails. -/
def setsize (fd : File) (capacity : Nat) : Option File :=
  if fd.data.length ≠ (capacity * SECTORSZ) % U64 then
    let fd := lseekSet fd (capacity * SECTORSZ)
    let fd := awrite fd [0]
    ftruncate fd (capacity * SECTORSZ)
  else some fd

/-! ## The stream parser -/

/-- How a loop that may not terminate ends within its fuel. -/
inductive Run (α : Type) where
  | done (a : α)
  | aborted
  | outOfFuel
deriving DecidableEq, Repr

/-- The variables of `vmdkparsestream` that live across its loop. -/
structure PState where
  ifd : File
  ofd : File
  h : SparseExtentHeader
  grain : List Nat
  dbuf : List Nat
  eos : Bool
deriving DecidableEq, Repr

/-- The body of the `while` loop of `vmdkparsestream` for the marker `m` just read,
without diagnostics; `none` when an assertion fails. -/
def parseMarker (c : Codec) (mtblblks mdirblks : Nat) (m : Marker) (s : PState) :
    Option PState :=
  if m.size ≠ 0 then
    let ofd := lseekSet s.ofd (m.val * SECTORSZ)
    match marker2grain c s.ifd s.h m s.grain s.dbuf with
    | none => none
    | some (grain, ifd, dbuf) =>
      some { s with ifd := ifd, ofd := awrite ofd grain, grain := grain, dbuf := dbuf }
  else if m.type = MARKER_GT then
    if m.val ≠ mtblblks then none
    else some { s with ifd := lseekCur s.ifd (m.val * SECTORSZ) }
  else if m.type = MARKER_GD then
    if m.val ≠ mdirblks then none
    else some { s with ifd := lseekCur s.ifd (m.val * SECTORSZ) }
  else if m.type = MARKER_FOOTER then
    let pos := (tell s.ifd + m.val * SECTORSZ) % U64
    if ¬ (512 ≤ (m.val * SECTORSZ) % U64) then none
    else
      match vmdkinfo s.ifd with
      | Info.ok f ifd =>
        let h := if s.h.gdOffset = U64 - 1 then { s.h with gdOffset := f.gdOffset } else s.h
        some { s with ifd := lseekSet ifd pos, h := h }
      | _ => none
  else if m.type = MARKER_EOS then some { s with eos := true }
  else some s

/-- The `while (read(ifd, buf, sizeof buf) == sizeof buf)` loop of `vmdkparsestream`,
run for at most `fuel` passes. -/
def parseLoop (c : Codec) (mtblblks mdirblks : Nat) : Nat → PState → Run PState
  | 0, _ => Run.outOfFuel
  | fuel + 1, s =>
    let r := readRaw s.ifd 512
    if r.1.length = 512 then
      match parseMarker c mtblblks mdirblks (decodeMarker r.1) { s with ifd := r.2 } with
      | none => Run.aborted
      | some s => parseLoop c mtblblks mdirblks fuel s
    else Run.done { s with ifd := r.2 }

/-- The function `vmdkparsestream` without diagnostics, its loop given `fuel` passes:
the state it ends in (the header, whose `gdOffset` it may set, and the output
file among it). An allocation of two to the 63 bytes or more for the grain buffer
fails. -/
def vmdkparsestream (c : Codec) (fuel : Nat) (ifd : File) (h : SparseExtentHeader)
    (ofd : File) : Run PState :=
  match dirblks h with
  | none => Run.aborted
  | some d =>
    if OFFMAX ≤ (h.grainSize * SECTORSZ) % U64 then Run.aborted
    else
      parseLoop c (h.numGTEsPerGT * 4 / SECTORSZ) (ofInt64 d) fuel
        { ifd := ifd, ofd := ofd, h := h, grain := zeros ((h.grainSize * SECTORSZ) % U64),
          dbuf := [], eos := false }

/-! ## The three uses `main` makes of these functions -/

/-- How a run of the program ends: `return code`, an abort, the raw image written
by `-r` or `-s`, or a loop still running when the fuel ends. -/
inductive Outcome where
  | exit (code : Nat)
  | aborted
  | output (raw : List Nat)
  | outOfFuel
deriving DecidableEq, Repr

/-- The footer search of `main` (taken when `h.gdOffset + 1 == 0`) on a regular file
of `insz` bytes: the header found after the footer marker. -/
def findFooter (ifd : File) (insz : Nat) : Outcome ⊕ SparseExtentHeader × File :=
  let sec := ((insz + U64 - 512 - SECTORSZ * 2) % U64) / SECTORSZ
  let ifd := lseekSet ifd (sec * SECTORSZ)
  let r := aread ifd SECTORSZ
  let m := decodeMarker r.1
  if m.size ≠ 0 ∨ m.type ≠ MARKER_FOOTER then Sum.inl (Outcome.exit 8)
  else
    match vmdkinfo r.2.2 with
    | Info.ok h fd => Sum.inr (h, fd)
    | _ => Sum.inl Outcome.aborted

/-- The program run as `vmdktool -r out.raw file` on a regular file. -/
def mainRandom (c : Codec) (file : List Nat) : Outcome :=
  let ifd : File := ⟨file, 0⟩
  if file.length < 512 + SECTORSZ then Outcome.exit 5
  else
    match vmdkinfo ifd with
    | Info.aborted => Outcome.aborted
    | Info.badMagic _ _ => Outcome.exit 6
    | Info.ok h ifd =>
      let r : Outcome ⊕ SparseExtentHeader × File :=
        if (h.gdOffset + 1) % U64 = 0 then findFooter ifd file.length else Sum.inr (h, ifd)
      match r with
      | Sum.inl o => o
      | Sum.inr (h, ifd) =>
        match allgrains2raw c ifd h File.empty with
        | none => Outcome.aborted
        | some (_, ofd) =>
          match setsize ofd h.capacity with
          | none => Outcome.aborted
          | some ofd => Outcome.output ofd.data

/-- The program run as `vmdktool -s out.raw file` on a regular file, the stream
parser given `fuel` passes. With an unknown compression method the output
descriptor is -1 and no write or `fstat` on it succeeds. -/
def mainStream (c : Codec) (fuel : Nat) (file : List Nat) : Outcome :=
  let ifd : File := ⟨file, 0⟩
  if file.length < 512 + SECTORSZ then Outcome.exit 5
  else
    match vmdkinfo ifd with
    | Info.aborted => Outcome.aborted
    | Info.badMagic _ _ => Outcome.exit 6
    | Info.ok h ifd =>
      if h.streamoptimized = 0 then Outcome.exit 10
      else if h.flags &&& FLAGBIT_COMPRESSED ≠ 0 ∧ h.compressAlgorithm ≠ COMPRESSION_NONE ∧
          h.compressAlgorithm ≠ COMPRESSION_DEFLATE then Outcome.aborted
      else
        match vmdkparsestream c fuel (lseekSet ifd (h.overHead * SECTORSZ)) h File.empty with
        | Run.aborted => Outcome.aborted
        | Run.outOfFuel => Outcome.outOfFuel
        | Run.done s =>
          match setsize s.ofd h.capacity with
          | none => Outcome.aborted
          | some ofd => Outcome.output ofd.data

/-! ## The layout the writer produces -/

/-- The bytes of a file as a write at the current offset finds them: the data,
continued with zero bytes up to the offset. -/
def File.view (f : File) : List Nat := f.data ++ zeros (f.pos - f.data.length)

/-- The offset is at or past the end of the file. -/
def File.AtEnd (f : File) : Prop := f.data.length ≤ f.pos

/-- The bytes of a table of 32-bit entries. -/
def enc32s : List Nat → List Nat
  | [] => []
  | e :: es => encLE 4 e ++ enc32s es

/-- The sectors a grain takes in the output: marker head, deflate stream, and
the zero bytes up to the next sector. -/
def grainSeg (sec : Nat) (zs : List Nat) : List Nat :=
  encLE 8 sec ++ encLE 4 zs.length ++ zs ++
    zeros ((12 + zs.length + 511) / 512 * 512 - (12 + zs.length))

/-- The five sectors of a grain table: marker and the entries `cur`, zero filled. -/
def tableSeg (cur : List Nat) : List Nat :=
  metaMarker 4 MARKER_GT ++ enc32s cur ++ zeros (2048 - 4 * cur.length)

/-- What the writer has produced after some passes of its loop: the output bytes
`V`, the entries `cur` of the grain table being filled, the directory entries
`tbls`, the number `n` of grains read, their bytes `img` and the grain-table
entries `ents` made for them. -/
structure AState where
  V : List Nat
  cur : List Nat
  tbls : List Nat
  n : Nat
  img : List Nat
  ents : List Nat

/-- The layout before the first pass: the reserved overhead. -/
def AState.init : AState := ⟨zeros 65536, [], [], 0, [], []⟩

/-- The layout after a grain table is flushed. -/
def AState.flush (a : AState) : AState :=
  { a with V := a.V ++ tableSeg a.cur, cur := [], tbls := a.tbls ++ [(a.V.length / 512 + 1) % U32] }

/-- The layout after the grain `g` is added, before any flush. -/
def AState.add (c : Codec) (z : Nat) (a : AState) (g : List Nat) : AState :=
  if scanNonzero g GRAINBYTES = 0 then
    { a with cur := a.cur ++ [0], n := a.n + 1, img := a.img ++ g, ents := a.ents ++ [0] }
  else
    { a with V := a.V ++ grainSeg (a.n * 128 % U64) (c.deflate g z),
             cur := a.cur ++ [(a.V.length / 512) % U32], n := a.n + 1, img := a.img ++ g,
             ents := a.ents ++ [(a.V.length / 512) % U32] }

/-- The layout after a pass of the loop that read the grain `g`. -/
def AState.pass (c : Codec) (z : Nat) (a : AState) (g : List Nat) : AState :=
  if (a.add c z g).cur.length = 512 then (a.add c z g).flush else a.add c z g

/-- The layout after the last pass, which reads nothing. -/
def AState.last (a : AState) : AState := if a.cur.length ≠ 0 then a.flush else a

/-- The state of the writer holds the layout `a`. -/
structure Sim (s : WState) (a : AState) : Prop where
  atEnd : s.ofd.AtEnd
  view : s.ofd.view = a.V
  aligned : a.V.length % 512 = 0
  mtblent : s.mtblent = a.cur.length
  mtbl : s.mtbl = zeros 512 ++ enc32s a.cur ++ zeros (2048 - 4 * a.cur.length)
  mdirent : s.mdirent = a.tbls.length
  mdir : ∃ r, r % 4 = 0 ∧ s.mdir = zeros 512 ++ enc32s a.tbls ++ zeros r ∧
    s.mdir.length % 512 = 0
  mdirlen : s.mdir.length = 512 + 512 * max 1 ((a.tbls.length + 127) / 128)

/-- The buffer `grain` after `aread` has read it from the input `raw` at some
offset before the end. -/
def IsGrainOf (raw g : List Nat) : Prop :=
  ∃ pos, pos < raw.length ∧
    g = slice raw pos GRAINBYTES ++ zeros (GRAINBYTES - min GRAINBYTES (raw.length - pos))

/-- The layouts the loop of the writer can reach on the input `raw`. -/
inductive Reach (c : Codec) (z : Nat) (raw : List Nat) : AState → Prop where
  | init : Reach c z raw AState.init
  | pass (a : AState) (g : List Nat) : Reach c z raw a → IsGrainOf raw g →
      Reach c z raw (a.pass c z g)

/-- How the grains read so far relate to the input `raw`. -/
structure SimIn (raw : List Nat) (s : WState) (a : AState) : Prop where
  data : s.ifd.data = raw
  total : s.read_total = s.ifd.pos
  le : s.ifd.pos ≤ raw.length
  img : a.img = raw.take s.ifd.pos ++ zeros (a.img.length - s.ifd.pos)
  imglen : a.img.length = a.n * 65536
  posle : s.ifd.pos ≤ a.img.length
  eof : s.ifd.pos < a.img.length → s.ifd.pos = raw.length
  tight : a.img.length < s.ifd.pos + 65536
  sec : s.sec = a.n * 128 % U64

/-- The sectors of the grain directory: marker, entries, and `r` zero bytes. -/
def dirSeg (tbls : List Nat) (r : Nat) : List Nat :=
  metaMarker ((512 + 4 * tbls.length + r) / 512 - 1) MARKER_GD ++ enc32s tbls ++ zeros r

/-- The bytes of a finished VMDK: header, descriptor block, the rest of the
overhead, the grains and grain tables `S`, the grain directory, and the footer. -/
def vmdkBytes (h : SparseExtentHeader) (desc S dir : List Nat) : List Nat :=
  encodeHeader h ++ desc ++ zeros 64512 ++ S ++ dir ++ metaMarker 1 MARKER_FOOTER ++
    encodeHeader h ++ metaMarker 0 MARKER_EOS

/-- What `allraw2grains` has written: the layout `a` the loop reached, the number
`rt` of input bytes read, and the bytes of the output file. -/
structure Written (c : Codec) (z : Nat) (raw : List Nat) (cap : Nat) (f : File)
    (a : AState) (S : List Nat) (r rt : Nat) : Prop where
  reach : Reach c z raw a
  stream : a.last.V = zeros 65536 ++ S
  r4 : r % 4 = 0
  dirlen : 4 * a.last.tbls.length + r = 512 * max 1 ((a.last.tbls.length + 127) / 128)
  data : f.data = vmdkBytes
    (writerHeader ((if cap = 0 then rt else cap) / SECTORSZ % U64)
      ((a.last.V.length / SECTORSZ + 1) % U32))
    (descblk (if cap = 0 then rt else cap)) S (dirSeg a.last.tbls r)
  rtle : rt ≤ raw.length
  img : a.img = raw.take rt ++ zeros (a.img.length - rt)
  imglen : a.img.length = a.n * 65536
  rtimg : rt ≤ a.img.length
  tight : a.img.length < rt + 65536
  all : cap = 0 → rt = raw.length

/-- In the output bytes `V`, the grain `g` with logical number `n` has the
grain-table entry `e`: zero for an all-zero grain, and otherwise the low 32 bits of
the sector where the grain's marker and deflate stream are. -/
def GrainAt (c : Codec) (z : Nat) (V : List Nat) (n : Nat) (g : List Nat) (e : Nat) : Prop :=
  (scanNonzero g GRAINBYTES = 0 ∧ e = 0) ∨
  (scanNonzero g GRAINBYTES ≠ 0 ∧ ∃ p, p % 512 = 0 ∧ 65536 ≤ p ∧ e = (p / 512) % U32 ∧
    p + (grainSeg (n * 128 % U64) (c.deflate g z)).length ≤ V.length ∧
    slice V p (grainSeg (n * 128 % U64) (c.deflate g z)).length
      = grainSeg (n * 128 % U64) (c.deflate g z))

/-- In the output bytes `V`, a grain table with the entries `es` has the directory
entry `t`: the low 32 bits of the sector after the table's marker. -/
def TableAt (V es : List Nat) (t : Nat) : Prop :=
  ∃ p, p % 512 = 0 ∧ 65536 ≤ p ∧ t = (p / 512 + 1) % U32 ∧ p + 2560 ≤ V.length ∧
    slice V p 2560 = tableSeg es

/-- What holds of every layout of the writer: each grain read so far has its
entry, and each flushed table holds the entries of its 512 grains. -/
structure Facts (c : Codec) (z : Nat) (a : AState) : Prop where
  aligned : a.V.length % 512 = 0
  big : 65536 ≤ a.V.length
  ents_len : a.ents.length = a.n
  imglen : a.img.length = a.n * 65536
  grains : ∀ n, n < a.n →
    GrainAt c z a.V n (slice a.img (n * 65536) 65536) (a.ents.getD n 0)
  tables : ∀ k, k < a.tbls.length →
    TableAt a.V ((a.ents.drop (512 * k)).take 512) (a.tbls.getD k 0)

/-- The raw image `img` written so far, as far as the output file goes: the file
is a prefix of it and the rest of it is zero. -/
def OutData (od img : List Nat) : Prop :=
  od.length ≤ img.length ∧ od ++ zeros (img.length - od.length) = img

/-- The header fields the readers use are those the writer sets. -/
def HOK (h : SparseExtentHeader) : Prop :=
  h.flags &&& FLAGBIT_COMPRESSED ≠ 0 ∧ h.compressAlgorithm = 1 ∧ h.grainSize = 128 ∧
    h.numGTEsPerGT = 512

/-- The file `D` holds the output bytes `V` from the end of the overhead on. -/
def Agree (D V : List Nat) : Prop :=
  65536 ≤ V.length ∧ ∃ P T : List Nat, P.length = 65536 ∧ D = P ++ V.drop 65536 ++ T

/-- Started after the overhead of the file `D` with an empty output, the loop of
`vmdkparsestream` gets to offset `V.length` having written the image `img`. -/
def Stream (c : Codec) (md : Nat) (D V img : List Nat) : Prop :=
  ∀ s : PState, s.ifd = ⟨D, 65536⟩ → s.ofd.data = [] → HOK s.h →
    ∃ s' k, (∀ fuel, parseLoop c 4 md (fuel + k) s = parseLoop c 4 md fuel s') ∧
      k ≤ (V.length - 65536) / 512 ∧ s'.ifd = ⟨D, V.length⟩ ∧
      OutData s'.ofd.data img ∧ s'.h = s.h

/-- The constant start of the descriptor text, up to the extent line's number. -/
def descHead : List Nat :=
  bytesOf "# Disk DescriptorFile\nversion=1\nCID=278f54ff\nparentCID=ffffffff\n" ++
  bytesOf "createType=\"streamOptimized\"\n\n\n# Extent description\nRDONLY "

/-- The number of sectors of the grain directory after its marker, for `t` tables. -/
def dirSects (t : Nat) : Nat := max 1 ((t + 127) / 128)

/-- The file `D`, of whole sectors and smaller than 2 TiB, holds the finished layout
`A` of the writer followed by the grain directory with `r` zero bytes of fill. -/
structure Laid (c : Codec) (z : Nat) (D : List Nat) (A : AState) (r : Nat) : Prop where
  facts : Facts c z A
  agree : Agree D A.V
  whole : D.length % 512 = 0
  small : D.length < 2199023255552
  dir : slice D A.V.length (dirSeg A.tbls r).length = dirSeg A.tbls r
  dirin : A.V.length + (dirSeg A.tbls r).length ≤ D.length
  cover : A.tbls.length = (A.n + 511) / 512
  nsmall : A.n < 549755813888

/-- The marker in sector `sec` of the file `D`. -/
def markerAt (D : List Nat) (sec : Nat) : Marker := decodeMarker (slice D (sec * 512) 512)

/-! ## The footer -/

/-- The file `D` with the `gdOffset` field of the header at offset 0 overwritten by
the all-ones value that sends `main` to the footer. -/
def withSentinel (D : List Nat) : List Nat := bufwrite D 56 (encLE 8 (U64 - 1))

/-- An image of 33291799 grains of 64 KiB, every byte 1. -/
def bigImage : List Nat := List.replicate 2181811339264 1

/-- The quotient of `a` by `b`, rounded up. -/
def ceilDiv (a b : Nat) : Nat := (a + b - 1) / b

/-- The number of directory sectors as the specification states it: the sectors that
hold four bytes for each grain table the capacity needs. -/
def dirblksSpec (h : SparseExtentHeader) : Nat :=
  ceilDiv (4 * ceilDiv (ceilDiv h.capacity h.grainSize) h.numGTEsPerGT) 512

/-! ## The directory buffer of the writer -/

/-- The size of the directory buffer `mdir` for the tables entered so far: the
sector of the marker and one sector for every 128 tables or part of them, at least
one. -/
def DirOK (s : WState) : Prop :=
  s.mdir.length = 512 + 512 * max 1 ((s.mdirent + 127) / 128)

/-- The grain tables flushed so far have their markers in the sectors `qs` of the
output bytes `V`, in the order of flushing, and the directory entries `tbls` are the
low 32 bits of the sectors after the markers. -/
def TableSects (V tbls qs : List Nat) : Prop :=
  qs.length = tbls.length ∧
  (∀ k, k < qs.length → 128 ≤ qs.getD k 0 ∧ qs.getD k 0 * 512 + 2560 ≤ V.length ∧
    slice V (qs.getD k 0 * 512) 512 = metaMarker 4 MARKER_GT ∧
    tbls.getD k 0 = (qs.getD k 0 + 1) % U32) ∧
  ∀ i j, i < j → j < qs.length → qs.getD i 0 < qs.getD j 0

/-! # Theorems -/

/-! ## Lists of bytes -/

theorem take_append_add {α : Type} (a b : List α) (n k : Nat) (h : n = a.length + k) :
    (a ++ b).take n = a ++ b.take k := by
  subst h
  rw [List.take_append_eq_append_take]
  simp

theorem drop_append_add {α : Type} (a b : List α) (n k : Nat) (h : n = a.length + k) :
    (a ++ b).drop n = b.drop k := by
  subst h
  rw [List.drop_append_eq_append_drop]
  simp

@[simp] theorem length_zeros (n : Nat) : (zeros n).length = n := by simp [zeros]

theorem zeros_add (a b : Nat) : zeros (a + b) = zeros a ++ zeros b := by
  unfold zeros
  rw [List.replicate_add]

@[simp] theorem zeros_zero : zeros 0 = [] := rfl

theorem take_zeros (n k : Nat) : (zeros n).take k = zeros (min k n) := by
  simp [zeros, List.take_replicate]

theorem drop_zeros (n k : Nat) : (zeros n).drop k = zeros (n - k) := by
  simp [zeros, List.drop_replicate]

@[simp] theorem length_encLE (n v : Nat) : (encLE n v).length = n := by
  induction n generalizing v with
  | zero => rfl
  | succ n ih => simp [encLE, ih]

theorem decLE_encLE (n v : Nat) : decLE (encLE n v) = v % 256 ^ n := by
  induction n generalizing v with
  | zero => simp [encLE, decLE, Nat.mod_one]
  | succ n ih =>
    simp only [encLE, decLE, ih]
    rw [pow_succ, Nat.mul_comm (256 ^ n) 256, Nat.mod_mul]

theorem decLE_zeros (n : Nat) : decLE (zeros n) = 0 := by
  unfold zeros
  induction n with
  | zero => rfl
  | succ n ih => rw [List.replicate_succ, decLE, ih]

theorem length_slice (d : List Nat) (off len : Nat) :
    (slice d off len).length = min len (d.length - off) := by
  simp [slice]

theorem slice_append_left (a b : List Nat) (off len : Nat) (h : off + len ≤ a.length) :
    slice (a ++ b) off len = slice a off len := by
  unfold slice
  rw [List.drop_append_of_le_length (by omega), List.take_append_of_le_length]
  simp; omega

theorem slice_append_right (a b : List Nat) (off len k : Nat) (h : off = a.length + k) :
    slice (a ++ b) off len = slice b k len := by
  unfold slice
  rw [drop_append_add a b off k h]

theorem slice_zero_length (a b : List Nat) : slice (a ++ b) 0 a.length = a := by
  simp [slice]

theorem slice_mid (a m b : List Nat) (off len : Nat) (ho : off = a.length)
    (hl : len = m.length) : slice (a ++ m ++ b) off len = m := by
  subst ho hl
  simp [slice]

/-! ## Files -/

theorem length_pwrite (d : List Nat) (p : Nat) (buf : List Nat) :
    (pwrite d p buf).length = max d.length (p + buf.length) := by
  simp [pwrite]; omega

theorem pwrite_pwrite (d : List Nat) (p : Nat) (a b : List Nat) :
    pwrite (pwrite d p a) (p + a.length) b = pwrite d p (a ++ b) := by
  have hT : ((d ++ zeros (p - d.length)).take p).length = p := by simp; omega
  unfold pwrite
  set T := (d ++ zeros (p - d.length)).take p with hTdef
  have h1 : ((T ++ a ++ d.drop (p + a.length)) ++
      zeros (p + a.length - (T ++ a ++ d.drop (p + a.length)).length)).take (p + a.length)
      = T ++ a := by
    rw [List.append_assoc (T ++ a)]
    rw [take_append_add (T ++ a) _ (p + a.length) 0 (by simp [hT])]
    simp
  have h2 : (T ++ a ++ d.drop (p + a.length)).drop (p + a.length + b.length)
      = d.drop (p + (a ++ b).length) := by
    rw [drop_append_add (T ++ a) _ (p + a.length + b.length) b.length (by simp [hT])]
    simp [List.drop_drop]; congr 1; omega
  rw [h1, h2]
  simp [List.append_assoc]

@[simp] theorem awrite_pos (f : File) (buf : List Nat) :
    (awrite f buf).pos = f.pos + buf.length := by
  unfold awrite
  split
  · next h => simp [h]
  · rfl

theorem awrite_nil (f : File) : awrite f [] = f := by simp [awrite]

theorem awrite_data (f : File) (buf : List Nat) (h : buf ≠ []) :
    (awrite f buf).data = pwrite f.data f.pos buf := by
  simp [awrite, h]

theorem awrite_awrite (f : File) (a b : List Nat) :
    awrite (awrite f a) b = awrite f (a ++ b) := by
  by_cases ha : a = []
  · subst ha; simp [awrite_nil]
  by_cases hb : b = []
  · subst hb; simp [awrite_nil]
  have hab : a ++ b ≠ [] := by simp [ha]
  simp only [awrite, ha, hb, hab, if_false]
  rw [pwrite_pwrite]
  simp [Nat.add_assoc]

theorem writeChunks_eq (f : File) (fuel : Nat) (z : List Nat) (h : z.length ≤ fuel) :
    writeChunks f fuel z = awrite f z := by
  induction fuel generalizing f z with
  | zero =>
    have : z = [] := List.eq_nil_of_length_eq_zero (by omega)
    subst this; simp [writeChunks, awrite_nil]
  | succ fuel ih =>
    unfold writeChunks
    split
    · next hz => subst hz; simp [awrite_nil]
    · next hz =>
      have hl : 0 < z.length := List.length_pos.mpr hz
      rw [ih _ _ (by simp; omega), awrite_awrite, List.take_append_drop]

theorem pwrite_overwrite (d : List Nat) (p : Nat) (a a' b : List Nat) (h : a'.length = a.length) :
    pwrite (pwrite d p (a ++ b)) p a' = pwrite d p (a' ++ b) := by
  have hT : ((d ++ zeros (p - d.length)).take p).length = p := by simp; omega
  unfold pwrite
  set T := (d ++ zeros (p - d.length)).take p with hTdef
  have h1 : ((T ++ (a ++ b) ++ d.drop (p + (a ++ b).length)) ++
      zeros (p - (T ++ (a ++ b) ++ d.drop (p + (a ++ b).length)).length)).take p = T := by
    rw [List.append_assoc T, List.append_assoc T]
    rw [take_append_add T _ p 0 (by simp [hT])]
    simp
  have h2 : (T ++ (a ++ b) ++ d.drop (p + (a ++ b).length)).drop (p + a'.length)
      = b ++ d.drop (p + (a' ++ b).length) := by
    rw [show T ++ (a ++ b) ++ d.drop (p + (a ++ b).length)
        = (T ++ a) ++ (b ++ d.drop (p + (a ++ b).length)) by simp [List.append_assoc]]
    rw [drop_append_add (T ++ a) _ (p + a'.length) 0 (by simp [hT, h])]
    simp [h]
  rw [h1, h2]
  simp [List.append_assoc]

theorem slice_pwrite_self (d : List Nat) (p : Nat) (buf : List Nat) :
    slice (pwrite d p buf) p buf.length = buf := by
  unfold pwrite
  apply slice_mid
  · simp; omega
  · rfl

theorem slice_pwrite_prefix (d : List Nat) (p : Nat) (a b : List Nat) :
    slice (pwrite d p (a ++ b)) p a.length = a := by
  have := slice_pwrite_self d p (a ++ b)
  unfold slice at this ⊢
  have h2 := congrArg (List.take a.length) this
  rw [List.take_take] at h2
  simpa using h2

theorem scanNonzero_eq_zero (g : List Nat) (n : Nat) :
    scanNonzero g n = 0 ↔ ∀ i, i < n → g.getD i 0 = 0 := by
  induction n with
  | zero => simp [scanNonzero]
  | succ n ih =>
    unfold scanNonzero
    by_cases h : g.getD n 0 = 0
    · simp only [h, ne_eq, not_true_eq_false, if_false, ih]
      constructor
      · intro hh i hi
        rcases Nat.lt_succ_iff_lt_or_eq.mp hi with h1 | h1
        · exact hh i h1
        · subst h1; exact h
      · intro hh i hi
        exact hh i (by omega)
    · simp only [ne_eq, h, not_false_eq_true, if_true]
      constructor
      · intro hh; omega
      · intro hh; exact absurd (hh n (by omega)) h

theorem scanNonzero_zeros (n : Nat) : scanNonzero (zeros n) n = 0 := by
  rw [scanNonzero_eq_zero]
  intro i hi
  simp [zeros, List.getD_eq_getElem?_getD, List.getElem?_replicate, hi]

theorem eq_zeros_of_scan (g : List Nat) (h : scanNonzero g g.length = 0) :
    g = zeros g.length := by
  rw [scanNonzero_eq_zero] at h
  apply List.ext_getElem
  · simp
  · intro i h1 h2
    have := h i h1
    simp [List.getD_eq_getElem?_getD, List.getElem?_eq_getElem h1] at this
    simp [zeros, this]

/-- The output file of `raw2grain` for a grain with data. -/
theorem raw2grain_nonzero (c : Codec) (grain : List Nat) (ofd : File) (sec z : Nat)
    (hnz : scanNonzero grain GRAINBYTES ≠ 0) (hc : 0 < (c.deflate grain z).length) :
    raw2grain c grain ofd sec z = some ((ofd.pos / 512) % U32,
      ⟨pwrite ofd.data ofd.pos
          (encLE 8 sec ++ encLE 4 (c.deflate grain z).length ++ c.deflate grain z),
        (ofd.pos + 12 + (c.deflate grain z).length + 511) / 512 * 512⟩) := by
  unfold raw2grain
  rw [if_neg hnz]
  simp only [tell]
  rw [writeChunks_eq _ _ _ (by simp), awrite_awrite]
  have hcat : encLE 8 sec ++ encLE 4 (U32 - 1) ++ List.take 500 (c.deflate grain z) ++
      List.drop 500 (c.deflate grain z)
      = (encLE 8 sec ++ encLE 4 (U32 - 1)) ++ c.deflate grain z := by
    rw [List.append_assoc _ (List.take 500 _), List.take_append_drop]
  rw [hcat]
  have hne : (encLE 8 sec ++ encLE 4 (U32 - 1)) ++ c.deflate grain z ≠ [] := by
    intro h
    have := congrArg List.length h
    simp at this
  have hpos : (awrite ofd ((encLE 8 sec ++ encLE 4 (U32 - 1)) ++ c.deflate grain z)).pos
      = ofd.pos + 12 + (c.deflate grain z).length := by
    simp; omega
  rw [hpos]
  have hgt : ¬ (ofd.pos + 12 + (c.deflate grain z).length - ofd.pos ≤ 12) := by omega
  rw [if_neg hgt]
  have hlen : ofd.pos + 12 + (c.deflate grain z).length - ofd.pos - 12
      = (c.deflate grain z).length := by omega
  rw [hlen]
  have hne2 : encLE 8 sec ++ encLE 4 (c.deflate grain z).length ≠ [] := by
    intro h
    have := congrArg List.length h
    simp at this
  simp only [seek, awrite, hne, hne2, if_false, SECTORSZ]
  rw [pwrite_overwrite _ _ _ _ _ (by simp)]
  congr 2
  congr 1
  split <;> omega

/-- The result of `raw2grain` for an all-zero grain. -/
theorem raw2grain_zero (c : Codec) (grain : List Nat) (ofd : File) (sec z : Nat)
    (hz : scanNonzero grain GRAINBYTES = 0) :
    raw2grain c grain ofd sec z = some (0, ofd) := by
  unfold raw2grain
  rw [if_pos hz]

theorem slice_slice (d : List Nat) (p n o l : Nat) (h : o + l ≤ n) :
    slice (slice d p n) o l = slice d (p + o) l := by
  unfold slice
  rw [List.drop_take, List.take_take, List.drop_drop]
  congr 1
  omega

theorem pwrite_eq (d : List Nat) (p : Nat) (buf : List Nat) :
    ∃ T D : List Nat, T.length = p ∧ pwrite d p buf = T ++ buf ++ D := by
  refine ⟨(d ++ zeros (p - d.length)).take p, d.drop (p + buf.length), ?_, rfl⟩
  simp; omega

theorem slice_pwrite_mid (d : List Nat) (p : Nat) (a m b : List Nat) :
    slice (pwrite d p (a ++ m ++ b)) (p + a.length) m.length = m := by
  obtain ⟨T, D, hT, h⟩ := pwrite_eq d p (a ++ m ++ b)
  rw [h]
  rw [show T ++ (a ++ m ++ b) ++ D = (T ++ a) ++ m ++ (b ++ D) by simp [List.append_assoc]]
  apply slice_mid
  · simp [hT]
  · rfl

theorem field_encLE (n v : Nat) : field (encLE n v) 0 n = v % 256 ^ n := by
  unfold field slice
  rw [List.drop_zero, List.take_of_length_le (by simp), decLE_encLE]

/-- The entry `raw2grain` returns is the low 32 bits of the starting sector. -/
theorem raw2grain_entry (c : Codec) (grain : List Nat) (ofd : File) (sec z : Nat)
    (hnz : scanNonzero grain GRAINBYTES ≠ 0) (hc : 0 < (c.deflate grain z).length) :
    (raw2grain c grain ofd sec z).map Prod.fst = some ((ofd.pos / 512) % U32) := by
  rw [raw2grain_nonzero c grain ofd sec z hnz hc]
  rfl

/-- The function `setsize` when the multiplication does not wrap into a negative
`off_t`. -/
theorem setsize_eq (fd : File) (capacity : Nat) (h : capacity * SECTORSZ < OFFMAX) :
    ∃ fd', setsize fd capacity = some fd' ∧
      fd'.data = (fd.data ++ zeros (capacity * SECTORSZ - fd.data.length)).take
        (capacity * SECTORSZ) ∧
      (fd.data.length = capacity * SECTORSZ → fd' = fd) := by
  have hm : capacity * SECTORSZ % U64 = capacity * SECTORSZ := Nat.mod_eq_of_lt (by simp at h ⊢; omega)
  unfold setsize
  rw [hm]
  by_cases he : fd.data.length = capacity * SECTORSZ
  · refine ⟨fd, by simp [he], ?_, fun _ => rfl⟩
    rw [← he]; simp
  · rw [if_pos he]
    have hs : lseekSet fd (capacity * SECTORSZ) = ⟨fd.data, capacity * SECTORSZ⟩ := by
      unfold lseekSet; rw [hm, if_pos h]
    rw [hs]
    unfold ftruncate
    rw [hm, if_pos h]
    refine ⟨_, rfl, ?_, fun h' => absurd h' he⟩
    have hw : (awrite ⟨fd.data, capacity * SECTORSZ⟩ [0]).data
        = pwrite fd.data (capacity * SECTORSZ) [0] := by
      simp [awrite]
    simp only [hw]
    obtain ⟨T, D, hT, hp⟩ := pwrite_eq fd.data (capacity * SECTORSZ) [0]
    have hTe : T = (fd.data ++ zeros (capacity * SECTORSZ - fd.data.length)).take
        (capacity * SECTORSZ) := by
      have h1 : (pwrite fd.data (capacity * SECTORSZ) [0]).take (capacity * SECTORSZ) = T := by
        rw [hp, List.append_assoc, take_append_add T _ _ 0 (by simp [hT])]; simp
      rw [← h1]
      unfold pwrite
      rw [List.append_assoc, take_append_add _ _ _ 0 (by simp; omega)]
      simp
    rw [hp, List.append_assoc, List.append_assoc, take_append_add T _ _ 0 (by simp [hT])]
    simp [hTe]

@[simp] theorem length_enc32s (es : List Nat) : (enc32s es).length = 4 * es.length := by
  induction es with
  | nil => rfl
  | cons e es ih => simp [enc32s, ih]; omega

theorem enc32s_append (a b : List Nat) : enc32s (a ++ b) = enc32s a ++ enc32s b := by
  induction a with
  | nil => rfl
  | cons e es ih => simp [enc32s, ih]

@[simp] theorem length_grainSeg (sec : Nat) (zs : List Nat) :
    (grainSeg sec zs).length = (12 + zs.length + 511) / 512 * 512 := by
  simp [grainSeg]; omega

@[simp] theorem length_metaMarker (v t : Nat) : (metaMarker v t).length = 512 := by
  simp [metaMarker]

theorem length_tableSeg (cur : List Nat) (h : cur.length ≤ 512) :
    (tableSeg cur).length = 2560 := by
  simp [tableSeg]; omega

theorem view_length (f : File) (h : f.AtEnd) : f.view.length = f.pos := by
  unfold File.AtEnd at h
  simp [File.view]; omega

theorem awrite_atEnd (f : File) (buf : List Nat) (h : f.AtEnd) : (awrite f buf).AtEnd := by
  unfold File.AtEnd at *
  unfold awrite
  split
  · exact h
  · simp [length_pwrite]; omega

theorem pwrite_atEnd (d : List Nat) (p : Nat) (buf : List Nat) (h : d.length ≤ p) :
    pwrite d p buf = d ++ zeros (p - d.length) ++ buf := by
  unfold pwrite
  rw [List.take_of_length_le (by simp; omega), List.drop_of_length_le (by omega)]
  simp

theorem awrite_view (f : File) (buf : List Nat) (h : f.AtEnd) :
    (awrite f buf).view = f.view ++ buf := by
  unfold File.AtEnd at h
  by_cases hb : buf = []
  · subst hb; simp [awrite_nil]
  · unfold File.view
    rw [awrite_data f buf hb, awrite_pos, pwrite_atEnd _ _ _ h]
    have : f.pos + buf.length - (f.data ++ zeros (f.pos - f.data.length) ++ buf).length = 0 := by
      simp; omega
    rw [this]; simp

/-- After a write at or past the end the file holds exactly its view. -/
theorem awrite_data_view (f : File) (buf : List Nat) (h : f.AtEnd) (hb : buf ≠ []) :
    (awrite f buf).data = f.view ++ buf := by
  unfold File.AtEnd at h
  rw [awrite_data f buf hb, pwrite_atEnd _ _ _ h]
  rfl

theorem bufwrite_append_zeros (A x : List Nat) (r off : Nat) (_h : x.length ≤ r)
    (hoff : off = A.length) :
    bufwrite (A ++ zeros r) off x = A ++ x ++ zeros (r - x.length) := by
  subst hoff
  unfold bufwrite
  rw [List.take_left, drop_append_add A _ _ x.length rfl, drop_zeros]

theorem bufwrite_zeros_head (B x : List Nat) (k : Nat) (h : x.length ≤ k) :
    bufwrite (zeros k ++ B) 0 x = x ++ zeros (k - x.length) ++ B := by
  unfold bufwrite
  rw [List.take_zero, Nat.zero_add, List.nil_append]
  rw [List.drop_append_of_le_length (by simp; omega), drop_zeros, List.append_assoc]

/-- The function `raw2grain` on a grain with data appends the grain's sectors. -/
theorem raw2grain_view (c : Codec) (grain : List Nat) (ofd : File) (sec z : Nat)
    (hAt : ofd.AtEnd) (hal : ofd.pos % 512 = 0)
    (hnz : scanNonzero grain GRAINBYTES ≠ 0) (hc : 0 < (c.deflate grain z).length) :
    ∃ ofd', raw2grain c grain ofd sec z = some ((ofd.pos / 512) % U32, ofd') ∧
      ofd'.AtEnd ∧ ofd'.view = ofd.view ++ grainSeg sec (c.deflate grain z) := by
  refine ⟨_, raw2grain_nonzero c grain ofd sec z hnz hc, ?_, ?_⟩
  · unfold File.AtEnd at *
    show (pwrite _ _ _).length ≤ _
    rw [length_pwrite]
    simp only [List.length_append, length_encLE]
    omega
  · unfold File.AtEnd at hAt
    unfold File.view grainSeg
    show pwrite _ _ _ ++ zeros (_ - (pwrite _ _ _).length) = _
    rw [pwrite_atEnd _ _ _ hAt]
    simp only [List.append_assoc, List.length_append, length_encLE, length_zeros]
    simp only [List.append_cancel_left_eq]
    apply congrArg zeros
    omega

theorem Sim.pos {s : WState} {a : AState} (h : Sim s a) : s.ofd.pos = a.V.length := by
  rw [← h.view, view_length _ h.atEnd]

/-- Entering a grain-table entry in the buffer `mtbl`. -/
theorem mtbl_enter (cur : List Nat) (e : Nat) (h : cur.length < 512) :
    bufwrite (zeros 512 ++ enc32s cur ++ zeros (2048 - 4 * cur.length))
      (SECTORSZ + cur.length * 4) (encLE 4 e)
    = zeros 512 ++ enc32s (cur ++ [e]) ++ zeros (2048 - 4 * (cur ++ [e]).length) := by
  rw [bufwrite_append_zeros _ _ _ _ (by simp; omega) (by simp; omega)]
  rw [enc32s_append]
  simp [enc32s, List.append_assoc]
  apply congrArg zeros
  omega

/-- The grain-table buffer once its marker is filled in. -/
theorem mtbl_marker (cur : List Nat) :
    bufwrite (zeros 512 ++ enc32s cur ++ zeros (2048 - 4 * cur.length)) 0
      (encLE 8 (mtblsz / SECTORSZ) ++ encLE 4 0 ++ encLE 4 MARKER_GT)
    = tableSeg cur := by
  rw [List.append_assoc, bufwrite_zeros_head _ _ _ (by simp)]
  simp [tableSeg, metaMarker, List.append_assoc]

/-- The directory buffer after a grain table is entered in it. -/
theorem mdir_enter (tbls : List Nat) (r e : Nat) (hr : r % 4 = 0)
    (hlen : (512 + 4 * tbls.length + r) % 512 = 0) :
    ∃ r', r' % 4 = 0 ∧ (512 + 4 * (tbls.length + 1) + r') % 512 = 0 ∧
      r' = (if (128 + tbls.length) * 4 ≥ 512 + 4 * tbls.length + r then 508 else r - 4) ∧
      bufwrite (if (128 + tbls.length) * 4 ≥ 512 + 4 * tbls.length + r
          then (zeros 512 ++ enc32s tbls ++ zeros r) ++ zeros 512
          else zeros 512 ++ enc32s tbls ++ zeros r) ((128 + tbls.length) * 4) (encLE 4 e)
        = zeros 512 ++ enc32s (tbls ++ [e]) ++ zeros r' := by
  by_cases hg : (128 + tbls.length) * 4 ≥ 512 + 4 * tbls.length + r
  · have hr0 : r = 0 := by omega
    subst hr0
    refine ⟨508, by decide, by omega, by rw [if_pos hg], ?_⟩
    rw [if_pos hg, zeros_zero, List.append_nil]
    rw [bufwrite_append_zeros _ _ _ _ (by simp) (by simp; omega)]
    simp [enc32s_append, enc32s, List.append_assoc]
  · refine ⟨r - 4, by omega, by omega, by rw [if_neg hg], ?_⟩
    rw [if_neg hg]
    rw [bufwrite_append_zeros _ _ _ _ (by simp; omega) (by simp; omega)]
    simp [enc32s_append, enc32s, List.append_assoc]

/-- Flushing the grain table, on the layout. -/
theorem flushTable_sim (s : WState) (a : AState) (h : Sim s a) (hc : a.cur.length ≤ 512)
    (hm : s.mtbl = zeros 512 ++ enc32s a.cur ++ zeros (2048 - 4 * a.cur.length)) :
    ∃ s', flushTable s = some s' ∧ Sim s' a.flush ∧ s'.ifd = s.ifd ∧
      s'.read_total = s.read_total ∧ s'.sec = s.sec := by
  obtain ⟨r, hr4, hmdir, hlen⟩ := h.mdir
  have hlen' : (512 + 4 * a.tbls.length + r) % 512 = 0 := by
    rw [hmdir] at hlen
    simp only [List.length_append, length_zeros, length_enc32s] at hlen
    exact hlen
  obtain ⟨r', hr', hlen2, hr'eq, hbuf⟩ :=
    mdir_enter a.tbls r ((a.V.length / 512 + 1) % U32) hr4 hlen'
  have hml : s.mdir.length = 512 + 4 * a.tbls.length + r := by
    rw [hmdir]; simp only [List.length_append, length_zeros, length_enc32s]
  unfold flushTable
  simp only [tell]
  rw [hm, mtbl_marker, h.pos, h.mdirent]
  simp only [SECTORSZ, Nat.reduceDiv, decide_eq_true_eq, List.length_append, length_zeros, hml]
  have hlt : ¬ ((128 + a.tbls.length) * 4 ≥ 512 + 4 * a.tbls.length + r ∧
      ¬ (128 + a.tbls.length) * 4 <
        (if (128 + a.tbls.length) * 4 ≥ 512 + 4 * a.tbls.length + r
          then s.mdir ++ zeros 512 else s.mdir).length) := by
    intro ⟨h1, h2⟩
    rw [if_pos h1] at h2
    simp only [List.length_append, length_zeros, hml] at h2
    omega
  rw [if_neg hlt]
  refine ⟨_, rfl, ?_, rfl, rfl, rfl⟩
  constructor
  · exact awrite_atEnd _ _ h.atEnd
  · simp only [awrite_view _ _ h.atEnd, h.view, AState.flush]
  · simp only [AState.flush, List.length_append, length_tableSeg _ hc]
    have := h.aligned
    omega
  · simp only [AState.flush, List.length_nil]
  · show zeros (512 + 2048) = (zeros 512 ++ []) ++ zeros 2048
    rw [List.append_nil]
    exact zeros_add 512 2048
  · simp only [AState.flush, List.length_append, List.length_singleton]
  · refine ⟨r', hr', ?_, ?_⟩
    · simp only [AState.flush]
      rw [← hbuf, hmdir]
    · show (bufwrite _ _ _).length % 512 = 0
      rw [hmdir, hbuf]
      simp only [List.length_append, length_zeros, length_enc32s, List.length_singleton]
      exact hlen2
  · show (bufwrite _ _ _).length = _
    have hmlen := h.mdirlen
    rw [hml] at hmlen
    rw [hmdir, hbuf]
    simp only [List.length_append, length_zeros, length_enc32s, List.length_singleton,
      AState.flush]
    rw [hr'eq]
    split <;> omega

theorem IsGrainOf.grain_length {raw g : List Nat} (h : IsGrainOf raw g) : g.length = GRAINBYTES := by
  obtain ⟨pos, _, hg⟩ := h
  rw [hg]
  simp only [List.length_append, length_slice, length_zeros, GRAINBYTES]
  omega

theorem Reach.cur_lt {c : Codec} {z : Nat} {raw : List Nat} {a : AState}
    (h : Reach c z raw a) :
    a.cur.length < 512 := by
  induction h with
  | init => simp [AState.init]
  | pass a g _ _ ih =>
    unfold AState.pass
    split
    · simp [AState.flush]
    · rename_i hne
      have : (a.add c z g).cur.length = a.cur.length + 1 := by
        unfold AState.add; split <;> simp
      omega

theorem aread_fst_length (f : File) (n : Nat) : (aread f n).1.length = n := by
  simp [aread, readRaw, length_slice]

theorem aread_got (f : File) (n : Nat) : (aread f n).2.1 = min n (f.data.length - f.pos) := by
  simp [aread, readRaw, length_slice]

theorem aread_file (f : File) (n : Nat) :
    (aread f n).2.2 = ⟨f.data, f.pos + min n (f.data.length - f.pos)⟩ := by
  simp [aread, readRaw, length_slice]

theorem aread_buf (f : File) (n : Nat) :
    (aread f n).1 = slice f.data f.pos n ++ zeros (n - min n (f.data.length - f.pos)) := by
  simp [aread, readRaw, length_slice]

/-- Adding a grain, on the layout: what `raw2grain` and the entry in `mtbl` do. -/
theorem add_sim (c : Codec) (z : Nat) (hc : c.Lossless) (s : WState) (a : AState)
    (h : Sim s a) (hcur : a.cur.length < 512) (g : List Nat) (hg : g.length = GRAINBYTES) :
    ∃ ent ofd, raw2grain c g s.ofd (a.n * 128 % U64) z = some (ent, ofd) ∧
      Sim { s with ofd := ofd,
                   mtbl := bufwrite s.mtbl (SECTORSZ + s.mtblent * 4) (encLE 4 ent),
                   mtblent := s.mtblent + 1 } (a.add c z g) ∧
      (a.add c z g).cur.length = a.cur.length + 1 := by
  have hal : s.ofd.pos % 512 = 0 := by rw [h.pos]; exact h.aligned
  by_cases hz : scanNonzero g GRAINBYTES = 0
  · refine ⟨0, s.ofd, raw2grain_zero c g s.ofd _ z hz, ?_, ?_⟩
    · have hadd : a.add c z g = { a with
          cur := a.cur ++ [0], n := a.n + 1, img := a.img ++ g, ents := a.ents ++ [0] } := by
        unfold AState.add; rw [if_pos hz]
      rw [hadd]
      constructor
      · exact h.atEnd
      · exact h.view
      · exact h.aligned
      · show s.mtblent + 1 = (a.cur ++ [0]).length
        rw [h.mtblent]; simp
      · show bufwrite s.mtbl _ _ = _
        rw [h.mtbl, h.mtblent, mtbl_enter _ _ hcur]
      · exact h.mdirent
      · exact h.mdir
      · exact h.mdirlen
    · unfold AState.add; rw [if_pos hz]; simp
  · obtain ⟨hl1, hl2, hl3⟩ := hc g z hg
    obtain ⟨ofd', hr, hat, hv⟩ := raw2grain_view c g s.ofd (a.n * 128 % U64) z h.atEnd hal hz hl2
    refine ⟨_, ofd', hr, ?_, ?_⟩
    · have hadd : a.add c z g = { a with
          V := a.V ++ grainSeg (a.n * 128 % U64) (c.deflate g z),
          cur := a.cur ++ [(a.V.length / 512) % U32], n := a.n + 1, img := a.img ++ g,
          ents := a.ents ++ [(a.V.length / 512) % U32] } := by
        unfold AState.add; rw [if_neg hz]
      rw [hadd]
      constructor
      · exact hat
      · show ofd'.view = _
        rw [hv, h.view]
      · show (a.V ++ grainSeg _ _).length % 512 = 0
        rw [List.length_append, length_grainSeg]
        have := h.aligned
        omega
      · show s.mtblent + 1 = (a.cur ++ [_]).length
        rw [h.mtblent]; simp
      · show bufwrite s.mtbl _ _ = _
        rw [h.mtbl, h.mtblent, h.pos, mtbl_enter _ _ hcur]
      · exact h.mdirent
      · exact h.mdir
      · exact h.mdirlen
    · unfold AState.add; rw [if_neg hz]; simp

theorem AState.add_n (c : Codec) (z : Nat) (a : AState) (g : List Nat) :
    (a.add c z g).n = a.n + 1 ∧ (a.add c z g).img = a.img ++ g ∧
      (a.add c z g).tbls = a.tbls := by
  unfold AState.add; split <;> simp

theorem AState.pass_n (c : Codec) (z : Nat) (a : AState) (g : List Nat) :
    (a.pass c z g).n = a.n + 1 ∧ (a.pass c z g).img = a.img ++ g := by
  unfold AState.pass
  split
  · exact ⟨(AState.add_n c z a g).1, (AState.add_n c z a g).2.1⟩
  · exact ⟨(AState.add_n c z a g).1, (AState.add_n c z a g).2.1⟩

/-- A pass of the loop that reads a grain and does not fill the table. -/
theorem writerPass_grain (c : Codec) (cap z : Nat) (s : WState)
    (hcap : ¬ (cap ≠ 0 ∧ s.read_total ≥ cap)) (hgot : (aread s.ifd GRAINBYTES).2.1 ≠ 0)
    (ent : Nat) (ofd : File)
    (hr : raw2grain c (aread s.ifd GRAINBYTES).1 s.ofd s.sec z = some (ent, ofd))
    (hne : s.mtblent + 1 ≠ SET_GTESPERGT) :
    writerPass c cap z s = some ({ s with
        ifd := (aread s.ifd GRAINBYTES).2.2
        ofd := ofd
        read_total := (s.read_total + (aread s.ifd GRAINBYTES).2.1) % U64
        mtbl := bufwrite s.mtbl (SECTORSZ + s.mtblent * 4) (encLE 4 ent)
        mtblent := s.mtblent + 1
        sec := (s.sec + SET_GRAINSZ) % U64 }, (aread s.ifd GRAINBYTES).2.1) := by
  unfold writerPass
  simp only [if_neg hcap, hgot, ne_eq, not_false_eq_true, if_true, hr, hne, false_or, and_false,
    if_false]

/-- A pass of the loop that reads a grain and fills the table. -/
theorem writerPass_grain_flush (c : Codec) (cap z : Nat) (s : WState)
    (hcap : ¬ (cap ≠ 0 ∧ s.read_total ≥ cap)) (hgot : (aread s.ifd GRAINBYTES).2.1 ≠ 0)
    (ent : Nat) (ofd : File)
    (hr : raw2grain c (aread s.ifd GRAINBYTES).1 s.ofd s.sec z = some (ent, ofd))
    (he : s.mtblent + 1 = SET_GTESPERGT) (s2 : WState)
    (hf : flushTable { s with
        ifd := (aread s.ifd GRAINBYTES).2.2
        ofd := ofd
        read_total := (s.read_total + (aread s.ifd GRAINBYTES).2.1) % U64
        mtbl := bufwrite s.mtbl (SECTORSZ + s.mtblent * 4) (encLE 4 ent)
        mtblent := s.mtblent + 1 } = some s2) :
    writerPass c cap z s = some ({ s2 with sec := (s2.sec + SET_GRAINSZ) % U64 },
      (aread s.ifd GRAINBYTES).2.1) := by
  unfold writerPass
  rw [he] at hf
  simp only [if_neg hcap, hgot, ne_eq, not_false_eq_true, if_true, hr, he, true_or, hf]

theorem Sim.congr {s s' : WState} {a : AState} (h : Sim s a) (h1 : s'.ofd = s.ofd)
    (h2 : s'.mtbl = s.mtbl) (h3 : s'.mtblent = s.mtblent) (h4 : s'.mdir = s.mdir)
    (h5 : s'.mdirent = s.mdirent) : Sim s' a := by
  constructor
  · rw [h1]; exact h.atEnd
  · rw [h1]; exact h.view
  · exact h.aligned
  · rw [h3]; exact h.mtblent
  · rw [h2]; exact h.mtbl
  · rw [h5]; exact h.mdirent
  · rw [h4]; exact h.mdir
  · rw [h4]; exact h.mdirlen

/-- A pass of the loop that reads a grain, on the layout. -/
theorem grainPass_sim (c : Codec) (z : Nat) (hc : c.Lossless) (raw : List Nat) (cap : Nat)
    (s : WState) (a : AState) (h : Sim s a) (hi : SimIn raw s a) (hcur : a.cur.length < 512)
    (hL : raw.length < U64) (hcap : ¬ (cap ≠ 0 ∧ s.read_total ≥ cap))
    (hpos : s.ifd.pos < raw.length) :
    ∃ s' got g, writerPass c cap z s = some (s', got) ∧ got ≠ 0 ∧ IsGrainOf raw g ∧
      Sim s' (a.pass c z g) ∧ SimIn raw s' (a.pass c z g) ∧ s.ifd.pos < s'.ifd.pos := by
  have hgot : (aread s.ifd GRAINBYTES).2.1 ≠ 0 := by
    rw [aread_got, hi.data]; simp only [GRAINBYTES]; omega
  have hglen := aread_fst_length s.ifd GRAINBYTES
  have hgrain : IsGrainOf raw (aread s.ifd GRAINBYTES).1 := by
    refine ⟨s.ifd.pos, hpos, ?_⟩
    rw [aread_buf, hi.data]
  obtain ⟨ent, ofd, hr, hsim0, hlen⟩ :=
    add_sim c z hc s a h hcur (aread s.ifd GRAINBYTES).1 hglen
  rw [← hi.sec] at hr
  have hsim : Sim { s with
        ifd := (aread s.ifd GRAINBYTES).2.2
        ofd := ofd
        read_total := (s.read_total + (aread s.ifd GRAINBYTES).2.1) % U64
        mtbl := bufwrite s.mtbl (SECTORSZ + s.mtblent * 4) (encLE 4 ent)
        mtblent := s.mtblent + 1 } (a.add c z (aread s.ifd GRAINBYTES).1) :=
    hsim0.congr rfl rfl rfl rfl rfl
  have hposeq : s.ifd.pos = a.img.length := by
    have h1 := hi.posle
    have h2 := hi.eof
    omega
  obtain ⟨hn, himg⟩ := AState.pass_n c z a (aread s.ifd GRAINBYTES).1
  -- the input side, for any state with the new input file, total and sector
  have hin : ∀ s' : WState, s'.ifd = (aread s.ifd GRAINBYTES).2.2 →
      s'.read_total = (s.read_total + (aread s.ifd GRAINBYTES).2.1) % U64 →
      s'.sec = (s.sec + SET_GRAINSZ) % U64 →
      SimIn raw s' (a.pass c z (aread s.ifd GRAINBYTES).1) ∧ s.ifd.pos < s'.ifd.pos := by
    intro s' h1 h2 h3
    have hfile := aread_file s.ifd GRAINBYTES
    have hg := aread_got s.ifd GRAINBYTES
    rw [hi.data] at hfile hg
    have hp' : s'.ifd.pos = s.ifd.pos + min 65536 (raw.length - s.ifd.pos) := by
      rw [h1, hfile]
    refine ⟨⟨?_, ?_, ?_, ?_, ?_, ?_, ?_, ?_, ?_⟩, ?_⟩
    · rw [h1, hfile]
    · rw [h2, hi.total, hg, hp']
      apply Nat.mod_eq_of_lt
      simp only [U64] at hL ⊢
      simp only [GRAINBYTES]
      omega
    · rw [hp']; omega
    · rw [himg, hp', aread_buf, hi.data]
      rw [hi.img]
      simp only [List.length_append, length_zeros, List.length_take, length_slice, GRAINBYTES]
      rw [← hposeq]
      have e1 : min s.ifd.pos raw.length = s.ifd.pos := by omega
      rw [e1]
      have e2 : s.ifd.pos - s.ifd.pos = 0 := by omega
      rw [e2, zeros_zero, List.append_nil]
      have e3 : List.take (s.ifd.pos + min 65536 (raw.length - s.ifd.pos)) raw
          = List.take s.ifd.pos raw ++ slice raw s.ifd.pos 65536 := by
        unfold slice
        rw [List.take_add]
        congr 1
        by_cases hh : 65536 ≤ raw.length - s.ifd.pos
        · rw [Nat.min_eq_left hh]
        · rw [Nat.min_eq_right (by omega), List.take_of_length_le (by simp),
            List.take_of_length_le (by simp; omega)]
      rw [e3, List.append_assoc]
      simp only [List.append_cancel_left_eq]
      apply congrArg zeros
      omega
    · rw [himg, List.length_append, hglen, hn, hi.imglen]; simp only [GRAINBYTES]; omega
    · rw [himg, List.length_append, hglen, hp', ← hposeq]; simp only [GRAINBYTES]; omega
    · intro hlt
      rw [himg, List.length_append, hglen, hp', ← hposeq] at hlt
      simp only [GRAINBYTES] at hlt
      rw [hp']; omega
    · rw [himg, List.length_append, hglen, hp', ← hposeq]; simp only [GRAINBYTES]; omega
    · rw [h3, hi.sec, hn]; simp only [SET_GRAINSZ, U64]; omega
    · rw [hp']; omega
  by_cases he : s.mtblent + 1 = SET_GTESPERGT
  · -- the table is full and is flushed
    have hc512 : (a.add c z (aread s.ifd GRAINBYTES).1).cur.length ≤ 512 := by
      rw [hlen]; omega
    obtain ⟨s2, hf, hsim2, hifd, htot, hsec⟩ := flushTable_sim _ _ hsim hc512 hsim.mtbl
    have hpass : a.pass c z (aread s.ifd GRAINBYTES).1
        = (a.add c z (aread s.ifd GRAINBYTES).1).flush := by
      unfold AState.pass
      rw [if_pos (by rw [hlen, ← h.mtblent]; exact he)]
    refine ⟨_, _, _, writerPass_grain_flush c cap z s hcap hgot ent ofd hr he s2 hf, hgot, hgrain,
      ?_, ?_⟩
    · rw [hpass]
      exact ⟨hsim2.atEnd, hsim2.view, hsim2.aligned, hsim2.mtblent, hsim2.mtbl, hsim2.mdirent,
        hsim2.mdir, hsim2.mdirlen⟩
    · exact hin _ hifd htot (by show (s2.sec + SET_GRAINSZ) % U64 = _; rw [hsec])
  · have hpass : a.pass c z (aread s.ifd GRAINBYTES).1 = a.add c z (aread s.ifd GRAINBYTES).1 := by
      unfold AState.pass
      rw [if_neg (by rw [hlen, ← h.mtblent]; exact he)]
    refine ⟨_, _, _, writerPass_grain c cap z s hcap hgot ent ofd hr he, hgot, hgrain, ?_, ?_⟩
    · rw [hpass]
      exact ⟨hsim.atEnd, hsim.view, hsim.aligned, hsim.mtblent, hsim.mtbl, hsim.mdirent,
        hsim.mdir, hsim.mdirlen⟩
    · exact hin _ rfl rfl rfl

/-- The last pass of the loop, which reads nothing, on the layout. -/
theorem lastPass_sim (c : Codec) (z : Nat) (raw : List Nat) (cap : Nat)
    (s : WState) (a : AState) (h : Sim s a) (hd : s.ifd.data = raw)
    (hcur : a.cur.length < 512)
    (hend : (cap ≠ 0 ∧ s.read_total ≥ cap) ∨ raw.length ≤ s.ifd.pos) :
    ∃ s', writerPass c cap z s = some (s', 0) ∧ Sim s' a.last ∧ s'.ifd = s.ifd ∧
      s'.read_total = s.read_total := by
  have hr : (if cap ≠ 0 ∧ s.read_total ≥ cap then (([] : List Nat), 0, s.ifd)
      else aread s.ifd GRAINBYTES).2 = (0, s.ifd) := by
    by_cases hcap : cap ≠ 0 ∧ s.read_total ≥ cap
    · rw [if_pos hcap]
    · rw [if_neg hcap]
      have hp : raw.length ≤ s.ifd.pos := by
        rcases hend with h1 | h1
        · exact absurd h1 hcap
        · exact h1
      have h0 : min GRAINBYTES (s.ifd.data.length - s.ifd.pos) = 0 := by
        rw [hd]; omega
      apply Prod.ext
      · rw [aread_got, h0]
      · show (aread s.ifd GRAINBYTES).2.2 = s.ifd
        rw [aread_file, h0]
        rfl
  have hr1 := congrArg Prod.fst hr
  have hr2 := congrArg Prod.snd hr
  simp only at hr1 hr2
  by_cases hm : s.mtblent = 0
  · refine ⟨{ s with sec := (s.sec + SET_GRAINSZ) % U64 }, ?_, ?_, rfl, rfl⟩
    · unfold writerPass
      simp only [hr1, hr2, ne_eq, not_true_eq_false, if_false, hm, and_true]
      simp
    · have : a.last = a := by
        unfold AState.last
        rw [if_neg (by rw [← h.mtblent, hm]; simp)]
      rw [this]
      exact h.congr rfl rfl rfl rfl rfl
  · obtain ⟨s2, hf, hsim2, hifd, htot, _⟩ := flushTable_sim s a h (by omega) h.mtbl
    refine ⟨{ s2 with sec := (s2.sec + SET_GRAINSZ) % U64 }, ?_, ?_, hifd, htot⟩
    · unfold writerPass
      simp only [hr1, hr2, ne_eq, not_true_eq_false, if_false, hm, not_false_eq_true, and_self,
        or_true, if_true]
      have hs : ({ s with ifd := s.ifd } : WState) = s := rfl
      rw [hs, hf]
    · have : a.last = a.flush := by
        unfold AState.last
        rw [if_pos (by rw [← h.mtblent]; exact hm)]
      rw [this]
      exact hsim2.congr rfl rfl rfl rfl rfl

/-- The loop of the writer ends, and what it leaves is a reachable layout after its
last pass; without a capacity override the grains read are the whole input. -/
theorem writerLoop_sim (c : Codec) (z : Nat) (hc : c.Lossless) (raw : List Nat) (cap : Nat)
    (hL : raw.length < U64) :
    ∀ (fuel : Nat) (s : WState) (a : AState), Sim s a → SimIn raw s a → Reach c z raw a →
      raw.length - s.ifd.pos < fuel →
      ∃ s' a', writerLoop c cap z fuel s = some s' ∧ Sim s' a'.last ∧ Reach c z raw a' ∧
        s'.read_total = s'.ifd.pos ∧ s'.ifd.pos ≤ raw.length ∧
        a'.img = raw.take s'.ifd.pos ++ zeros (a'.img.length - s'.ifd.pos) ∧
        a'.img.length = a'.n * 65536 ∧ s'.ifd.pos ≤ a'.img.length ∧
        a'.img.length < s'.ifd.pos + 65536 ∧
        (cap = 0 → s'.ifd.pos = raw.length) := by
  intro fuel
  induction fuel with
  | zero => intro s a _ _ _ hf; omega
  | succ fuel ih =>
    intro s a h hi hR hf
    unfold writerLoop
    by_cases hend : (cap ≠ 0 ∧ s.read_total ≥ cap) ∨ raw.length ≤ s.ifd.pos
    · obtain ⟨s', hp, hsim, hifd, htot⟩ := lastPass_sim c z raw cap s a h hi.data hR.cur_lt hend
      refine ⟨s', a, ?_, hsim, hR, ?_, ?_, ?_, hi.imglen, ?_, ?_, ?_⟩
      · simp only [hp, if_true]
      · rw [htot, hifd]; exact hi.total
      · rw [hifd]; exact hi.le
      · rw [hifd]; exact hi.img
      · rw [hifd]; exact hi.posle
      · rw [hifd]; exact hi.tight
      · intro h0
        rw [hifd]
        rcases hend with h1 | h1
        · exact absurd h0 h1.1
        · have := hi.le; omega
    · have hcap : ¬ (cap ≠ 0 ∧ s.read_total ≥ cap) := fun h1 => hend (Or.inl h1)
      have hpos : s.ifd.pos < raw.length := by
        rcases Nat.lt_or_ge s.ifd.pos raw.length with h1 | h1
        · exact h1
        · exact absurd (Or.inr h1) hend
      obtain ⟨s1, got, g, hp, hgot, hg, hsim, hin, hlt⟩ :=
        grainPass_sim c z hc raw cap s a h hi hR.cur_lt hL hcap hpos
      obtain ⟨s', a', hl, rest⟩ := ih s1 (a.pass c z g) hsim hin (Reach.pass a g hR hg)
        (by omega)
      refine ⟨s', a', ?_, rest⟩
      simp only [hp, hgot, if_false]
      exact hl

@[simp] theorem length_encodeHeader (h : SparseExtentHeader) : (encodeHeader h).length = 512 := by
  simp [encodeHeader]
  omega

@[simp] theorem length_descblk (capacity : Nat) : (descblk capacity).length = 512 := by
  simp [descblk]

theorem Reach.stream {c : Codec} {z : Nat} {raw : List Nat} {a : AState}
    (h : Reach c z raw a) :
    ∃ S, a.V = zeros 65536 ++ S := by
  induction h with
  | init => exact ⟨[], by simp [AState.init]⟩
  | pass a g _ _ ih =>
    obtain ⟨S, hS⟩ := ih
    have hadd : ∃ S1, (a.add c z g).V = zeros 65536 ++ S1 := by
      unfold AState.add
      split
      · exact ⟨S, hS⟩
      · exact ⟨S ++ grainSeg (a.n * 128 % U64) (c.deflate g z), by simp [hS]⟩
    obtain ⟨S1, hS1⟩ := hadd
    unfold AState.pass
    split
    · exact ⟨S1 ++ tableSeg (a.add c z g).cur, by simp [AState.flush, hS1]⟩
    · exact ⟨S1, hS1⟩

theorem AState.last_stream (a : AState) (h : ∃ S, a.V = zeros 65536 ++ S) :
    ∃ S, a.last.V = zeros 65536 ++ S := by
  obtain ⟨S, hS⟩ := h
  unfold AState.last
  split
  · exact ⟨S ++ tableSeg a.cur, by simp [AState.flush, hS]⟩
  · exact ⟨S, hS⟩

theorem pwrite_zero (d buf : List Nat) : pwrite d 0 buf = buf ++ d.drop buf.length := by
  simp [pwrite]

/-- The file `allraw2grains` leaves, from the layout after the loop. -/
theorem writerFinish_data (cap : Nat) (s : WState) (a : AState) (S : List Nat) (h : Sim s a)
    (hS : a.V = zeros 65536 ++ S) :
    ∃ r, r % 4 = 0 ∧ 4 * a.tbls.length + r = 512 * max 1 ((a.tbls.length + 127) / 128) ∧
      (writerFinish cap s).data = vmdkBytes (finalHeader cap s)
        (descblk (if cap = 0 then s.read_total else cap)) S (dirSeg a.tbls r) := by
  obtain ⟨r, hr4, hmdir, hlen⟩ := h.mdir
  have hml : s.mdir.length = 512 + 4 * a.tbls.length + r := by
    rw [hmdir]; simp only [List.length_append, length_zeros, length_enc32s]
  refine ⟨r, hr4, by have := h.mdirlen; omega, ?_⟩
  have hdir : bufwrite s.mdir 0
      (encLE 8 (s.mdirsz / SECTORSZ - 1) ++ encLE 4 0 ++ encLE 4 MARKER_GD) = dirSeg a.tbls r := by
    unfold WState.mdirsz
    rw [hml, hmdir, List.append_assoc, bufwrite_zeros_head _ _ _ (by simp)]
    simp [dirSeg, metaMarker, List.append_assoc]
  unfold writerFinish
  simp only [hdir]
  rw [awrite_awrite, awrite_awrite, awrite_awrite]
  have hne : dirSeg a.tbls r ++ (metaMarker (512 / SECTORSZ) MARKER_FOOTER ++
      (encodeHeader (finalHeader cap s) ++ metaMarker 0 MARKER_EOS)) ≠ [] := by
    intro hh
    have := congrArg List.length hh
    simp at this
  have hne2 : encodeHeader (finalHeader cap s) ++
      descblk (if cap = 0 then s.read_total else cap) ≠ [] := by
    intro hh
    have := congrArg List.length hh
    simp at this
  rw [awrite_awrite, awrite_data _ _ hne2]
  show pwrite (awrite s.ofd _).data 0 _ = _
  rw [awrite_data_view _ _ h.atEnd hne, h.view, hS, pwrite_zero]
  have hl : (encodeHeader (finalHeader cap s) ++
      descblk (if cap = 0 then s.read_total else cap)).length = 1024 := by simp
  rw [hl]
  have hz : zeros 65536 = zeros 1024 ++ zeros 64512 := zeros_add 1024 64512
  rw [hz]
  simp only [List.append_assoc]
  rw [drop_append_add (zeros 1024) _ 1024 0 (by simp)]
  simp [vmdkBytes, List.append_assoc]

theorem AState.init_V : AState.init.V = zeros 65536 := rfl

theorem writerInit_sim (ifd ofd : File) (h : ofd.data = []) :
    Sim (writerInit ifd ofd) AState.init := by
  constructor
  · show ofd.data.length ≤ _
    rw [h]; simp
  · show ofd.data ++ zeros (65536 - ofd.data.length) = zeros 65536
    rw [h, List.length_nil, List.nil_append]
  · rw [AState.init_V, length_zeros]
  · rfl
  · show zeros (512 + 2048) = zeros 512 ++ [] ++ zeros 2048
    rw [List.append_nil]; exact zeros_add 512 2048
  · rfl
  · refine ⟨512, by decide, ?_, ?_⟩
    · show zeros (512 + 512) = zeros 512 ++ [] ++ zeros 512
      rw [List.append_nil]; exact zeros_add 512 512
    · show (zeros (512 * 2)).length % 512 = 0
      rw [length_zeros]
  · show (zeros (512 * 2)).length = _
    rw [length_zeros]
    rfl

theorem writerInit_simIn (raw : List Nat) (p : Nat) (ofd : File) :
    SimIn raw (writerInit ⟨raw, p⟩ ofd) AState.init := by
  constructor
  · rfl
  · rfl
  · exact Nat.zero_le _
  · rfl
  · rfl
  · exact Nat.zero_le _
  · intro h; exact absurd h (Nat.lt_irrefl 0)
  · show 0 < 0 + 65536
    omega
  · rfl

/-- The function `allraw2grains` returns, and its output has the layout of a
reachable state of the writer. -/
theorem allraw2grains_written (c : Codec) (z : Nat) (hc : c.Lossless) (raw : List Nat)
    (p cap : Nat) (ofd : File) (hofd : ofd.data = []) (hL : raw.length < U64) :
    ∃ f a S r rt, allraw2grains c ⟨raw, p⟩ cap ofd z = some f ∧ Written c z raw cap f a S r rt := by
  obtain ⟨s, a, hl, hsim, hR, htot, hle, himg, hilen, hposle, htight, hall⟩ :=
    writerLoop_sim c z hc raw cap hL (raw.length + 1) (writerInit ⟨raw, p⟩ ofd) AState.init
      (writerInit_sim _ _ hofd) (writerInit_simIn raw p ofd) Reach.init
      (by show raw.length - 0 < _; omega)
  obtain ⟨S, hS⟩ := AState.last_stream a hR.stream
  obtain ⟨r, hr4, hdl, hdata⟩ := writerFinish_data cap s a.last S hsim hS
  refine ⟨writerFinish cap s, a, S, r, s.ifd.pos, ?_, hR, hS, hr4, hdl, ?_, hle, himg, hilen,
    hposle, htight, hall⟩
  · unfold allraw2grains writerRun
    show Option.map _ (writerLoop c cap z (raw.length + 1) _) = _
    rw [hl]; rfl
  · rw [hdata]
    unfold finalHeader
    simp only [tell]
    rw [hsim.pos, htot]

theorem field_skip (a b : List Nat) (off len k : Nat) (h : off = a.length + k) :
    field (a ++ b) off len = field b k len := by
  unfold field
  rw [slice_append_right a b off len k h]

theorem field_here (n v : Nat) (b : List Nat) : field (encLE n v ++ b) 0 n = v % 256 ^ n := by
  unfold field slice
  rw [List.drop_zero, take_append_add (encLE n v) b n 0 (by simp)]
  simp [decLE_encLE]

theorem field_enc_skip (n v : Nat) (b : List Nat) (off len : Nat) (h : n ≤ off) :
    field (encLE n v ++ b) off len = field b (off - n) len :=
  field_skip _ _ _ _ _ (by simp; omega)

theorem slice_enc_skip (n v : Nat) (b : List Nat) (off len : Nat) (h : n ≤ off) :
    slice (encLE n v ++ b) off len = slice b (off - n) len :=
  slice_append_right _ _ _ _ _ (by simp; omega)

theorem field_zeros_skip (k : Nat) (b : List Nat) (off len : Nat) (h : k ≤ off) :
    field (zeros k ++ b) off len = field b (off - k) len :=
  field_skip _ _ _ _ _ (by simp; omega)

theorem slice_zeros_here (k : Nat) (b : List Nat) : slice (zeros k ++ b) 0 k = zeros k := by
  have := slice_zero_length (zeros k) b
  rw [length_zeros] at this
  exact this

/-- Decoding the bytes of the header of the writer gives its fields back. -/
theorem decode_writerHeader (capacity gdOffset : Nat) (rest : List Nat) :
    decodeHeader (encodeHeader (writerHeader capacity gdOffset) ++ rest)
      = writerHeader (capacity % U64) (gdOffset % U64) := by
  have hpad : ((writerHeader capacity gdOffset).pad ++
      zeros (432 - (writerHeader capacity gdOffset).pad.length)).take 432 = zeros 432 := by
    show (zeros 432 ++ zeros (432 - (zeros 432).length)).take 432 = zeros 432
    rw [length_zeros, Nat.sub_self, zeros_zero, List.append_nil, take_zeros]
    rfl
  unfold decodeHeader encodeHeader
  rw [hpad]
  simp only [List.append_assoc]
  simp only [field_here, field_enc_skip, slice_enc_skip, field_zeros_skip, slice_zeros_here,
    Nat.reduceLeDiff, Nat.reduceSub, Nat.le_refl]
  unfold writerHeader
  simp

theorem storedCodec_lossless : storedCodec.Lossless := by
  intro g z hg
  refine ⟨rfl, ?_, ?_⟩
  · show 0 < (1 :: g).length
    simp
  · show (1 :: g).length + 12 < U32
    rw [List.length_cons, hg]
    decide

theorem vmdkBytes_take_header (h : SparseExtentHeader) (desc S dir : List Nat) :
    (vmdkBytes h desc S dir).take 512 = encodeHeader h := by
  unfold vmdkBytes
  simp only [List.append_assoc]
  rw [take_append_add (encodeHeader h) _ 512 0 (by simp)]
  simp

/-- The header at offset 0 of what `allraw2grains` has written. -/
theorem Written.header {c : Codec} {z : Nat} {raw : List Nat} {cap : Nat} {f : File}
    {a : AState} {S : List Nat} {r rt : Nat} (w : Written c z raw cap f a S r rt) :
    decodeHeader (f.data.take 512) =
      writerHeader ((if cap = 0 then rt else cap) / SECTORSZ % U64)
        ((a.last.V.length / SECTORSZ + 1) % U32) := by
  rw [w.data, vmdkBytes_take_header]
  have := decode_writerHeader ((if cap = 0 then rt else cap) / SECTORSZ % U64)
    ((a.last.V.length / SECTORSZ + 1) % U32) []
  rw [List.append_nil] at this
  rw [this]
  congr 1
  · exact Nat.mod_mod _ _
  · apply Nat.mod_eq_of_lt
    have : (a.last.V.length / SECTORSZ + 1) % U32 < U32 := Nat.mod_lt _ (by decide)
    simp only [U32, U64] at this ⊢
    omega

/-- C5: for every raw input, capacity override and deflate strength, `allraw2grains`
returns and the header at offset 0 of its output decodes to magic 0x564D444B,
version 3, flags 0x30001, grainSize 128, descriptorOffset 1, descriptorSize 1,
numGTEsPerGT 512, rgdOffset 0, overHead 128, compressAlgorithm 1, the newline bytes
0x0A, 0x20, 0x0D, 0x0A, and capacity the override (when non-zero) or else the input
length, divided by 512; a 1 MiB input without override gives capacity 2048. -/
theorem allraw2grains_header (c : Codec) (raw : List Nat) (p cap z : Nat) (ofd : File)
    (hc : c.Lossless) (hofd : ofd.data = []) (hL : raw.length < U64) (hcap : cap < U64) :
    ∃ f, allraw2grains c ⟨raw, p⟩ cap ofd z = some f ∧
      (decodeHeader (f.data.take 512)).magicNumber = 0x564D444B ∧
      (decodeHeader (f.data.take 512)).version = 3 ∧
      (decodeHeader (f.data.take 512)).flags = 0x30001 ∧
      (decodeHeader (f.data.take 512)).grainSize = 128 ∧
      (decodeHeader (f.data.take 512)).descriptorOffset = 1 ∧
      (decodeHeader (f.data.take 512)).descriptorSize = 1 ∧
      (decodeHeader (f.data.take 512)).numGTEsPerGT = 512 ∧
      (decodeHeader (f.data.take 512)).rgdOffset = 0 ∧
      (decodeHeader (f.data.take 512)).overHead = 128 ∧
      (decodeHeader (f.data.take 512)).compressAlgorithm = 1 ∧
      (decodeHeader (f.data.take 512)).singleEndLineChar = 0x0A ∧
      (decodeHeader (f.data.take 512)).nonEndLineChar = 0x20 ∧
      (decodeHeader (f.data.take 512)).doubleEndLineChar1 = 0x0D ∧
      (decodeHeader (f.data.take 512)).doubleEndLineChar2 = 0x0A ∧
      (decodeHeader (f.data.take 512)).capacity = (if cap ≠ 0 then cap else raw.length) / 512 ∧
      (cap = 0 → raw.length = 1048576 → (decodeHeader (f.data.take 512)).capacity = 2048) := by
  obtain ⟨f, a, S, r, rt, hf, w⟩ := allraw2grains_written c z hc raw p cap ofd hofd hL
  have hcapv : (decodeHeader (f.data.take 512)).capacity
      = (if cap ≠ 0 then cap else raw.length) / 512 := by
    rw [w.header]
    show (if cap = 0 then rt else cap) / SECTORSZ % U64 = _
    by_cases h0 : cap = 0
    · have hrt := w.all h0
      simp only [h0, if_true, ne_eq, not_true_eq_false, if_false, hrt, SECTORSZ]
      apply Nat.mod_eq_of_lt
      simp only [U64] at hL ⊢
      omega
    · simp only [h0, if_false, ne_eq, not_false_eq_true, if_true, SECTORSZ]
      apply Nat.mod_eq_of_lt
      simp only [U64] at hcap ⊢
      omega
  refine ⟨f, hf, ?_, ?_, ?_, ?_, ?_, ?_, ?_, ?_, ?_, ?_, ?_, ?_, ?_, ?_, hcapv, ?_⟩
  all_goals first
    | (rw [w.header]; rfl)
    | (intro h0 h1; rw [hcapv, h0, h1]; rfl)

theorem length_replicate_lt (n b m : Nat) (h : n < m) : (List.replicate n b).length < m := by
  rw [List.length_replicate]; exact h

/-- C5 witness: a 1 MiB image of 0xAA bytes written at strength 6 with the storing
codec. -/
theorem allraw2grains_header_witness :
    storedCodec.Lossless ∧ (List.replicate 1048576 170).length < U64 ∧
    ∃ f, allraw2grains storedCodec ⟨List.replicate 1048576 170, 0⟩ 0 File.empty 6 = some f ∧
      (decodeHeader (f.data.take 512)).capacity = 2048 :=
  ⟨storedCodec_lossless, length_replicate_lt _ _ _ (by decide),
    (allraw2grains_header storedCodec (List.replicate 1048576 170) 0 0 6 File.empty
      storedCodec_lossless rfl (length_replicate_lt _ _ _ (by decide)) (by decide)).imp
      (fun _ h => ⟨h.1, h.2.2.2.2.2.2.2.2.2.2.2.2.2.2.2.2 rfl (List.length_replicate _ _)⟩)⟩

theorem scanNonzero_replicate (n b : Nat) (hb : b ≠ 0) (hn : 0 < n) :
    scanNonzero (List.replicate n b) n ≠ 0 := by
  intro h
  rw [scanNonzero_eq_zero] at h
  have h0 := h 0 hn
  rw [List.getD_eq_getElem?_getD, List.getElem?_replicate] at h0
  simp only [hn, if_true, Option.getD_some] at h0
  exact hb h0

theorem scanNonzero_ne_zero (g : List Nat) (h : g ≠ zeros g.length) :
    scanNonzero g g.length ≠ 0 :=
  fun h0 => h (eq_zeros_of_scan g h0)

/-- C4 (amended): `raw2grain` with the output at a sector boundary. For an all-zero
grain of 65536 bytes it returns entry 0 and leaves the output file and its offset as
they were. For any other grain, whose deflate stream has `c` bytes (`0 < c < 2^32`),
wherever the output starts it leaves at the starting offset a marker with `val` the
grain's logical sector and `size = c`, followed by the `c` stream bytes, leaves the
offset `⌈(12+c)/512⌉` sectors past the start, and returns the low 32 bits of the
starting sector, which is the starting sector when that is below `2^32`. -/
theorem raw2grain_spec (c : Codec) (grain : List Nat) (ofd : File) (sec z : Nat)
    (hlen : grain.length = GRAINBYTES) (hal : ofd.pos % SECTORSZ = 0) :
    (grain = zeros GRAINBYTES → raw2grain c grain ofd sec z = some (0, ofd)) ∧
    (grain ≠ zeros GRAINBYTES → sec < U64 → 0 < (c.deflate grain z).length →
      (c.deflate grain z).length < U32 →
      ∃ ofd', raw2grain c grain ofd sec z = some (ofd.pos / SECTORSZ % U32, ofd') ∧
        (ofd.pos / SECTORSZ < U32 → ofd.pos / SECTORSZ % U32 = ofd.pos / SECTORSZ) ∧
        (decodeMarker (slice ofd'.data ofd.pos 512)).val = sec ∧
        (decodeMarker (slice ofd'.data ofd.pos 512)).size = (c.deflate grain z).length ∧
        slice ofd'.data (ofd.pos + 12) (c.deflate grain z).length = c.deflate grain z ∧
        ofd'.pos = ofd.pos + (12 + (c.deflate grain z).length + 511) / 512 * SECTORSZ) := by
  constructor
  · intro hz
    apply raw2grain_zero
    rw [hz]
    exact scanNonzero_zeros GRAINBYTES
  · intro hnz hsec hc0 hc1
    have hscan : scanNonzero grain GRAINBYTES ≠ 0 := by
      rw [← hlen] at hnz ⊢
      exact scanNonzero_ne_zero grain hnz
    have hr := raw2grain_nonzero c grain ofd sec z hscan hc0
    refine ⟨⟨pwrite ofd.data ofd.pos
        (encLE 8 sec ++ encLE 4 (c.deflate grain z).length ++ c.deflate grain z),
      (ofd.pos + 12 + (c.deflate grain z).length + 511) / 512 * 512⟩, ?_, ?_, ?_, ?_, ?_, ?_⟩
    · rw [hr]
    · exact fun hstart => Nat.mod_eq_of_lt hstart
    · show field (slice (pwrite _ _ _) ofd.pos 512) 0 8 = sec
      unfold field
      rw [slice_slice _ _ _ _ _ (by omega), Nat.add_zero, List.append_assoc]
      have := slice_pwrite_prefix ofd.data ofd.pos (encLE 8 sec)
        (encLE 4 (c.deflate grain z).length ++ c.deflate grain z)
      rw [length_encLE] at this
      rw [this, decLE_encLE]
      exact Nat.mod_eq_of_lt hsec
    · show field (slice (pwrite _ _ _) ofd.pos 512) 8 4 = _
      unfold field
      rw [slice_slice _ _ _ _ _ (by omega)]
      have := slice_pwrite_mid ofd.data ofd.pos (encLE 8 sec)
        (encLE 4 (c.deflate grain z).length) (c.deflate grain z)
      rw [length_encLE, length_encLE] at this
      rw [this, decLE_encLE]
      exact Nat.mod_eq_of_lt hc1
    · show slice (pwrite _ _ _) (ofd.pos + 12) _ = _
      have := slice_pwrite_mid ofd.data ofd.pos
        (encLE 8 sec ++ encLE 4 (c.deflate grain z).length) (c.deflate grain z) []
      rw [List.append_nil, List.length_append, length_encLE, length_encLE] at this
      exact this
    · show (ofd.pos + 12 + (c.deflate grain z).length + 511) / 512 * 512 = _
      simp only [SECTORSZ] at hal ⊢
      omega

theorem replicate_ne_zeros (n b : Nat) (hn : 0 < n) (hb : b ≠ 0) :
    List.replicate n b ≠ zeros n := by
  intro h
  have h0 := congrArg (fun l => l.getD 0 0) h
  simp only [zeros, List.getD_eq_getElem?_getD, List.getElem?_replicate, hn, if_true,
    Option.getD_some] at h0
  exact hb h0

theorem storedCodec_length (g : List Nat) (z : Nat) :
    (storedCodec.deflate g z).length = g.length + 1 := rfl

/-- C4 witness: a grain of 65536 bytes 0x01 written with the storing codec takes 129
sectors. At offset 65536 of an empty file the entry returned is the starting sector
128; at offset 2^41 the marker, with `val = 7` and `size = 65537`, is at the start just
the same and the entry returned is 0, the low 32 bits of sector 2^32. -/
theorem raw2grain_spec_witness :
    (List.replicate GRAINBYTES 1).length = GRAINBYTES ∧ (65536 : Nat) % SECTORSZ = 0 ∧
    (2199023255552 : Nat) % SECTORSZ = 0 ∧
    List.replicate GRAINBYTES 1 ≠ zeros GRAINBYTES ∧
    (∃ ofd', raw2grain storedCodec (List.replicate GRAINBYTES 1) ⟨[], 65536⟩ 0 6
        = some (128, ofd') ∧ ofd'.pos = 65536 + 129 * 512) ∧
    ∃ ofd', raw2grain storedCodec (List.replicate GRAINBYTES 1) ⟨[], 2199023255552⟩ 7 6
        = some (0, ofd') ∧
      (decodeMarker (slice ofd'.data 2199023255552 512)).val = 7 ∧
      (decodeMarker (slice ofd'.data 2199023255552 512)).size = 65537 ∧
      ofd'.pos = 2199023255552 + 129 * 512 := by
  have hne := replicate_ne_zeros GRAINBYTES 1 (by decide) (by decide)
  have hl : (storedCodec.deflate (List.replicate GRAINBYTES 1) 6).length = 65537 := by
    rw [storedCodec_length, List.length_replicate]
  refine ⟨List.length_replicate _ _, by decide, by decide, hne, ?_, ?_⟩
  · obtain ⟨ofd', h1, _, _, _, _, h5⟩ :=
      (raw2grain_spec storedCodec (List.replicate GRAINBYTES 1) ⟨[], 65536⟩ 0 6
        (List.length_replicate _ _) (by decide)).2 hne (by decide) (by rw [hl]; decide)
        (by rw [hl]; decide)
    refine ⟨ofd', h1, ?_⟩
    rw [h5, hl]
  · obtain ⟨ofd', h1, _, h2, h3, _, h5⟩ :=
      (raw2grain_spec storedCodec (List.replicate GRAINBYTES 1) ⟨[], 2199023255552⟩ 7 6
        (List.length_replicate _ _) (by decide)).2 hne (by decide) (by rw [hl]; decide)
        (by rw [hl]; decide)
    refine ⟨ofd', h1, h2, ?_, ?_⟩
    · rw [h3, hl]
    · rw [h5, hl]

/-- C4 counterexample: with the output at byte 2^41 (sector 2^32) of an empty file,
`raw2grain` on a grain of 65536 bytes 0x01 returns entry 0, not the starting
sector. -/
theorem raw2grain_counterexample :
    (raw2grain storedCodec (List.replicate GRAINBYTES 1) ⟨[], 2199023255552⟩ 0 6).map Prod.fst
      = some 0 ∧ (0 : Nat) ≠ 2199023255552 / SECTORSZ := by
  constructor
  · rw [raw2grain_entry storedCodec (List.replicate GRAINBYTES 1) ⟨[], 2199023255552⟩ 0 6
      (scanNonzero_replicate GRAINBYTES 1 (by decide) (by decide))
      (by rw [storedCodec_length]; omega)]
    rfl
  · decide

/-- C7 (amended): for every output file and every capacity with `capacity·512` below
two to the 63, `setsize` leaves the file exactly `capacity·512` bytes long: a
shorter file keeps all its bytes and is extended with zero bytes only, a longer
file keeps its first `capacity·512` bytes, and a file already of that length is
not modified. -/
theorem setsize_spec (fd : File) (capacity : Nat) (h : capacity * SECTORSZ < OFFMAX) :
    ∃ fd', setsize fd capacity = some fd' ∧
      fd'.data.length = capacity * SECTORSZ ∧
      (fd.data.length ≤ capacity * SECTORSZ →
        fd'.data = fd.data ++ zeros (capacity * SECTORSZ - fd.data.length)) ∧
      (capacity * SECTORSZ ≤ fd.data.length → fd'.data = fd.data.take (capacity * SECTORSZ)) ∧
      (fd.data.length = capacity * SECTORSZ → fd' = fd) := by
  obtain ⟨fd', h1, h2, h3⟩ := setsize_eq fd capacity h
  refine ⟨fd', h1, ?_, ?_, ?_, h3⟩
  · rw [h2]
    simp only [List.length_take, List.length_append, length_zeros]
    omega
  · intro hle
    rw [h2, List.take_of_length_le]
    simp only [List.length_append, length_zeros]
    omega
  · intro hge
    rw [h2, List.take_append_of_le_length hge]

/-- C7 witness: a three-byte file set to two sectors. -/
theorem setsize_spec_witness :
    2 * SECTORSZ < OFFMAX ∧
    ∃ fd', setsize ⟨[1, 2, 3], 0⟩ 2 = some fd' ∧ fd'.data.length = 2 * SECTORSZ ∧
      fd'.data = [1, 2, 3] ++ zeros (2 * SECTORSZ - 3) :=
  ⟨by decide,
    (setsize_spec ⟨[1, 2, 3], 0⟩ 2 (by decide)).imp
      (fun _ h => ⟨h.1, h.2.1, h.2.2.1 (by decide)⟩)⟩

/-- C7 counterexample: for capacity 2^55 the product `capacity * SECTORSZ` wraps to
zero in 64 bits, and `setsize` truncates a three-byte file to nothing instead of
making it `2^55·512` bytes long. -/
theorem setsize_counterexample :
    (setsize ⟨[1, 2, 3], 0⟩ 36028797018963968).map (fun f => f.data) = some [] ∧
      ([] : List Nat).length ≠ 36028797018963968 * SECTORSZ := by
  decide

theorem strstr_iff (hay needle : List Nat) : strstr hay needle = true ↔ needle <:+: hay := by
  unfold strstr
  rw [List.any_eq_true, List.infix_iff_prefix_suffix]
  constructor
  · rintro ⟨t, ht, hp⟩
    exact ⟨t, List.isPrefixOf_iff_prefix.mp hp, (List.mem_tails _ _).mp ht⟩
  · rintro ⟨t, hp, hs⟩
    exact ⟨t, (List.mem_tails _ _).mpr hs, List.isPrefixOf_iff_prefix.mpr hp⟩

theorem cstr_append_nul (b : List Nat) : cstr (b ++ [0]) = cstr b := by
  unfold cstr
  induction b with
  | nil => simp
  | cons x xs ih =>
    by_cases hx : x = 0
    · simp [List.takeWhile, hx]
    · simp only [List.cons_append, List.takeWhile, ne_eq, hx, not_false_eq_true, decide_True]
      exact congrArg (List.cons x) ih

theorem vmdkBytes_desc (h : SparseExtentHeader) (desc S dir : List Nat)
    (hd : desc.length = 512) : slice (vmdkBytes h desc S dir) 512 512 = desc := by
  unfold vmdkBytes
  simp only [List.append_assoc]
  rw [← List.append_assoc (encodeHeader h) desc]
  exact slice_mid _ _ _ _ _ (by simp) hd.symm

/-- The descriptor block in sector 1 of what `allraw2grains` has written. -/
theorem Written.desc {c : Codec} {z : Nat} {raw : List Nat} {cap : Nat} {f : File}
    {a : AState} {S : List Nat} {r rt : Nat} (w : Written c z raw cap f a S r rt) :
    slice f.data 512 512 = descblk (if cap = 0 then rt else cap) := by
  rw [w.data, vmdkBytes_desc _ _ _ _ (length_descblk _)]

set_option maxRecDepth 1000000 in
theorem descblk_1MiB :
    cstr (descblk 1048576) = bytesOf
      ("# Disk DescriptorFile\nversion=1\nCID=278f54ff\nparentCID=ffffffff\n" ++
       "createType=\"streamOptimized\"\n\n\n# Extent description\n" ++
       "RDONLY 2048 SPARSE \"generated-stream.vmdk\"\n\n#DDB\n" ++
       "ddb.virtualHWVersion = \"4\"\nddb.geometry.cylinders = \"65\"\n" ++
       "ddb.geometry.heads = \"255\"\nddb.geometry.sectors = \"63\"\n" ++
       "ddb.adapterType = \"lsilogic\"\nddb.toolsVersion = \"6532\"\n") := by
  decide

/-- C9, the code at the failing input: for a 1 MiB image written without override
the header holds capacity 2048 sectors, and the descriptor block in sector 1 gives
2048 in the extent line but 65 as `ddb.geometry.cylinders`, which is the capacity
in bytes over 63·255, where 2048 / (63·255) is 0. -/
theorem descriptor_cylinders_1MiB :
    ∃ f, allraw2grains storedCodec ⟨List.replicate 1048576 170, 0⟩ 0 File.empty 6 = some f ∧
      (decodeHeader (f.data.take 512)).capacity = 2048 ∧
      cstr (slice f.data 512 512) = bytesOf
        ("# Disk DescriptorFile\nversion=1\nCID=278f54ff\nparentCID=ffffffff\n" ++
         "createType=\"streamOptimized\"\n\n\n# Extent description\n" ++
         "RDONLY 2048 SPARSE \"generated-stream.vmdk\"\n\n#DDB\n" ++
         "ddb.virtualHWVersion = \"4\"\nddb.geometry.cylinders = \"65\"\n" ++
         "ddb.geometry.heads = \"255\"\nddb.geometry.sectors = \"63\"\n" ++
         "ddb.adapterType = \"lsilogic\"\nddb.toolsVersion = \"6532\"\n") ∧
      1048576 / 63 / 255 = 65 ∧ 2048 / (63 * 255) = 0 := by
  obtain ⟨f, a, S, r, rt, hf, w⟩ := allraw2grains_written storedCodec 6 storedCodec_lossless
    (List.replicate 1048576 170) 0 0 File.empty rfl (length_replicate_lt _ _ _ (by decide))
  have hrt : rt = 1048576 := by rw [w.all rfl, List.length_replicate]
  refine ⟨f, hf, ?_, ?_, by decide, by decide⟩
  · rw [w.header]
    show (if (0 : Nat) = 0 then rt else 0) / SECTORSZ % U64 = 2048
    rw [if_pos rfl, hrt]
    decide
  · rw [w.desc, if_pos rfl, hrt]
    exact descblk_1MiB

theorem GrainAt.grow {c : Codec} {z : Nat} {V : List Nat} {n : Nat} {g : List Nat} {e : Nat}
    (h : GrainAt c z V n g e) (X : List Nat) : GrainAt c z (V ++ X) n g e := by
  rcases h with h | ⟨hnz, p, h1, h2, h3, h4, h5⟩
  · exact Or.inl h
  · refine Or.inr ⟨hnz, p, h1, h2, h3, ?_, ?_⟩
    · rw [List.length_append]; omega
    · rw [slice_append_left _ _ _ _ h4]; exact h5

theorem TableAt.widen {V es : List Nat} {t : Nat} (h : TableAt V es t) (X : List Nat) :
    TableAt (V ++ X) es t := by
  obtain ⟨p, h1, h2, h3, h4, h5⟩ := h
  refine ⟨p, h1, h2, h3, ?_, ?_⟩
  · rw [List.length_append]; omega
  · rw [slice_append_left _ _ _ _ h4]; exact h5

theorem getD_append_left (l l' : List Nat) (n : Nat) (h : n < l.length) :
    (l ++ l').getD n 0 = l.getD n 0 := by
  rw [List.getD_eq_getElem?_getD, List.getD_eq_getElem?_getD, List.getElem?_append_left h]

theorem getD_append_length (l : List Nat) (e : Nat) : (l ++ [e]).getD l.length 0 = e := by
  rw [List.getD_eq_getElem?_getD, List.getElem?_append_right (Nat.le_refl _)]
  simp

theorem slice_all (g : List Nat) (n : Nat) (h : g.length = n) : slice g 0 n = g := by
  unfold slice
  rw [List.drop_zero, List.take_of_length_le (by omega)]

theorem drop_take_append (l l' : List Nat) (a b : Nat) (h : a + b ≤ l.length) :
    ((l ++ l').drop a).take b = (l.drop a).take b := by
  have := slice_append_left l l' a b h
  unfold slice at this
  exact this

/-- The facts survive the flush of a grain table that holds the entries after the
last flushed table. -/
theorem Facts.of_flush {c : Codec} {z : Nat} {a : AState} (h : Facts c z a)
    (hcur : a.cur = a.ents.drop (512 * a.tbls.length)) (hlen : a.cur.length ≤ 512) :
    Facts c z a.flush := by
  constructor
  · show (a.V ++ tableSeg a.cur).length % 512 = 0
    rw [List.length_append, length_tableSeg _ hlen]
    have := h.aligned
    omega
  · show 65536 ≤ (a.V ++ tableSeg a.cur).length
    rw [List.length_append]
    have := h.big
    omega
  · exact h.ents_len
  · exact h.imglen
  · intro n hn
    exact (h.grains n hn).grow _
  · intro k hk
    have hk' : k < a.tbls.length + 1 := by
      simpa [AState.flush] using hk
    show TableAt (a.V ++ tableSeg a.cur) ((a.ents.drop (512 * k)).take 512)
      ((a.tbls ++ [(a.V.length / 512 + 1) % U32]).getD k 0)
    rcases Nat.lt_succ_iff_lt_or_eq.mp hk' with h1 | h1
    · rw [getD_append_left _ _ _ h1]
      exact (h.tables k h1).widen _
    · subst h1
      rw [getD_append_length, ← hcur, List.take_of_length_le hlen]
      refine ⟨a.V.length, h.aligned, h.big, rfl, ?_, ?_⟩
      · rw [List.length_append, length_tableSeg _ hlen]
      · have := slice_mid a.V (tableSeg a.cur) [] a.V.length 2560 rfl
          (length_tableSeg _ hlen).symm
        rw [List.append_nil] at this
        exact this

/-- The facts survive the addition of a grain. -/
theorem Facts.of_add {c : Codec} {z : Nat} {a : AState} (h : Facts c z a) (g : List Nat)
    (hg : g.length = GRAINBYTES) (hcount : a.n = 512 * a.tbls.length + a.cur.length) :
    Facts c z (a.add c z g) := by
  have hV : ∃ X, (a.add c z g).V = a.V ++ X ∧ X.length % 512 = 0 := by
    unfold AState.add
    split
    · exact ⟨[], by simp, rfl⟩
    · exact ⟨_, rfl, by rw [length_grainSeg]; omega⟩
  obtain ⟨X, hX, hXl⟩ := hV
  obtain ⟨hn, himg, htbls⟩ := AState.add_n c z a g
  have hents : ∃ e, (a.add c z g).ents = a.ents ++ [e] ∧
      GrainAt c z (a.add c z g).V a.n g e := by
    unfold AState.add
    split
    · rename_i hz
      exact ⟨0, rfl, Or.inl ⟨hz, rfl⟩⟩
    · rename_i hz
      refine ⟨_, rfl, Or.inr ⟨hz, a.V.length, h.aligned, h.big, rfl, ?_, ?_⟩⟩
      · show _ ≤ (a.V ++ grainSeg _ _).length
        rw [List.length_append]
      · show slice (a.V ++ grainSeg _ _) _ _ = _
        have := slice_mid a.V (grainSeg (a.n * 128 % U64) (c.deflate g z)) [] a.V.length
          (grainSeg (a.n * 128 % U64) (c.deflate g z)).length rfl rfl
        rw [List.append_nil] at this
        exact this
  obtain ⟨e, he, hge⟩ := hents
  constructor
  · rw [hX, List.length_append]
    have := h.aligned
    omega
  · rw [hX, List.length_append]
    have := h.big
    omega
  · rw [he, hn, List.length_append, h.ents_len]
    rfl
  · rw [himg, hn, List.length_append, h.imglen, hg]
    simp only [GRAINBYTES]
    omega
  · intro n hlt
    rw [hn] at hlt
    rcases Nat.lt_succ_iff_lt_or_eq.mp hlt with h1 | h1
    · rw [himg, he, getD_append_left _ _ _ (by rw [h.ents_len]; exact h1),
        slice_append_left _ _ _ _ (by rw [h.imglen]; omega), hX]
      exact (h.grains n h1).grow _
    · subst h1
      have hs : slice (a.img ++ g) (a.n * 65536) 65536 = g := by
        rw [slice_append_right a.img g _ 65536 0 (by rw [h.imglen]; omega)]
        exact slice_all g 65536 hg
      rw [himg, hs, he, ← h.ents_len, getD_append_length]
      rw [h.ents_len]
      exact hge
  · intro k hk
    rw [htbls] at hk ⊢
    rw [he, drop_take_append _ _ _ _ (by rw [h.ents_len]; omega), hX]
    exact (h.tables k hk).widen _

/-- Every layout the loop reaches satisfies the facts, and the table being filled
holds the entries made since the last flush. -/
theorem Reach.facts {c : Codec} {z : Nat} {raw : List Nat} {a : AState}
    (h : Reach c z raw a) :
    Facts c z a ∧ a.n = 512 * a.tbls.length + a.cur.length ∧
      a.cur = a.ents.drop (512 * a.tbls.length) := by
  induction h with
  | init =>
    refine ⟨⟨?_, ?_, rfl, rfl, ?_, ?_⟩, rfl, rfl⟩
    · rw [AState.init_V, length_zeros]
    · rw [AState.init_V, length_zeros]
    · intro n hn
      exact absurd hn (Nat.not_lt_zero _)
    · intro k hk
      exact absurd hk (Nat.not_lt_zero _)
  | pass a g hR hg ih =>
    obtain ⟨hf, hcount, hcur⟩ := ih
    have hfa := hf.of_add g hg.grain_length hcount
    obtain ⟨hn, himg, htbls⟩ := AState.add_n c z a g
    have hcl : (a.add c z g).cur.length = a.cur.length + 1 := by
      unfold AState.add; split <;> simp
    have hcur' : (a.add c z g).cur = (a.add c z g).ents.drop (512 * (a.add c z g).tbls.length) := by
      rw [htbls]
      unfold AState.add
      split
      · show a.cur ++ [0] = (a.ents ++ [0]).drop _
        rw [List.drop_append_of_le_length (by rw [hf.ents_len]; omega), hcur]
      · show a.cur ++ [_] = (a.ents ++ [_]).drop _
        rw [List.drop_append_of_le_length (by rw [hf.ents_len]; omega), hcur]
    unfold AState.pass
    split
    · rename_i h512
      have hfl := hfa.of_flush hcur' (by omega)
      refine ⟨hfl, ?_, ?_⟩
      · simp only [AState.flush, List.length_append, List.length_singleton, List.length_nil]
        rw [hn, htbls]
        omega
      · simp only [AState.flush, List.length_append, List.length_singleton]
        rw [List.drop_of_length_le]
        rw [hfa.ents_len, hn, htbls]
        omega
    · exact ⟨hfa, by rw [hn, htbls, hcl]; omega, hcur'⟩

/-- After the last pass every grain read is in a flushed table, and the directory
has one entry for every 512 grains or part of them. -/
theorem Reach.facts_last {c : Codec} {z : Nat} {raw : List Nat} {a : AState}
    (h : Reach c z raw a) :
    Facts c z a.last ∧ a.last.tbls.length = (a.n + 511) / 512 ∧ a.last.n = a.n ∧
      a.last.img = a.img ∧ a.last.ents = a.ents := by
  obtain ⟨hf, hcount, hcur⟩ := h.facts
  have hlt := h.cur_lt
  unfold AState.last
  split
  · rename_i hne
    refine ⟨hf.of_flush hcur (by omega), ?_, rfl, rfl, rfl⟩
    simp only [AState.flush, List.length_append, List.length_singleton]
    omega
  · rename_i hne
    refine ⟨hf, ?_, rfl, rfl, rfl⟩
    omega

/-! ## Reading back -/

theorem slice_length_le (d : List Nat) (off len : Nat) (h : (slice d off len).length = len)
    (hl : 0 < len) : off + len ≤ d.length := by
  rw [length_slice] at h
  omega

theorem slice_sub (d : List Nat) (p w o l : Nat) (h : o + l ≤ w) :
    slice d (p + o) l = slice (slice d p w) o l :=
  (slice_slice d p w o l h).symm

theorem slice_split (d : List Nat) (o l1 l2 : Nat) :
    slice d o (l1 + l2) = slice d o l1 ++ slice d (o + l1) l2 := by
  unfold slice
  rw [List.take_add, List.drop_drop]

theorem slice_take (d : List Nat) (o l k : Nat) (h : k ≤ l) :
    (slice d o l).take k = slice d o k := by
  unfold slice
  rw [List.take_take, Nat.min_eq_left h]

theorem aread_full (f : File) (n : Nat) (h : f.pos + n ≤ f.data.length) :
    aread f n = (slice f.data f.pos n, n, ⟨f.data, f.pos + n⟩) := by
  have hl : (slice f.data f.pos n).length = n := by rw [length_slice]; omega
  unfold aread readRaw
  simp only [hl, Nat.sub_self, zeros_zero, List.append_nil]

theorem lseekSet_lt (f : File) (off : Nat) (h : off < OFFMAX) :
    lseekSet f off = ⟨f.data, off⟩ := by
  have hm : off % U64 = off := Nat.mod_eq_of_lt (by simp only [OFFMAX, U64] at h ⊢; omega)
  unfold lseekSet
  rw [hm, if_pos h]

theorem lseekSet_mk (d : List Nat) (p off : Nat) (h : off < OFFMAX) :
    lseekSet ⟨d, p⟩ off = ⟨d, off⟩ :=
  lseekSet_lt ⟨d, p⟩ off h

theorem bufwrite_two (buf a b : List Nat) (k : Nat) (ha : a.length = k)
    (_hb : k + b.length ≤ buf.length) :
    bufwrite (bufwrite buf 0 a) k b = a ++ b ++ buf.drop (k + b.length) := by
  unfold bufwrite
  simp only [List.take_zero, List.nil_append, Nat.zero_add]
  rw [take_append_add a _ k 0 (by omega), List.take_zero, List.append_nil]
  rw [drop_append_add a _ (k + b.length) b.length (by omega), List.drop_drop]
  rw [ha]

theorem grainSeg_head (sec : Nat) (zs : List Nat) :
    slice (grainSeg sec zs) 0 8 = encLE 8 sec ∧ slice (grainSeg sec zs) 8 4 = encLE 4 zs.length ∧
      slice (grainSeg sec zs) 12 zs.length = zs := by
  unfold grainSeg
  refine ⟨?_, ?_, ?_⟩
  · rw [List.append_assoc, List.append_assoc]
    have := slice_zero_length (encLE 8 sec) (encLE 4 zs.length ++ (zs ++
      zeros ((12 + zs.length + 511) / 512 * 512 - (12 + zs.length))))
    rw [length_encLE] at this
    exact this
  · rw [List.append_assoc]
    exact slice_mid _ _ _ _ _ (by simp) (by simp)
  · exact slice_mid _ _ _ _ _ (by simp) rfl

/-- The marker sector of a grain in a file that holds the grain's sectors at `p`. -/
theorem grain_marker (D : List Nat) (p sec : Nat) (zs : List Nat)
    (hseg : slice D p (grainSeg sec zs).length = grainSeg sec zs)
    (hc1 : zs.length + 12 < U32) (hsec : sec < U64) :
    (decodeMarker (slice D p 512)).size = zs.length ∧
    (decodeMarker (slice D p 512)).val = sec ∧
    (decodeMarker (slice D p 512)).data = slice (grainSeg sec zs) 12 500 := by
  have hW : 512 ≤ (grainSeg sec zs).length := by rw [length_grainSeg]; omega
  have hs : ∀ o l, o + l ≤ 512 → slice (slice D p 512) o l = slice (grainSeg sec zs) o l := by
    intro o l hol
    rw [slice_slice _ _ _ _ _ hol, slice_sub D p (grainSeg sec zs).length o l (by omega), hseg]
  obtain ⟨h8, h4, _⟩ := grainSeg_head sec zs
  refine ⟨?_, ?_, ?_⟩
  · show field (slice D p 512) 8 4 = _
    unfold field
    rw [hs 8 4 (by omega), h4, decLE_encLE]
    exact Nat.mod_eq_of_lt (by simp only [U32] at hc1 ⊢; omega)
  · show field (slice D p 512) 0 8 = _
    unfold field
    rw [hs 0 8 (by omega), h8, decLE_encLE]
    exact Nat.mod_eq_of_lt hsec
  · show slice (slice D p 512) 12 500 = _
    exact hs 12 500 (by omega)

/-- The function `marker2grain` on the marker of a grain that the file holds at `p`,
with the input just past the marker sector: the grain is inflated and the input
is left past the grain's last sector. -/
theorem marker2grain_seg (c : Codec) (h : SparseExtentHeader) (D : List Nat) (p sec : Nat)
    (zs g grain buf : List Nat)
    (hseg : slice D p (grainSeg sec zs).length = grainSeg sec zs)
    (hc0 : 0 < zs.length) (hc1 : zs.length + 12 < U32) (hsec : sec < U64)
    (hinf : c.inflate zs = some g) (hg : g.length = GRAINBYTES)
    (hflags : h.flags &&& FLAGBIT_COMPRESSED ≠ 0) (halg : h.compressAlgorithm = 1)
    (hgs : h.grainSize = 128) :
    ∃ buf', marker2grain c ⟨D, p + 512⟩ h (decodeMarker (slice D p 512)) grain buf
      = some (g, ⟨D, p + (grainSeg sec zs).length⟩, buf') := by
  obtain ⟨hsize, _, hdata⟩ := grain_marker D p sec zs hseg hc1 hsec
  have hWdef : (grainSeg sec zs).length = (12 + zs.length + 511) / 512 * 512 := length_grainSeg _ _
  generalize hW : (grainSeg sec zs).length = W at *
  have hW512 : 512 ≤ W := by omega
  have hDlen : p + W ≤ D.length := by
    have hl : (slice D p W).length = W := by rw [hseg, hW]
    exact slice_length_le D p W hl (by omega)
  have hA : (slice (grainSeg sec zs) 12 500).length = 500 := by
    rw [length_slice, hW]; omega
  unfold marker2grain
  simp only [hsize, hdata, SECTORSZ]
  have hw0 : (zs.length + 12) % U32 = zs.length + 12 := Nat.mod_eq_of_lt hc1
  have hw1 : (if (zs.length + 12) % 512 ≠ 0 then ((zs.length + 12) / 512 + 1) * 512
      else zs.length + 12) = W := by
    split <;> omega
  rw [hw0, hw1]
  have hneed : (W + U64 - 12) % U64 = W - 12 := by
    simp only [U64, U32] at hc1 ⊢
    omega
  rw [hneed]
  have hnot : ¬ (buf.length < W - 12 ∧ OFFMAX ≤ W - 12) := by
    simp only [U32, OFFMAX] at hc1 ⊢
    omega
  rw [if_neg hnot]
  simp only [hflags, halg, ne_eq, not_false_eq_true, COMPRESSION_DEFLATE, and_self, if_true]
  -- the scratch buffer
  generalize hb1 : (if buf.length < W - 12 then buf ++ zeros (W - 12 - buf.length) else buf)
    = buf1
  have hb1len : W - 12 ≤ buf1.length := by
    rw [← hb1]
    split
    · simp only [List.length_append, length_zeros]; omega
    · omega
  have hgl : g.length = h.grainSize * 512 % U64 % U32 := by
    rw [hgs, hg]
    decide
  have hzs : slice (grainSeg sec zs) 12 zs.length = zs := (grainSeg_head sec zs).2.2
  by_cases hgt : W > 512
  · have har : aread ⟨D, p + 512⟩ (W - 512)
        = (slice D (p + 512) (W - 512), W - 512, ⟨D, p + 512 + (W - 512)⟩) :=
      aread_full ⟨D, p + 512⟩ (W - 512) (by show p + 512 + (W - 512) ≤ D.length; omega)
    rw [if_pos hgt, har]
    dsimp only
    have hB : slice D (p + 512) (W - 512) = slice (grainSeg sec zs) 512 (W - 512) := by
      rw [slice_sub D p W 512 (W - 512) (by omega), hseg]
    have hbw := bufwrite_two buf1 (slice (grainSeg sec zs) 12 500)
      (slice D (p + 512) (W - 512)) 500 hA (by rw [length_slice]; omega)
    rw [hbw, hB]
    have hcat : slice (grainSeg sec zs) 12 500 ++ slice (grainSeg sec zs) 512 (W - 512)
        = slice (grainSeg sec zs) 12 (W - 12) := by
      have := slice_split (grainSeg sec zs) 12 500 (W - 512)
      rw [show 500 + (W - 512) = W - 12 by omega] at this
      exact this.symm
    rw [hcat, List.take_append_of_le_length (by rw [length_slice, hW]; omega),
      slice_take _ _ _ _ (by omega), hzs, hinf]
    dsimp only
    rw [if_pos hgl, show p + 512 + (W - 512) = p + W by omega]
    exact ⟨_, rfl⟩
  · have hW' : W = 512 := by omega
    rw [if_neg hgt]
    dsimp only
    have hbw : bufwrite buf1 0 (slice (grainSeg sec zs) 12 500)
        = slice (grainSeg sec zs) 12 500 ++ buf1.drop 500 := by
      unfold bufwrite
      rw [List.take_zero, List.nil_append, Nat.zero_add, hA]
    rw [hbw, List.take_append_of_le_length (by rw [hA]; omega),
      slice_take _ _ _ _ (by omega), hzs, hinf]
    dsimp only
    rw [if_pos hgl, hW']
    exact ⟨_, rfl⟩

theorem Agree.shorten {D V : List Nat} (X : List Nat) (h : Agree D (V ++ X))
    (hV : 65536 ≤ V.length) : Agree D V := by
  obtain ⟨_, P, T, hP, hD⟩ := h
  refine ⟨hV, P, X ++ T, hP, ?_⟩
  rw [hD, List.drop_append_of_le_length hV, List.append_assoc, List.append_assoc,
    List.append_assoc]

theorem Agree.slice {D V : List Nat} (h : Agree D V) (off len : Nat) (h1 : 65536 ≤ off)
    (h2 : off + len ≤ V.length) : slice D off len = slice V off len := by
  obtain ⟨hV, P, T, hP, hD⟩ := h
  have hVs : V = V.take 65536 ++ V.drop 65536 := (List.take_append_drop 65536 V).symm
  have hl : (V.take 65536).length = 65536 := by rw [List.length_take]; omega
  rw [hD, List.append_assoc, slice_append_right P _ off len (off - 65536) (by omega)]
  rw [slice_append_left _ _ _ _ (by rw [List.length_drop]; omega)]
  conv_rhs => rw [hVs]
  rw [slice_append_right _ _ off len (off - 65536) (by omega)]

theorem Agree.len_le {D V : List Nat} (h : Agree D V) : V.length ≤ D.length := by
  obtain ⟨hV, P, T, hP, hD⟩ := h
  rw [hD]
  simp only [List.length_append, List.length_drop, hP]
  omega

theorem OutData.nil : OutData [] [] := ⟨Nat.le_refl _, rfl⟩

/-- Writing a grain at the end of the image so far. -/
theorem OutData.write {od img : List Nat} (h : OutData od img) (g : List Nat) :
    pwrite od img.length g = img ++ g := by
  rw [pwrite_atEnd _ _ _ h.1, h.2]

/-- Leaving a zero grain out. -/
theorem OutData.skip {od img : List Nat} (h : OutData od img) (k : Nat) :
    OutData od (img ++ zeros k) := by
  refine ⟨by rw [List.length_append]; have := h.1; omega, ?_⟩
  have e : (img ++ zeros k).length - od.length = (img.length - od.length) + k := by
    rw [List.length_append, length_zeros]
    have := h.1
    omega
  rw [e, zeros_add, ← List.append_assoc, h.2]

theorem OutData.refl (img : List Nat) : OutData img img :=
  ⟨Nat.le_refl _, by rw [Nat.sub_self, zeros_zero, List.append_nil]⟩

/-- The marker a zeroed sector holds once `val` and `u.type` are set. -/
theorem decode_metaMarker (v t : Nat) :
    (decodeMarker (metaMarker v t)).val = v % U64 ∧ (decodeMarker (metaMarker v t)).size = 0 ∧
      (decodeMarker (metaMarker v t)).type = t % U32 := by
  unfold decodeMarker Marker.type metaMarker
  simp only [List.append_assoc]
  refine ⟨?_, ?_, ?_⟩
  · rw [field_here]
    rfl
  · rw [field_enc_skip _ _ _ _ _ (by decide), field_here]
    rfl
  · rw [slice_enc_skip _ _ _ _ _ (by decide), slice_enc_skip _ _ _ _ _ (by decide)]
    unfold field
    rw [slice_slice _ _ _ _ _ (by decide)]
    have := slice_zero_length (encLE 4 t) (zeros 496)
    rw [length_encLE] at this
    rw [this, decLE_encLE]
    rfl

/-- One pass of the loop of `vmdkparsestream` when a whole sector is read. -/
theorem parseLoop_step (c : Codec) (mt md fuel : Nat) (s s' : PState) (D : List Nat) (p : Nat)
    (hifd : s.ifd = ⟨D, p⟩) (hlen : p + 512 ≤ D.length)
    (hm : parseMarker c mt md (decodeMarker (slice D p 512)) { s with ifd := ⟨D, p + 512⟩ }
      = some s') :
    parseLoop c mt md (fuel + 1) s = parseLoop c mt md fuel s' := by
  have hl : (slice D p 512).length = 512 := by rw [length_slice]; omega
  rw [parseLoop]
  simp only [readRaw, hifd, hl, if_true, hm]

/-- The loop of `vmdkparsestream` ends when less than a sector is left. -/
theorem parseLoop_end (c : Codec) (mt md fuel : Nat) (s : PState) (D : List Nat) (p : Nat)
    (hifd : s.ifd = ⟨D, p⟩) (hlen : D.length < p + 512) :
    ∃ s', parseLoop c mt md (fuel + 1) s = Run.done s' ∧ s'.ofd = s.ofd ∧ s'.h = s.h := by
  have hl : (slice D p 512).length ≠ 512 := by rw [length_slice]; omega
  rw [parseLoop]
  simp only [readRaw, hifd, hl, if_false]
  exact ⟨_, rfl, rfl, rfl⟩

/-- The body of the loop on the marker of a grain table. -/
theorem parseMarker_table (c : Codec) (md : Nat) (s : PState) (D : List Nat) (p : Nat)
    (hifd : s.ifd = ⟨D, p + 512⟩) (hp : p + 2560 < OFFMAX) :
    parseMarker c 4 md (decodeMarker (metaMarker 4 MARKER_GT)) s
      = some { s with ifd := ⟨D, p + 2560⟩ } := by
  obtain ⟨hv, hs, ht⟩ := decode_metaMarker 4 MARKER_GT
  have hv' : (decodeMarker (metaMarker 4 MARKER_GT)).val = 4 := by rw [hv]; rfl
  have ht' : (decodeMarker (metaMarker 4 MARKER_GT)).type = 1 := by rw [ht]; rfl
  unfold parseMarker
  simp only [hs, hv', ht', ne_eq, not_true_eq_false, if_false, MARKER_GT, if_true, SECTORSZ]
  have hcur : lseekCur s.ifd (4 * 512) = ⟨D, p + 2560⟩ := by
    unfold lseekCur
    rw [hifd]
    simp only [OFFMAX, U64] at hp ⊢
    have h1 : 4 * 512 % 18446744073709551616 < 9223372036854775808 := by decide
    have h2 : p + 512 + 4 * 512 % 18446744073709551616 < 9223372036854775808 := by omega
    simp only [h1, h2, if_true]
  rw [hcur]

/-- The body of the loop on the marker of a grain that the file holds at `p`. -/
theorem parseMarker_grain (c : Codec) (mt md : Nat) (s : PState) (D : List Nat) (p sec : Nat)
    (zs g : List Nat) (hifd : s.ifd = ⟨D, p + 512⟩)
    (hseg : slice D p (grainSeg sec zs).length = grainSeg sec zs)
    (hc0 : 0 < zs.length) (hc1 : zs.length + 12 < U32) (hsec : sec * 512 < OFFMAX)
    (hinf : c.inflate zs = some g) (hg : g.length = GRAINBYTES) (hh : HOK s.h) :
    ∃ s', parseMarker c mt md (decodeMarker (slice D p 512)) s = some s' ∧
      s'.ifd = ⟨D, p + (grainSeg sec zs).length⟩ ∧
      s'.ofd = awrite ⟨s.ofd.data, sec * 512⟩ g ∧ s'.h = s.h := by
  have hsec' : sec < U64 := by simp only [OFFMAX, U64] at hsec ⊢; omega
  obtain ⟨hsize, hval, _⟩ := grain_marker D p sec zs hseg hc1 hsec'
  obtain ⟨buf', hm⟩ := marker2grain_seg c s.h D p sec zs g s.grain s.dbuf hseg hc0 hc1 hsec'
    hinf hg hh.1 hh.2.1 hh.2.2.1
  unfold parseMarker
  rw [hsize, hval, hifd, hm]
  have hne : zs.length ≠ 0 := by omega
  simp only [hne, ne_eq, not_false_eq_true, if_true, SECTORSZ]
  rw [lseekSet_lt _ _ hsec]
  exact ⟨_, rfl, rfl, rfl, rfl⟩

theorem Stream.init (c : Codec) (md : Nat) (D : List Nat) :
    Stream c md D AState.init.V AState.init.img := by
  intro s hifd hofd _
  refine ⟨s, 0, fun _ => rfl, Nat.zero_le _, ?_, ?_, rfl⟩
  · rw [hifd, AState.init_V, length_zeros]
  · rw [hofd]; exact OutData.nil

/-- The stream parser follows the writer over a flushed grain table. -/
theorem Stream.over_flush {c : Codec} {md : Nat} {D : List Nat} {a : AState}
    (h : Stream c md D a.V a.img) (hA : Agree D a.flush.V) (hcur : a.cur.length ≤ 512)
    (hlen : 65536 ≤ a.V.length) (hb : a.flush.V.length < OFFMAX) :
    Stream c md D a.flush.V a.flush.img := by
  have hV : a.flush.V = a.V ++ tableSeg a.cur := rfl
  have hVl : a.flush.V.length = a.V.length + 2560 := by
    rw [hV, List.length_append, length_tableSeg _ hcur]
  intro s hifd hofd hh
  obtain ⟨s1, k, hk, hkle, hifd1, hout, hh1⟩ := h s hifd hofd hh
  have hDl := hA.len_le
  have hsl : slice D a.V.length 2560 = tableSeg a.cur := by
    rw [hA.slice a.V.length 2560 hlen (by rw [hVl]), hV]
    have := slice_mid a.V (tableSeg a.cur) [] a.V.length 2560 rfl (length_tableSeg _ hcur).symm
    rw [List.append_nil] at this
    exact this
  have hmk : slice D a.V.length 512 = metaMarker 4 MARKER_GT := by
    have h1 := slice_sub D a.V.length 2560 0 512 (by omega)
    rw [Nat.add_zero] at h1
    rw [h1, hsl]
    unfold tableSeg
    rw [List.append_assoc]
    have := slice_zero_length (metaMarker 4 MARKER_GT)
      (enc32s a.cur ++ zeros (2048 - 4 * a.cur.length))
    rw [length_metaMarker] at this
    exact this
  refine ⟨{ s1 with ifd := ⟨D, a.V.length + 2560⟩ }, k + 1, ?_, ?_, ?_, hout, hh1⟩
  · intro fuel
    rw [show fuel + (k + 1) = (fuel + 1) + k by omega, hk (fuel + 1)]
    apply parseLoop_step c 4 md fuel s1 _ D a.V.length hifd1 (by omega)
    rw [hmk]
    exact parseMarker_table c md _ D a.V.length rfl (by omega)
  · rw [hVl]; omega
  · rw [hVl]

theorem eq_zeros_of_scan' (g : List Nat) (hg : g.length = GRAINBYTES)
    (h : scanNonzero g GRAINBYTES = 0) : g = zeros GRAINBYTES := by
  rw [← hg] at h ⊢
  exact eq_zeros_of_scan g h

/-- The stream parser follows the writer over a grain. -/
theorem Stream.over_add {c : Codec} {z md : Nat} {D : List Nat} {a : AState} (hc : c.Lossless)
    (hf : Facts c z a) (h : Stream c md D a.V a.img) (g : List Nat) (hg : g.length = GRAINBYTES)
    (hA : Agree D (a.add c z g).V) (hn : (a.n + 1) * 65536 < OFFMAX) :
    Stream c md D (a.add c z g).V (a.add c z g).img := by
  obtain ⟨_, himg, _⟩ := AState.add_n c z a g
  rw [himg]
  by_cases hz : scanNonzero g GRAINBYTES = 0
  · have hV : (a.add c z g).V = a.V := by unfold AState.add; rw [if_pos hz]
    rw [hV]
    intro s hifd hofd hh
    obtain ⟨s1, k, hk, hkle, hifd1, hout, hh1⟩ := h s hifd hofd hh
    refine ⟨s1, k, hk, hkle, hifd1, ?_, hh1⟩
    rw [eq_zeros_of_scan' g hg hz]
    exact hout.skip _
  · have hV : (a.add c z g).V = a.V ++ grainSeg (a.n * 128 % U64) (c.deflate g z) := by
      unfold AState.add; rw [if_neg hz]
    rw [hV] at hA ⊢
    obtain ⟨hinf, hc0, hc1⟩ := hc g z hg
    have hsecv : a.n * 128 % U64 = a.n * 128 :=
      Nat.mod_eq_of_lt (by simp only [OFFMAX, U64] at hn ⊢; omega)
    rw [hsecv] at hA ⊢
    have hW : 512 ≤ (grainSeg (a.n * 128) (c.deflate g z)).length := by
      rw [length_grainSeg]; omega
    have hsl : slice D a.V.length (grainSeg (a.n * 128) (c.deflate g z)).length
        = grainSeg (a.n * 128) (c.deflate g z) := by
      rw [hA.slice a.V.length _ hf.big (by rw [List.length_append])]
      have := slice_mid a.V (grainSeg (a.n * 128) (c.deflate g z)) [] a.V.length _ rfl rfl
      rw [List.append_nil] at this
      exact this
    have hDl := hA.len_le
    rw [List.length_append] at hDl
    intro s hifd hofd hh
    obtain ⟨s1, k, hk, hkle, hifd1, hout, hh1⟩ := h s hifd hofd hh
    obtain ⟨s2, hm, hifd2, hofd2, hh2⟩ := parseMarker_grain c 4 md
      { s1 with ifd := ⟨D, a.V.length + 512⟩ } D a.V.length (a.n * 128) (c.deflate g z) g rfl
      hsl hc0 hc1 (by omega) hinf hg (by rw [← hh1] at hh; exact hh)
    refine ⟨s2, k + 1, ?_, ?_, ?_, ?_, ?_⟩
    · intro fuel
      rw [show fuel + (k + 1) = (fuel + 1) + k by omega, hk (fuel + 1)]
      exact parseLoop_step c 4 md fuel s1 s2 D a.V.length hifd1 (by omega) hm
    · rw [List.length_append]
      have := hf.big
      omega
    · rw [hifd2, List.length_append]
    · rw [hofd2]
      have hne : g ≠ [] := by
        intro h0
        rw [h0] at hg
        exact absurd hg (by decide)
      rw [awrite_data _ _ hne]
      show OutData (pwrite s1.ofd.data (a.n * 128 * 512) g) _
      rw [show a.n * 128 * 512 = a.img.length by rw [hf.imglen]; omega, hout.write]
      exact OutData.refl _
    · rw [hh2]
      exact hh1

theorem AState.add_V (c : Codec) (z : Nat) (a : AState) (g : List Nat) :
    ∃ X, (a.add c z g).V = a.V ++ X := by
  unfold AState.add
  split
  · exact ⟨[], (List.append_nil _).symm⟩
  · exact ⟨_, rfl⟩

theorem AState.pass_V (c : Codec) (z : Nat) (a : AState) (g : List Nat) :
    ∃ X, (a.pass c z g).V = a.V ++ X := by
  obtain ⟨X, hX⟩ := AState.add_V c z a g
  unfold AState.pass
  split
  · exact ⟨X ++ tableSeg (a.add c z g).cur, by
      show (a.add c z g).V ++ _ = _
      rw [hX, List.append_assoc]⟩
  · exact ⟨X, hX⟩

/-- The stream parser, run on a file that holds a layout of the writer, gets to
the end of the layout having written the grains read so far. -/
theorem Reach.stream_ok {c : Codec} {z : Nat} {raw : List Nat} {a : AState}
    (h : Reach c z raw a) (hc : c.Lossless) (md : Nat) :
    ∀ D, Agree D a.V → a.n * 65536 < OFFMAX → a.V.length < OFFMAX →
      Stream c md D a.V a.img := by
  induction h with
  | init => intro D _ _ _; exact Stream.init c md D
  | pass a g hR hg ih =>
    intro D hA hn hV
    obtain ⟨hf, hcount, hcur⟩ := hR.facts
    obtain ⟨hn1, _, _⟩ := AState.add_n c z a g
    obtain ⟨hn2, _⟩ := AState.pass_n c z a g
    rw [hn2] at hn
    obtain ⟨X, hX⟩ := AState.add_V c z a g
    have hfa := hf.of_add g hg.grain_length hcount
    have hcl : (a.add c z g).cur.length = a.cur.length + 1 := by
      unfold AState.add; split <;> simp
    have hlt := hR.cur_lt
    unfold AState.pass at hA hV ⊢
    split at hA
    · rename_i h512
      rw [if_pos h512] at hV ⊢
      have hVf : (a.add c z g).flush.V = (a.add c z g).V ++ tableSeg (a.add c z g).cur := rfl
      have hA1 : Agree D (a.add c z g).V := by
        rw [hVf] at hA
        exact hA.shorten _ hfa.big
      have hA0 : Agree D a.V := by
        rw [hX] at hA1
        exact hA1.shorten _ hf.big
      have hs0 := ih D hA0 (by omega) (by
        rw [hVf, hX, List.length_append, List.length_append] at hV
        omega)
      have hs1 := Stream.over_add hc hf hs0 g hg.grain_length hA1 hn
      exact hs1.over_flush hA (by omega) hfa.big hV
    · rename_i h512
      rw [if_neg h512] at hV ⊢
      have hA0 : Agree D a.V := by
        rw [hX] at hA
        exact hA.shorten _ hf.big
      have hs0 := ih D hA0 (by omega) (by
        rw [hX, List.length_append] at hV
        omega)
      exact Stream.over_add hc hf hs0 g hg.grain_length hA hn

/-- The same after the last pass of the writer. -/
theorem Reach.stream_last {c : Codec} {z : Nat} {raw : List Nat} {a : AState}
    (h : Reach c z raw a) (hc : c.Lossless) (md : Nat) (D : List Nat) (hA : Agree D a.last.V)
    (hn : a.n * 65536 < OFFMAX) (hV : a.last.V.length < OFFMAX) :
    Stream c md D a.last.V a.img := by
  obtain ⟨hf, hcount, hcur⟩ := h.facts
  have hlt := h.cur_lt
  unfold AState.last at hA hV ⊢
  split at hA
  · rename_i hne
    rw [if_pos hne] at hV ⊢
    have hVf : a.flush.V = a.V ++ tableSeg a.cur := rfl
    have hA0 : Agree D a.V := by
      rw [hVf] at hA
      exact hA.shorten _ hf.big
    have hs0 := h.stream_ok hc md D hA0 hn (by
      rw [hVf, List.length_append] at hV
      omega)
    exact hs0.over_flush hA (by omega) hf.big hV
  · rename_i hne
    rw [if_neg hne] at hV ⊢
    exact h.stream_ok hc md D hA hn hV

set_option maxRecDepth 100000 in
theorem descHead_facts :
    descHead.length = 123 ∧ descHead.all (fun b => b ≠ 0) = true ∧
      strstr descHead streamOptimizedTag = true := by
  decide

theorem cstr_append_nonzero (P X : List Nat) (h : P.all (fun b => b ≠ 0) = true) :
    cstr (P ++ X) = P ++ cstr X := by
  unfold cstr
  induction P with
  | nil => rfl
  | cons b bs ih =>
    rw [List.all_cons, Bool.and_eq_true] at h
    rw [List.cons_append, List.takeWhile_cons, if_pos h.1, ih h.2]
    rfl

theorem descblk_head (capacity : Nat) : ∃ X, descblk capacity = descHead ++ X := by
  have hl := descHead_facts.1
  unfold descblk descText
  simp only [List.append_assoc]
  rw [← List.append_assoc (bytesOf _) (bytesOf _)]
  show ∃ X, List.take 512 (List.take 511 (descHead ++ _) ++ zeros 512) = descHead ++ X
  rw [take_append_add descHead _ 511 (511 - 123) (by rw [hl]), List.append_assoc,
    take_append_add descHead _ 512 (512 - 123) (by rw [hl])]
  exact ⟨_, rfl⟩

/-- The descriptor block of the writer says `createType="streamOptimized"`. -/
theorem descblk_tag (capacity : Nat) (rest : List Nat) :
    strstr (cstr (descblk capacity ++ rest)) streamOptimizedTag = true := by
  obtain ⟨X, hX⟩ := descblk_head capacity
  rw [hX, List.append_assoc, cstr_append_nonzero _ _ descHead_facts.2.1, strstr_iff]
  have h := (strstr_iff _ _).mp descHead_facts.2.2
  obtain ⟨s, t, hst⟩ := h
  exact ⟨s, t ++ cstr (X ++ rest), by rw [← hst]; simp only [List.append_assoc]⟩

/-- The function `vmdkinfo` on a header of the writer, in a file whose sector 1 is
the descriptor block of the writer. -/
theorem vmdkinfo_writer (D : List Nat) (p capacity gdOffset C : Nat)
    (hh : slice D p 512 = encodeHeader (writerHeader capacity gdOffset))
    (hd : slice D 512 512 = descblk C) :
    vmdkinfo ⟨D, p⟩ = Info.ok
      { writerHeader (capacity % U64) (gdOffset % U64) with streamoptimized := 1 }
      ⟨D, 1024⟩ := by
  have hlen1 : p + 512 ≤ D.length :=
    slice_length_le D p 512 (by rw [hh, length_encodeHeader]) (by decide)
  have hlen2 : 512 + 512 ≤ D.length :=
    slice_length_le D 512 512 (by rw [hd, length_descblk]) (by decide)
  have har : aread ⟨D, p⟩ 512 = (slice D p 512, 512, ⟨D, p + 512⟩) := aread_full ⟨D, p⟩ 512 hlen1
  have hdec : decodeHeader (slice D p 512) = writerHeader (capacity % U64) (gdOffset % U64) := by
    rw [hh]
    have := decode_writerHeader capacity gdOffset []
    rw [List.append_nil] at this
    exact this
  unfold vmdkinfo
  rw [har]
  dsimp only
  rw [hdec]
  have hmagic : ¬ ((writerHeader (capacity % U64) (gdOffset % U64)).magicNumber ≠ VMDK_MAGIC) :=
    fun h => h rfl
  rw [if_neg hmagic]
  have hdesc : vmdkdesc ⟨D, p + 512⟩ (writerHeader (capacity % U64) (gdOffset % U64))
      = some (descblk C ++ [0], ⟨D, 1024⟩) := by
    unfold vmdkdesc
    have h1 : ¬ ((writerHeader (capacity % U64) (gdOffset % U64)).descriptorOffset = 0) := by
      show ¬ ((512 / SECTORSZ : Nat) = 0)
      decide
    have h2 : ¬ ((writerHeader (capacity % U64) (gdOffset % U64)).descriptorSize = 0) := by
      show ¬ ((512 / SECTORSZ : Nat) = 0)
      decide
    have h3 : ¬ (OFFMAX ≤ ((writerHeader (capacity % U64) (gdOffset % U64)).descriptorSize
        * SECTORSZ + 1) % U64) := by
      show ¬ (OFFMAX ≤ (512 / SECTORSZ * SECTORSZ + 1) % U64)
      decide
    rw [if_neg h1, if_neg h2, if_neg h3]
    have ho : (writerHeader (capacity % U64) (gdOffset % U64)).descriptorOffset * SECTORSZ
        = 512 := by simp only [writerHeader, SECTORSZ]
    have hsz : (writerHeader (capacity % U64) (gdOffset % U64)).descriptorSize * SECTORSZ % U64
        = 512 := by simp only [writerHeader, SECTORSZ, U64]
    have h512 : (512 : Nat) < OFFMAX := by simp only [OFFMAX]; omega
    rw [ho, hsz, lseekSet_lt _ 512 h512]
    dsimp only
    rw [aread_full ⟨D, 512⟩ 512 hlen2]
    dsimp only
    rw [hd]
  rw [hdesc]
  dsimp only
  rw [descblk_tag C [0], if_pos rfl]

theorem ofInt64_toInt32 (x : Nat) (h : x < 2147483648) : ofInt64 (toInt32 x) = x := by
  unfold ofInt64 toInt32
  have hm : x % U32 = x := Nat.mod_eq_of_lt (by simp only [U32]; omega)
  rw [hm, if_pos h]
  simp only [U64]
  omega

/-- The value of `dirblks` for a header with the grain and table sizes of the
writer: one directory sector for every 65536 grains or part of them. -/
theorem dirblks_writer (h : SparseExtentHeader) (hgs : h.grainSize = 128)
    (hgt : h.numGTEsPerGT = 512) (hcap : h.capacity < 2 ^ 50) :
    dirblks h = some (toInt32 (((h.capacity + 127) / 128 + 65535) / 65536)) := by
  unfold dirblks
  rw [hgs, hgt]
  have h0 : ¬ ((128 : Nat) = 0 ∨ (512 : Nat) = 0) := by decide
  rw [if_neg h0]
  simp only [SECTORSZ, U64]
  have hc : h.capacity < 1125899906842624 := by
    have : (2 : Nat) ^ 50 = 1125899906842624 := by norm_num
    omega
  generalize h.capacity = cap at hc
  congr 2
  have e1 : cap * 512 % 18446744073709551616 = cap * 512 := Nat.mod_eq_of_lt (by omega)
  rw [e1]
  have e2 : (cap * 512 / 128 + if cap * 512 % 128 ≠ 0 then 1 else 0) % 18446744073709551616
      = cap * 4 := by
    have : ¬ (cap * 512 % 128 ≠ 0) := by omega
    rw [if_neg this]
    omega
  rw [e2]
  have e3 : (cap * 4 / 512 + if cap * 4 % 512 ≠ 0 then 1 else 0) % 18446744073709551616
      = (cap + 127) / 128 := by
    split <;> omega
  rw [e3]
  generalize hn : (cap + 127) / 128 = n
  have hnb : n < 8796093022209 := by omega
  have e4 : n * 4 % 18446744073709551616 = n * 4 := Nat.mod_eq_of_lt (by omega)
  rw [e4]
  have e5 : (n * 4 / 512 + if n * 4 % 512 ≠ 0 then 1 else 0) % 18446744073709551616
      = (n + 127) / 128 := by
    split <;> omega
  rw [e5]
  split <;> omega

/-- The body of the loop on the marker of the grain directory. -/
theorem parseMarker_dir (c : Codec) (mt md : Nat) (s : PState) (D : List Nat) (p v : Nat)
    (hifd : s.ifd = ⟨D, p + 512⟩) (hv : v = md) (hp : p + 512 + v * 512 < OFFMAX) :
    parseMarker c mt md (decodeMarker (metaMarker v MARKER_GD)) s
      = some { s with ifd := ⟨D, p + 512 + v * 512⟩ } := by
  obtain ⟨hval, hs, ht⟩ := decode_metaMarker v MARKER_GD
  have hv64 : v % U64 = v := Nat.mod_eq_of_lt (by simp only [OFFMAX, U64] at hp ⊢; omega)
  have ht' : (decodeMarker (metaMarker v MARKER_GD)).type = 2 := by rw [ht]; rfl
  unfold parseMarker
  rw [hs, hval, hv64, ht', ← hv]
  have h1 : ¬ ((0 : Nat) ≠ 0) := fun h => h rfl
  have h2 : ¬ ((2 : Nat) = MARKER_GT) := by decide
  have h3 : (2 : Nat) = MARKER_GD := rfl
  have h4 : ¬ (v ≠ v) := fun h => h rfl
  rw [if_neg h1, if_neg h2, if_pos h3, if_neg h4]
  have hcur : lseekCur s.ifd (v * SECTORSZ) = ⟨D, p + 512 + v * 512⟩ := by
    unfold lseekCur
    rw [hifd]
    simp only [OFFMAX, U64, SECTORSZ] at hp ⊢
    have e : v * 512 % 18446744073709551616 = v * 512 := Nat.mod_eq_of_lt (by omega)
    rw [e]
    have h1 : v * 512 < 9223372036854775808 := by omega
    have h2 : p + 512 + v * 512 < 9223372036854775808 := by omega
    simp only [h1, h2, if_true]
  rw [hcur]

/-- The body of the loop on the footer marker, when the header after it is one
`vmdkinfo` accepts and the working header does not hold the sentinel. -/
theorem parseMarker_footer (c : Codec) (mt md : Nat) (s : PState) (D : List Nat) (p q : Nat)
    (f : SparseExtentHeader) (hifd : s.ifd = ⟨D, p + 512⟩)
    (hinfo : vmdkinfo ⟨D, p + 512⟩ = Info.ok f ⟨D, q⟩) (hgd : s.h.gdOffset ≠ U64 - 1)
    (hp : p + 1024 < OFFMAX) :
    parseMarker c mt md (decodeMarker (metaMarker 1 MARKER_FOOTER)) s
      = some { s with ifd := ⟨D, p + 1024⟩ } := by
  obtain ⟨hval, hs, ht⟩ := decode_metaMarker 1 MARKER_FOOTER
  have hval' : (decodeMarker (metaMarker 1 MARKER_FOOTER)).val = 1 := by rw [hval]; rfl
  have ht' : (decodeMarker (metaMarker 1 MARKER_FOOTER)).type = 3 := by rw [ht]; rfl
  unfold parseMarker
  rw [hs, hval', ht', hifd, hinfo]
  have h1 : ¬ ((0 : Nat) ≠ 0) := fun h => h rfl
  have h2 : ¬ ((3 : Nat) = MARKER_GT) := by decide
  have h3 : ¬ ((3 : Nat) = MARKER_GD) := by decide
  have h4 : (3 : Nat) = MARKER_FOOTER := rfl
  have h5 : ¬ ¬ (512 ≤ 1 * SECTORSZ % U64) := by decide
  rw [if_neg h1, if_neg h2, if_neg h3, if_pos h4, if_neg h5]
  dsimp only
  rw [if_neg hgd]
  have hpos : (tell ⟨D, p + 512⟩ + 1 * SECTORSZ) % U64 = p + 1024 := by
    show (p + 512 + 1 * 512) % U64 = p + 1024
    simp only [OFFMAX, U64] at hp ⊢
    omega
  rw [hpos, lseekSet_lt _ _ hp]

/-- The body of the loop on the end-of-stream marker. -/
theorem parseMarker_eos (c : Codec) (mt md : Nat) (s : PState) :
    parseMarker c mt md (decodeMarker (metaMarker 0 MARKER_EOS)) s
      = some { s with eos := true } := by
  obtain ⟨_, hs, ht⟩ := decode_metaMarker 0 MARKER_EOS
  have ht' : (decodeMarker (metaMarker 0 MARKER_EOS)).type = 0 := by rw [ht]; rfl
  unfold parseMarker
  rw [hs, ht']
  have h1 : ¬ ((0 : Nat) ≠ 0) := fun h => h rfl
  have h2 : ¬ ((0 : Nat) = MARKER_GT) := by decide
  have h3 : ¬ ((0 : Nat) = MARKER_GD) := by decide
  have h4 : ¬ ((0 : Nat) = MARKER_FOOTER) := by decide
  have h5 : (0 : Nat) = MARKER_EOS := rfl
  rw [if_neg h1, if_neg h2, if_neg h3, if_neg h4, if_pos h5]

theorem vmdkBytes_length (h : SparseExtentHeader) (desc S dir : List Nat)
    (hd : desc.length = 512) :
    (vmdkBytes h desc S dir).length = 65536 + S.length + dir.length + 1536 := by
  unfold vmdkBytes
  simp only [List.length_append, length_encodeHeader, length_zeros, length_metaMarker, hd]

theorem vmdkBytes_agree (h : SparseExtentHeader) (desc S dir : List Nat)
    (hd : desc.length = 512) : Agree (vmdkBytes h desc S dir) (zeros 65536 ++ S) := by
  refine ⟨by rw [List.length_append, length_zeros]; omega,
    encodeHeader h ++ desc ++ zeros 64512,
    dir ++ metaMarker 1 MARKER_FOOTER ++ encodeHeader h ++ metaMarker 0 MARKER_EOS, ?_, ?_⟩
  · simp only [List.length_append, length_encodeHeader, length_zeros, hd]
  · rw [drop_append_add (zeros 65536) S 65536 0 (by rw [length_zeros]), List.drop_zero]
    unfold vmdkBytes
    simp only [List.append_assoc]

/-- The parts of a finished VMDK after the grains and grain tables. -/
theorem vmdkBytes_tail (h : SparseExtentHeader) (desc S dir : List Nat)
    (hd : desc.length = 512) :
    slice (vmdkBytes h desc S dir) (65536 + S.length) dir.length = dir ∧
    slice (vmdkBytes h desc S dir) (65536 + S.length + dir.length) 512
      = metaMarker 1 MARKER_FOOTER ∧
    slice (vmdkBytes h desc S dir) (65536 + S.length + dir.length + 512) 512
      = encodeHeader h ∧
    slice (vmdkBytes h desc S dir) (65536 + S.length + dir.length + 1024) 512
      = metaMarker 0 MARKER_EOS := by
  generalize hA : encodeHeader h ++ desc ++ zeros 64512 ++ S = A
  have hP : A.length = 65536 + S.length := by
    rw [← hA]
    simp only [List.length_append, length_encodeHeader, length_zeros, hd]
  have hF : vmdkBytes h desc S dir
      = A ++ dir ++ metaMarker 1 MARKER_FOOTER ++ encodeHeader h ++ metaMarker 0 MARKER_EOS := by
    unfold vmdkBytes
    rw [hA]
  rw [hF]
  refine ⟨?_, ?_, ?_, ?_⟩
  · rw [List.append_assoc (A ++ dir), List.append_assoc (A ++ dir)]
    exact slice_mid A dir _ _ _ hP.symm rfl
  · rw [List.append_assoc (A ++ dir ++ metaMarker 1 MARKER_FOOTER)]
    exact slice_mid (A ++ dir) (metaMarker 1 MARKER_FOOTER) _ _ _
      (by rw [List.length_append, hP]) (length_metaMarker _ _).symm
  · exact slice_mid (A ++ dir ++ metaMarker 1 MARKER_FOOTER) (encodeHeader h) _ _ _
      (by rw [List.length_append, List.length_append, hP, length_metaMarker])
      (length_encodeHeader _).symm
  · have := slice_mid (A ++ dir ++ metaMarker 1 MARKER_FOOTER ++ encodeHeader h)
      (metaMarker 0 MARKER_EOS) []
      (65536 + S.length + dir.length + 1024) 512
      (by rw [List.length_append, List.length_append, List.length_append, hP,
        length_metaMarker, length_encodeHeader])
      (length_metaMarker _ _).symm
    rw [List.append_nil] at this
    exact this

/-- The overhead of a finished VMDK after the descriptor block is zero. -/
theorem vmdkBytes_overhead (h : SparseExtentHeader) (desc S dir : List Nat)
    (hd : desc.length = 512) (off len : Nat) (h1 : 1024 ≤ off) (h2 : off + len ≤ 65536) :
    slice (vmdkBytes h desc S dir) off len = zeros len := by
  unfold vmdkBytes
  simp only [List.append_assoc]
  rw [← List.append_assoc (encodeHeader h) desc]
  rw [slice_append_right (encodeHeader h ++ desc) _ off len (off - 1024)
    (by rw [List.length_append, length_encodeHeader, hd]; omega)]
  rw [slice_append_left _ _ _ _ (by rw [length_zeros]; omega)]
  unfold slice
  rw [drop_zeros, take_zeros]
  apply congrArg zeros
  omega

theorem length_dirSeg (tbls : List Nat) (r : Nat) :
    (dirSeg tbls r).length = 512 + 4 * tbls.length + r := by
  unfold dirSeg
  simp only [List.length_append, length_metaMarker, length_enc32s, length_zeros]

theorem dirSeg_marker (tbls : List Nat) (r : Nat) :
    slice (dirSeg tbls r) 0 512
      = metaMarker ((512 + 4 * tbls.length + r) / 512 - 1) MARKER_GD := by
  unfold dirSeg
  rw [List.append_assoc]
  have := slice_zero_length (metaMarker ((512 + 4 * tbls.length + r) / 512 - 1) MARKER_GD)
    (enc32s tbls ++ zeros r)
  rw [length_metaMarker] at this
  exact this

theorem Written.dir_length {c : Codec} {z : Nat} {raw : List Nat} {cap : Nat} {f : File}
    {a : AState} {S : List Nat} {r rt : Nat} (w : Written c z raw cap f a S r rt) :
    (dirSeg a.last.tbls r).length = 512 + 512 * dirSects a.last.tbls.length ∧
      (512 + 4 * a.last.tbls.length + r) / 512 - 1 = dirSects a.last.tbls.length := by
  have := w.dirlen
  unfold dirSects
  rw [length_dirSeg]
  constructor <;> omega

theorem Written.V_length {c : Codec} {z : Nat} {raw : List Nat} {cap : Nat} {f : File}
    {a : AState} {S : List Nat} {r rt : Nat} (w : Written c z raw cap f a S r rt) :
    a.last.V.length = 65536 + S.length := by
  rw [w.stream, List.length_append, length_zeros]

theorem Written.file_length {c : Codec} {z : Nat} {raw : List Nat} {cap : Nat} {f : File}
    {a : AState} {S : List Nat} {r rt : Nat} (w : Written c z raw cap f a S r rt) :
    f.data.length = a.last.V.length + 512 * dirSects a.last.tbls.length + 2048 := by
  rw [w.data, vmdkBytes_length _ _ _ _ (length_descblk _), w.dir_length.1, w.V_length]
  omega

/-- From the end of the grains and grain tables of a finished VMDK the stream
parser takes four more passes, over the directory, the footer and the end-of-stream
marker, and stops at the end of the file without writing. -/
theorem Written.stream_tail {c : Codec} {z : Nat} {raw : List Nat} {cap : Nat} {f : File}
    {a : AState} {S : List Nat} {r rt : Nat} (w : Written c z raw cap f a S r rt)
    (hlen : f.data.length < OFFMAX) (s : PState) (hifd : s.ifd = ⟨f.data, a.last.V.length⟩)
    (hgd : s.h.gdOffset ≠ U64 - 1) (fuel : Nat) :
    ∃ s', parseLoop c 4 (dirSects a.last.tbls.length) (fuel + 4) s = Run.done s' ∧
      s'.ofd = s.ofd := by
  obtain ⟨hdl, hval⟩ := w.dir_length
  have hV := w.V_length
  have hF := w.file_length
  obtain ⟨t1, t2, t3, t4⟩ := vmdkBytes_tail
    (writerHeader ((if cap = 0 then rt else cap) / SECTORSZ % U64)
      ((a.last.V.length / SECTORSZ + 1) % U32))
    (descblk (if cap = 0 then rt else cap)) S (dirSeg a.last.tbls r) (length_descblk _)
  rw [← w.data, ← hV] at t1 t2 t3 t4
  rw [hdl] at t2 t3 t4
  generalize hq : a.last.V.length = q at *
  generalize hv : dirSects a.last.tbls.length = v at *
  -- the directory marker
  have hm1 : slice f.data q 512 = metaMarker v MARKER_GD := by
    have h1 := slice_sub f.data q (dirSeg a.last.tbls r).length 0 512 (by omega)
    rw [Nat.add_zero] at h1
    rw [h1, t1, dirSeg_marker, hval]
  have s1 : parseLoop c 4 v (fuel + 3 + 1) s
      = parseLoop c 4 v (fuel + 3) { s with ifd := ⟨f.data, q + 512 + v * 512⟩ } := by
    apply parseLoop_step c 4 v (fuel + 3) s _ f.data q hifd (by omega)
    rw [hm1]
    exact parseMarker_dir c 4 v _ f.data q v rfl rfl (by omega)
  -- the footer
  have hinfo := vmdkinfo_writer f.data (q + (512 + 512 * v) + 512) _ _ _ t3
    (by rw [w.data]; exact vmdkBytes_desc _ _ _ _ (length_descblk _))
  have s2 : parseLoop c 4 v (fuel + 2 + 1) { s with ifd := ⟨f.data, q + 512 + v * 512⟩ }
      = parseLoop c 4 v (fuel + 2) { s with ifd := ⟨f.data, q + 512 + v * 512 + 1024⟩ } := by
    apply parseLoop_step c 4 v (fuel + 2) _ _ f.data (q + 512 + v * 512) rfl (by omega)
    rw [show q + 512 + v * 512 = q + (512 + 512 * v) by omega, t2]
    exact parseMarker_footer c 4 v _ f.data (q + (512 + 512 * v)) 1024 _ rfl hinfo hgd (by omega)
  -- the end-of-stream marker
  have s3 : parseLoop c 4 v (fuel + 1 + 1) { s with ifd := ⟨f.data, q + 512 + v * 512 + 1024⟩ }
      = parseLoop c 4 v (fuel + 1)
          { s with ifd := ⟨f.data, q + 512 + v * 512 + 1024 + 512⟩, eos := true } := by
    apply parseLoop_step c 4 v (fuel + 1) _ _ f.data (q + 512 + v * 512 + 1024) rfl (by omega)
    rw [show q + 512 + v * 512 + 1024 = q + (512 + 512 * v) + 1024 by omega, t4]
    exact parseMarker_eos c 4 v _
  obtain ⟨s', h4, hofd, _⟩ := parseLoop_end c 4 v fuel
    { s with ifd := ⟨f.data, q + 512 + v * 512 + 1024 + 512⟩, eos := true } f.data
    (q + 512 + v * 512 + 1024 + 512) rfl (by omega)
  refine ⟨s', ?_, hofd⟩
  rw [show fuel + 4 = fuel + 3 + 1 by omega, s1, show fuel + 3 = fuel + 2 + 1 by omega, s2,
    show fuel + 2 = fuel + 1 + 1 by omega, s3, h4]

theorem take_append_zeros (od : List Nat) (L a b : Nat) (ha : L ≤ od.length + a)
    (hb : L ≤ od.length + b) : (od ++ zeros a).take L = (od ++ zeros b).take L := by
  rw [List.take_append_eq_append_take, List.take_append_eq_append_take, take_zeros, take_zeros]
  congr 2
  omega

/-- What `setsize` makes of the output of an extractor that has written the image
`img`, when the capacity is the length of the input and the image is the input
followed by zero bytes. -/
theorem setsize_outData (ofd : File) (img raw : List Nat) (capacity : Nat)
    (hout : OutData ofd.data img) (hcap : capacity * SECTORSZ = raw.length)
    (himg : img = raw ++ zeros (img.length - raw.length)) (hle : raw.length ≤ img.length)
    (hL : raw.length < OFFMAX) :
    ∃ fd', setsize ofd capacity = some fd' ∧ fd'.data = raw := by
  obtain ⟨fd', h1, h2, _⟩ := setsize_eq ofd capacity (by rw [hcap]; exact hL)
  refine ⟨fd', h1, ?_⟩
  rw [h2, hcap]
  have h3 := hout.2
  have h4 := hout.1
  rw [take_append_zeros ofd.data raw.length _ (img.length - ofd.data.length) (by omega)
    (by omega), h3, himg, take_append_add raw _ raw.length 0 (by omega), List.take_zero,
    List.append_nil]

/-- The header `vmdkinfo` finds at offset 0 of a finished VMDK. -/
theorem Written.info {c : Codec} {z : Nat} {raw : List Nat} {cap : Nat} {f : File}
    {a : AState} {S : List Nat} {r rt : Nat} (w : Written c z raw cap f a S r rt) :
    vmdkinfo ⟨f.data, 0⟩ = Info.ok
      { writerHeader ((if cap = 0 then rt else cap) / SECTORSZ % U64)
          ((a.last.V.length / SECTORSZ + 1) % U32) with streamoptimized := 1 }
      ⟨f.data, 1024⟩ := by
  have h0 : slice f.data 0 512 = encodeHeader
      (writerHeader ((if cap = 0 then rt else cap) / SECTORSZ % U64)
        ((a.last.V.length / SECTORSZ + 1) % U32)) := by
    rw [w.data]
    exact vmdkBytes_take_header _ _ _ _
  have hd : slice f.data 512 512 = descblk (if cap = 0 then rt else cap) := w.desc
  have := vmdkinfo_writer f.data 0 _ _ _ h0 hd
  rw [this, Nat.mod_mod]
  have : (a.last.V.length / SECTORSZ + 1) % U32 % U64 = (a.last.V.length / SECTORSZ + 1) % U32 := by
    apply Nat.mod_eq_of_lt
    have : (a.last.V.length / SECTORSZ + 1) % U32 < U32 := Nat.mod_lt _ (by decide)
    simp only [U32, U64] at this ⊢
    omega
  rw [this]

theorem writerHeader_overHead (capacity gdOffset : Nat) :
    (writerHeader capacity gdOffset).overHead = 128 := by
  simp [writerHeader]

theorem writerHeader_HOK (capacity gdOffset so : Nat) :
    HOK { writerHeader capacity gdOffset with streamoptimized := so } :=
  ⟨by show (FLAGBIT_NL ||| FLAGBIT_COMPRESSED ||| FLAGBIT_MARKERS) &&& FLAGBIT_COMPRESSED ≠ 0
      decide, rfl, rfl, rfl⟩

/-- The function `vmdkparsestream` once `dirblks` has returned and the grain buffer
is allocated: its loop on the initial state. -/
theorem vmdkparsestream_eq (c : Codec) (fuel : Nat) (ifd : File) (h : SparseExtentHeader)
    (ofd : File) (d : Int) (hd : dirblks h = some d)
    (ha : ¬ (OFFMAX ≤ h.grainSize * SECTORSZ % U64)) :
    vmdkparsestream c fuel ifd h ofd
      = parseLoop c (h.numGTEsPerGT * 4 / SECTORSZ) (ofInt64 d) fuel
          ⟨ifd, ofd, h, zeros (h.grainSize * SECTORSZ % U64), [], false⟩ := by
  unfold vmdkparsestream
  rw [hd]
  exact if_neg ha

/-- The stream extraction of a VMDK written without capacity override from an
input of whole sectors gives the input back. -/
theorem Written.stream_roundtrip {c : Codec} {z : Nat} {raw : List Nat} {f : File}
    {a : AState} {S : List Nat} {r rt : Nat} (w : Written c z raw 0 f a S r rt)
    (hc : c.Lossless) (hL0 : 0 < raw.length) (h512 : raw.length % 512 = 0)
    (hL : raw.length < 2 ^ 55) (hF : f.data.length < OFFMAX) (fuel : Nat)
    (hfuel : f.data.length / 512 < fuel) :
    mainStream c fuel f.data = Outcome.output raw := by
  have hL' : raw.length < 36028797018963968 := by
    have : (2 : Nat) ^ 55 = 36028797018963968 := by norm_num
    omega
  have hrt : rt = raw.length := w.all rfl
  have hlen := w.file_length
  have hVlen := w.V_length
  obtain ⟨hfacts, htl, hnl, himgl, _⟩ := w.reach.facts_last
  have hn : a.n * 65536 = a.img.length := w.imglen.symm
  have h1 := w.rtimg
  have h2 := w.tight
  rw [hrt] at h1 h2
  have hcapS : (if (0 : Nat) = 0 then rt else 0) / SECTORSZ % U64 = raw.length / 512 := by
    rw [if_pos rfl, hrt]
    exact Nat.mod_eq_of_lt (by simp only [SECTORSZ, U64]; omega)
  have hinfo := w.info
  rw [hcapS] at hinfo
  generalize hG : (a.last.V.length / SECTORSZ + 1) % U32 = G at hinfo
  generalize hh : ({ writerHeader (raw.length / 512) G with streamoptimized := 1 } :
    SparseExtentHeader) = h at hinfo
  have hHOK : HOK h := by subst hh; exact writerHeader_HOK _ _ _
  have hcap : h.capacity = raw.length / 512 := by subst hh; rfl
  have hso : h.streamoptimized = 1 := by subst hh; rfl
  have hoh : h.overHead * SECTORSZ = 65536 := by
    have : h.overHead = 128 := by
      subst hh
      exact writerHeader_overHead (raw.length / 512) G
    rw [this]
    decide
  have hgd : h.gdOffset ≠ U64 - 1 := by
    have hg' : h.gdOffset = G := by subst hh; rfl
    rw [hg']
    have : G < U32 := by rw [← hG]; exact Nat.mod_lt _ (by decide)
    simp only [U32, U64] at this ⊢
    omega
  -- the directory size the parser expects is the one the writer wrote
  have hdb : dirblks h = some (toInt32 (((h.capacity + 127) / 128 + 65535) / 65536)) :=
    dirblks_writer h hHOK.2.2.1 hHOK.2.2.2 (by
      rw [hcap]
      have : (2 : Nat) ^ 50 = 1125899906842624 := by norm_num
      omega)
  have hmd : ofInt64 (toInt32 (((h.capacity + 127) / 128 + 65535) / 65536))
      = dirSects a.last.tbls.length := by
    rw [ofInt64_toInt32 _ (by rw [hcap]; omega), hcap, htl]
    unfold dirSects
    omega
  -- the passes over the grains and grain tables
  have hAgree : Agree f.data a.last.V := by
    rw [w.data, w.stream]
    exact vmdkBytes_agree _ _ _ _ (length_descblk _)
  have hstream := w.reach.stream_last hc (dirSects a.last.tbls.length) f.data hAgree
    (by simp only [OFFMAX]; omega) (by omega)
  obtain ⟨s1, k, hk, hkle, hifd1, hout, hh1⟩ := hstream
    { ifd := ⟨f.data, 65536⟩, ofd := File.empty, h := h,
      grain := zeros ((h.grainSize * SECTORSZ) % U64), dbuf := [], eos := false }
    rfl rfl hHOK
  obtain ⟨s2, htail, hofd2⟩ := w.stream_tail hF s1 hifd1 (by rw [hh1]; exact hgd)
    (fuel - k - 4)
  have hrun : vmdkparsestream c fuel ⟨f.data, 65536⟩ h File.empty = Run.done s2 := by
    have halloc : ¬ (OFFMAX ≤ h.grainSize * SECTORSZ % U64) := by
      rw [hHOK.2.2.1]
      decide
    rw [vmdkparsestream_eq c fuel _ h _ _ hdb halloc, hmd, hHOK.2.2.2]
    have h4 : (512 * 4 / SECTORSZ : Nat) = 4 := by decide
    rw [h4, show fuel = (fuel - k - 4 + 4) + k by omega, hk, htail]
  -- the size of the output
  obtain ⟨fd', hset, hdata⟩ := setsize_outData s2.ofd a.img raw h.capacity
    (by rw [hofd2]; exact hout) (by rw [hcap]; simp only [SECTORSZ]; omega)
    (by have := w.img; rw [hrt, List.take_length] at this; exact this) h1 (by simp only [OFFMAX]; omega)
  unfold mainStream
  have hsz : ¬ (f.data.length < 512 + SECTORSZ) := by simp only [SECTORSZ]; omega
  rw [if_neg hsz, hinfo]
  dsimp only
  have hso' : ¬ (h.streamoptimized = 0) := by rw [hso]; decide
  have halg : ¬ (h.flags &&& FLAGBIT_COMPRESSED ≠ 0 ∧ h.compressAlgorithm ≠ COMPRESSION_NONE ∧
      h.compressAlgorithm ≠ COMPRESSION_DEFLATE) := by
    rw [hHOK.2.1]
    exact fun hx => hx.2.2 rfl
  rw [if_neg hso', if_neg halg, hoh, lseekSet_mk _ _ 65536 (by decide), hrun]
  dsimp only
  rw [hset]
  dsimp only
  rw [hdata]

/-- The output grows by at most `K` bytes for a grain and by 2560 for a table. -/
theorem Reach.V_bound {c : Codec} {z : Nat} {raw : List Nat} {a : AState}
    (h : Reach c z raw a) (K : Nat)
    (hK : ∀ g, g.length = GRAINBYTES → (12 + (c.deflate g z).length + 511) / 512 * 512 ≤ K) :
    a.V.length ≤ 65536 + a.n * K + a.tbls.length * 2560 := by
  induction h with
  | init => rw [AState.init_V, length_zeros]; omega
  | pass a g hr hg ih =>
    have hKg := hK g hg.grain_length
    have hadd : (a.add c z g).V.length ≤ a.V.length + K ∧ (a.add c z g).n = a.n + 1 ∧
        (a.add c z g).tbls = a.tbls ∧ (a.add c z g).cur.length = a.cur.length + 1 := by
      unfold AState.add
      split
      · exact ⟨Nat.le_add_right _ _, rfl, rfl, by simp⟩
      · refine ⟨?_, rfl, rfl, by simp⟩
        show (a.V ++ grainSeg _ _).length ≤ _
        rw [List.length_append, length_grainSeg]
        omega
    unfold AState.pass
    split
    · rename_i h512
      simp only [AState.flush, List.length_append, List.length_singleton]
      rw [length_tableSeg _ (by omega), hadd.2.1, hadd.2.2.1, Nat.add_mul]
      omega
    · rw [hadd.2.1, hadd.2.2.1, Nat.add_mul]
      omega

theorem Reach.last_V_bound {c : Codec} {z : Nat} {raw : List Nat} {a : AState}
    (h : Reach c z raw a) (K : Nat)
    (hK : ∀ g, g.length = GRAINBYTES → (12 + (c.deflate g z).length + 511) / 512 * 512 ≤ K) :
    a.last.V.length ≤ 65536 + a.n * K + (a.n + 511) / 512 * 2560 := by
  have hb := h.V_bound K hK
  obtain ⟨_, htl, _⟩ := h.facts_last
  have hlt := h.cur_lt
  revert htl
  unfold AState.last
  split
  · intro htl
    simp only [AState.flush, List.length_append, List.length_singleton] at htl ⊢
    rw [length_tableSeg _ (by omega)]
    omega
  · intro htl
    omega

/-- The length of the file written, bounded by the number of grains read. -/
theorem Written.length_le {c : Codec} {z : Nat} {raw : List Nat} {cap : Nat} {f : File}
    {a : AState} {S : List Nat} {r rt : Nat} (w : Written c z raw cap f a S r rt) (K : Nat)
    (hK : ∀ g, g.length = GRAINBYTES → (12 + (c.deflate g z).length + 511) / 512 * 512 ≤ K) :
    f.data.length ≤ 65536 + a.n * K + (a.n + 511) / 512 * 2560 +
      512 * dirSects ((a.n + 511) / 512) + 2048 := by
  have h1 := w.reach.last_V_bound K hK
  obtain ⟨_, htl, _⟩ := w.reach.facts_last
  rw [w.file_length, htl]
  omega

theorem Codec.Lossless.seg_le {c : Codec} (hc : c.Lossless) (z : Nat) :
    ∀ g, g.length = GRAINBYTES →
      (12 + (c.deflate g z).length + 511) / 512 * 512 ≤ 4294967296 := by
  intro g hg
  have := (hc g z hg).2.2
  simp only [U32] at this
  omega

theorem storedCodec_seg_le (z : Nat) :
    ∀ g, g.length = GRAINBYTES →
      (12 + (storedCodec.deflate g z).length + 511) / 512 * 512 ≤ 66048 := by
  intro g hg
  show (12 + (1 :: g).length + 511) / 512 * 512 ≤ 66048
  rw [List.length_cons, hg]
  decide

/-- The capacity in the header at offset 0 of a file written without override. -/
theorem Written.capacity {c : Codec} {z : Nat} {raw : List Nat} {f : File}
    {a : AState} {S : List Nat} {r rt : Nat} (w : Written c z raw 0 f a S r rt)
    (hL : raw.length < U64) :
    (decodeHeader (f.data.take 512)).capacity = raw.length / 512 := by
  rw [w.header]
  show (if (0 : Nat) = 0 then rt else 0) / SECTORSZ % U64 = _
  rw [if_pos rfl, w.all rfl]
  simp only [SECTORSZ]
  apply Nat.mod_eq_of_lt
  simp only [U64] at hL ⊢
  omega

/-- The number of grains read from an input taken whole. -/
theorem Written.grains {c : Codec} {z : Nat} {raw : List Nat} {f : File}
    {a : AState} {S : List Nat} {r rt : Nat} (w : Written c z raw 0 f a S r rt) :
    a.n = (raw.length + 65535) / 65536 := by
  have hrt : rt = raw.length := w.all rfl
  have h1 := w.rtimg
  have h2 := w.tight
  have h3 := w.imglen
  omega

/-- C1 (amended): for every raw image whose length `L` is a positive multiple of 512
below 2^46, written by `allraw2grains` with no capacity override under a lossless
codec, the function returns, the header at offset 0 of the file has
`capacity * 512 = L`, and the stream extraction of the file (`vmdkinfo`,
`vmdkparsestream` from `overHead * 512`, then `setsize`), given more passes than the
file has sectors, outputs exactly the `L` bytes of the image. -/
theorem allraw2grains_stream_roundtrip (c : Codec) (raw : List Nat) (p z : Nat) (ofd : File)
    (hc : c.Lossless) (hofd : ofd.data = []) (hL0 : 0 < raw.length)
    (h512 : raw.length % 512 = 0) (hL : raw.length < 2 ^ 46) :
    ∃ f, allraw2grains c ⟨raw, p⟩ 0 ofd z = some f ∧
      (decodeHeader (f.data.take 512)).capacity * 512 = raw.length ∧
      ∀ fuel, f.data.length / 512 < fuel → mainStream c fuel f.data = Outcome.output raw := by
  have hL' : raw.length < 70368744177664 := by
    have : (2 : Nat) ^ 46 = 70368744177664 := by norm_num
    omega
  obtain ⟨f, a, S, r, rt, hf, w⟩ := allraw2grains_written c z hc raw p 0 ofd hofd
    (by simp only [U64]; omega)
  refine ⟨f, hf, ?_, ?_⟩
  · rw [w.capacity (by simp only [U64]; omega)]
    omega
  · intro fuel hfuel
    have hlen := w.length_le 4294967296 (hc.seg_le z)
    have hn := w.grains
    have hF : f.data.length < OFFMAX := by
      unfold dirSects at hlen
      simp only [OFFMAX]
      omega
    exact w.stream_roundtrip hc hL0 h512
      (by have : (2 : Nat) ^ 55 = 36028797018963968 := by norm_num
          omega) hF fuel hfuel

/-- C1 witness: a 1 MiB image of 0xAA bytes written at strength 6 with the storing
codec and read back as a stream. -/
theorem allraw2grains_stream_roundtrip_witness :
    storedCodec.Lossless ∧ 0 < (List.replicate 1048576 170).length ∧
    (List.replicate 1048576 170).length % 512 = 0 ∧
    (List.replicate 1048576 170).length < 2 ^ 46 ∧
    ∃ f, allraw2grains storedCodec ⟨List.replicate 1048576 170, 0⟩ 0 File.empty 6 = some f ∧
      (decodeHeader (f.data.take 512)).capacity * 512 = (List.replicate 1048576 170).length ∧
      ∀ fuel, f.data.length / 512 < fuel →
        mainStream storedCodec fuel f.data = Outcome.output (List.replicate 1048576 170) :=
  have hlen : (List.replicate 1048576 170).length = 1048576 := List.length_replicate _ _
  ⟨storedCodec_lossless, by rw [hlen]; decide, by rw [hlen], by rw [hlen]; norm_num,
    allraw2grains_stream_roundtrip storedCodec (List.replicate 1048576 170) 0 6 File.empty
      storedCodec_lossless rfl (by rw [hlen]; decide) (by rw [hlen])
      (by rw [hlen]; norm_num)⟩

/-- C1 counterexample: an image of 513 bytes written without override gets the
capacity 1 in its header, so `capacity * 512` is 512 and not the length 513. -/
theorem allraw2grains_capacity_counterexample :
    ∃ f, allraw2grains storedCodec ⟨List.replicate 513 170, 0⟩ 0 File.empty 6 = some f ∧
      (decodeHeader (f.data.take 512)).capacity * 512 ≠ (List.replicate 513 170).length := by
  have hlen : (List.replicate 513 170).length = 513 := List.length_replicate _ _
  obtain ⟨f, a, S, r, rt, hf, w⟩ := allraw2grains_written storedCodec 6 storedCodec_lossless
    (List.replicate 513 170) 0 0 File.empty rfl (by rw [hlen]; decide)
  refine ⟨f, hf, ?_⟩
  rw [w.capacity (by rw [hlen]; decide), hlen]
  decide

/-! ## Reading entries of the grain directory and of grain tables -/

theorem slice_zeros (k o l : Nat) (h : o + l ≤ k) : slice (zeros k) o l = zeros l := by
  unfold slice
  rw [drop_zeros, take_zeros]
  apply congrArg zeros
  omega

theorem enc32s_entry (es : List Nat) (i : Nat) (h : i < es.length) :
    slice (enc32s es) (4 * i) 4 = encLE 4 (es.getD i 0) := by
  induction es generalizing i with
  | nil => exact absurd h (Nat.not_lt_zero _)
  | cons e es ih =>
    cases i with
    | zero =>
      show slice (encLE 4 e ++ enc32s es) 0 4 = encLE 4 e
      have := slice_zero_length (encLE 4 e) (enc32s es)
      rw [length_encLE] at this
      exact this
    | succ i =>
      show slice (encLE 4 e ++ enc32s es) (4 * (i + 1)) 4 = encLE 4 (es.getD i 0)
      rw [slice_append_right (encLE 4 e) _ _ 4 (4 * i) (by rw [length_encLE]; omega)]
      exact ih i (Nat.lt_of_succ_lt_succ h)

/-- The 32-bit entry `i` of a zero-filled table of entries. -/
theorem enc32s_field (es : List Nat) (r i : Nat) (h : 4 * i + 4 ≤ 4 * es.length + r) :
    field (enc32s es ++ zeros r) (4 * i) 4 = es.getD i 0 % U32 := by
  unfold field
  by_cases hi : i < es.length
  · rw [slice_append_left _ _ _ _ (by rw [length_enc32s]; omega), enc32s_entry es i hi,
      decLE_encLE]
    rfl
  · rw [slice_append_right _ _ _ 4 (4 * i - 4 * es.length) (by rw [length_enc32s]; omega),
      slice_zeros _ _ _ (by omega), decLE_zeros, List.getD_eq_default _ _ (by omega)]
    rfl

theorem getD_drop_take (l : List Nat) (a b i : Nat) (h : i < b) :
    ((l.drop a).take b).getD i 0 = l.getD (a + i) 0 := by
  rw [List.getD_eq_getElem?_getD, List.getD_eq_getElem?_getD, List.getElem?_take_of_lt h,
    List.getElem?_drop]

/-- What `readentry` returns on a file of whole sectors that holds the entry. -/
theorem readentry_eq (D : List Nat) (q base e : Nat) (hD : D.length % 512 = 0)
    (hin : base * 512 + 4 * e + 4 ≤ D.length) (hoff : D.length < OFFMAX) :
    readentry ⟨D, q⟩ base e
      = (field D (base * 512 + 4 * e) 4, ⟨D, (base + e / 128) * 512 + 512⟩) := by
  have hP : (base + e / 128) * 512 + 512 ≤ D.length := by
    rw [Nat.add_mul]
    omega
  unfold readentry
  have h128 : SECTORSZ / 4 = 128 := by decide
  simp only [h128]
  simp only [SECTORSZ]
  rw [lseekSet_lt _ _ (by omega), aread_full _ _ hP]
  simp only
  unfold field
  rw [slice_slice _ _ _ _ _ (by omega)]
  have : (base + e / 128) * 512 + 4 * (e % 128) = base * 512 + 4 * e := by
    rw [Nat.add_mul]
    omega
  rw [this]

/-- A field read inside a known stretch of the file. -/
theorem field_within (D X : List Nat) (p o l : Nat) (hX : slice D p X.length = X)
    (h : o + l ≤ X.length) : field D (p + o) l = field X o l := by
  unfold field
  rw [slice_sub D p X.length o l h, hX]

theorem tableSeg_marker (es : List Nat) :
    slice (tableSeg es) 0 512 = metaMarker 4 MARKER_GT := by
  unfold tableSeg
  rw [List.append_assoc]
  have := slice_zero_length (metaMarker 4 MARKER_GT) (enc32s es ++ zeros (2048 - 4 * es.length))
  rw [length_metaMarker] at this
  exact this

/-- The entry `i` of a grain table in its five sectors. -/
theorem tableSeg_field (es : List Nat) (i : Nat) (hes : es.length ≤ 512) (hi : i < 512) :
    field (tableSeg es) (512 + 4 * i) 4 = es.getD i 0 % U32 := by
  unfold tableSeg
  rw [List.append_assoc, field_skip (metaMarker 4 MARKER_GT) _ _ 4 (4 * i)
    (by rw [length_metaMarker])]
  exact enc32s_field es _ i (by omega)

/-- The entry `k` of the grain directory in its sectors. -/
theorem dirSeg_field (tbls : List Nat) (r k : Nat) (hk : 4 * k + 4 ≤ 4 * tbls.length + r) :
    field (dirSeg tbls r) (512 + 4 * k) 4 = tbls.getD k 0 % U32 := by
  unfold dirSeg
  rw [List.append_assoc, field_skip (metaMarker _ MARKER_GD) _ _ 4 (4 * k)
    (by rw [length_metaMarker])]
  exact enc32s_field tbls r k hk

/-- The directory entry of a flushed grain table is the sector after the marker of
the table. -/
theorem Laid.dir_entry {c : Codec} {z : Nat} {D : List Nat} {A : AState} {r : Nat}
    (L : Laid c z D A r) (k : Nat) (hk : k < A.tbls.length) :
    ∃ p, p % 512 = 0 ∧ 65536 ≤ p ∧ p + 2560 ≤ A.V.length ∧
      field D ((A.V.length / 512 + 1) * 512 + 4 * k) 4 = p / 512 + 1 ∧
      slice D p 2560 = tableSeg ((A.ents.drop (512 * k)).take 512) := by
  obtain ⟨p, hp1, hp2, ht, hp3, hseg⟩ := L.facts.tables k hk
  have hVD := L.agree.len_le
  have hsmall := L.small
  have hal := L.facts.aligned
  refine ⟨p, hp1, hp2, hp3, ?_, ?_⟩
  · have h1 : (A.V.length / 512 + 1) * 512 + 4 * k = A.V.length + (512 + 4 * k) := by
      rw [Nat.add_mul]
      omega
    rw [h1, field_within D (dirSeg A.tbls r) A.V.length _ 4 L.dir
      (by rw [length_dirSeg]; omega), dirSeg_field _ _ _ (by omega), ht]
    simp only [U32]
    omega
  · rw [L.agree.slice p 2560 hp2 hp3]
    exact hseg

/-- The entry `i` of the grain table at `p` is the entry made for its grain. -/
theorem table_entry (D ents : List Nat) (k p i : Nat) (hi : i < 512) (hp : p % 512 = 0)
    (hseg : slice D p 2560 = tableSeg ((ents.drop (512 * k)).take 512)) :
    field D ((p / 512 + 1) * 512 + 4 * i) 4 = ents.getD (512 * k + i) 0 % U32 := by
  have hes : ((ents.drop (512 * k)).take 512).length ≤ 512 := by
    rw [List.length_take]
    omega
  have h1 : (p / 512 + 1) * 512 + 4 * i = p + (512 + 4 * i) := by
    rw [Nat.add_mul]
    omega
  have hseg' : slice D p (tableSeg ((ents.drop (512 * k)).take 512)).length
      = tableSeg ((ents.drop (512 * k)).take 512) := by
    rw [length_tableSeg _ hes]
    exact hseg
  rw [h1, field_within D _ p _ 4 hseg' (by rw [length_tableSeg _ hes]; omega),
    tableSeg_field _ i hes hi, getD_drop_take _ _ _ _ hi]

/-- The entry made for a grain: zero for a zero grain, otherwise the sector of its
marker, which the file holds with the deflate stream of the grain. -/
theorem Laid.grain {c : Codec} {z : Nat} {D : List Nat} {A : AState} {r : Nat}
    (L : Laid c z D A r) (n : Nat) (hn : n < A.n) :
    (scanNonzero (slice A.img (n * 65536) 65536) GRAINBYTES = 0 ∧ A.ents.getD n 0 = 0) ∨
    (scanNonzero (slice A.img (n * 65536) 65536) GRAINBYTES ≠ 0 ∧ ∃ p, p % 512 = 0 ∧
      65536 ≤ p ∧ A.ents.getD n 0 = p / 512 ∧
      p + (grainSeg (n * 128) (c.deflate (slice A.img (n * 65536) 65536) z)).length
        ≤ D.length ∧
      slice D p (grainSeg (n * 128) (c.deflate (slice A.img (n * 65536) 65536) z)).length
        = grainSeg (n * 128) (c.deflate (slice A.img (n * 65536) 65536) z)) := by
  have hVD := L.agree.len_le
  have hsmall := L.small
  have himg := L.facts.imglen
  have hnb : n * 128 % U64 = n * 128 := by
    apply Nat.mod_eq_of_lt
    have hb := L.nsmall
    simp only [U64]
    omega
  rcases L.facts.grains n hn with h | ⟨hnz, p, h1, h2, h3, h4, h5⟩
  · exact Or.inl h
  · rw [hnb] at h4 h5
    refine Or.inr ⟨hnz, p, h1, h2, ?_, by omega, ?_⟩
    · rw [h3]
      apply Nat.mod_eq_of_lt
      simp only [U32]
      have : 512 ≤ (grainSeg (n * 128) (c.deflate (slice A.img (n * 65536) 65536) z)).length := by
        rw [length_grainSeg]; omega
      omega
    · rw [L.agree.slice p _ h2 h4]
      exact h5

/-- Every flushed grain table has its five sectors in the output. -/
theorem Reach.tbls_le {c : Codec} {z : Nat} {raw : List Nat} {a : AState}
    (h : Reach c z raw a) : a.tbls.length * 2560 + 65536 ≤ a.V.length := by
  induction h with
  | init => rw [AState.init_V, length_zeros]; exact Nat.le_refl _
  | pass a g hr hg ih =>
    have hlt := hr.cur_lt
    obtain ⟨X, hX⟩ := AState.add_V c z a g
    have hadd := AState.add_n c z a g
    have hcur : (a.add c z g).cur.length = a.cur.length + 1 := by
      unfold AState.add; split <;> simp
    unfold AState.pass
    split
    · simp only [AState.flush, List.length_append, List.length_singleton]
      rw [length_tableSeg _ (by omega), hadd.2.2, hX, List.length_append]
      omega
    · rw [hadd.2.2, hX, List.length_append]
      omega

theorem Reach.last_tbls_le {c : Codec} {z : Nat} {raw : List Nat} {a : AState}
    (h : Reach c z raw a) : a.last.tbls.length * 2560 + 65536 ≤ a.last.V.length := by
  have h1 := h.tbls_le
  have hlt := h.cur_lt
  unfold AState.last
  split
  · simp only [AState.flush, List.length_append, List.length_singleton]
    rw [length_tableSeg _ (by omega)]
    omega
  · exact h1

/-- A file written by `allraw2grains` that is smaller than 2 TiB holds the layout
after the last pass of the writer. -/
theorem Written.laid {c : Codec} {z : Nat} {raw : List Nat} {cap : Nat} {f : File}
    {a : AState} {S : List Nat} {r rt : Nat} (w : Written c z raw cap f a S r rt)
    (hF : f.data.length < 2199023255552) : Laid c z f.data a.last r := by
  obtain ⟨hfacts, htl, hnl, _, _⟩ := w.reach.facts_last
  have hlen := w.file_length
  have hVl := w.V_length
  have htb := w.reach.last_tbls_le
  have hdl := w.dir_length.1
  have hdir : slice f.data a.last.V.length (dirSeg a.last.tbls r).length
      = dirSeg a.last.tbls r := by
    rw [w.data, hVl]
    exact (vmdkBytes_tail _ _ _ _ (length_descblk _)).1
  refine ⟨hfacts, ?_, ?_, hF, hdir, ?_, ?_, ?_⟩
  · rw [w.data, w.stream]
    exact vmdkBytes_agree _ _ _ _ (length_descblk _)
  · have := hfacts.aligned
    omega
  · rw [hdl]
    omega
  · rw [htl, hnl]
  · rw [hnl]
    rw [htl] at htb
    omega

theorem fst_mk_file (t : Nat) (f : File) : ((t, f) : Nat × File).1 = t := rfl

theorem snd_mk_file (t : Nat) (f : File) : ((t, f) : Nat × File).2 = f := rfl

theorem fst_mk_triple (a : List Nat) (k : Nat) (f : File) :
    ((a, k, f) : List Nat × Nat × File).1 = a := rfl

theorem snd_mk_triple (a : List Nat) (k : Nat) (f : File) :
    ((a, k, f) : List Nat × Nat × File).2.2 = f := rfl

/-- The call `grain2raw` for a grain whose table entry is zero or one. -/
theorem grain2raw_absent (c : Codec) (h : SparseExtentHeader) (n : Nat) (s : RState)
    (t b : Nat) (f1 f2 : File) (hgt : h.numGTEsPerGT ≠ 0)
    (h1 : readentry s.ifd h.gdOffset (n / h.numGTEsPerGT) = (t, f1)) (ht : t ≠ 0)
    (h2 : readentry f1 t (n % h.numGTEsPerGT) = (b, f2)) (hb : b ≤ 1) :
    grain2raw c h n s = some { s with ifd := f2 } := by
  unfold grain2raw
  rw [if_neg hgt, h1]
  show (if t = 0 then _ else _) = _
  rw [if_neg ht, fst_mk_file, snd_mk_file, h2]
  show (if b ≤ 1 then _ else _) = _
  rw [if_pos hb]

/-- The call `grain2raw` for a grain whose table entry points to its marker. -/
theorem grain2raw_present (c : Codec) (h : SparseExtentHeader) (n : Nat) (s : RState)
    (t b k : Nat) (f1 f2 f4 f5 : File) (mb g buf' : List Nat) (hgt : h.numGTEsPerGT ≠ 0)
    (h1 : readentry s.ifd h.gdOffset (n / h.numGTEsPerGT) = (t, f1)) (ht : t ≠ 0)
    (h2 : readentry f1 t (n % h.numGTEsPerGT) = (b, f2)) (hb : ¬ b ≤ 1)
    (h4 : aread (lseekSet f2 (b * SECTORSZ % U64)) 512 = (mb, k, f4))
    (hsize : (decodeMarker mb).size ≠ 0)
    (hval : (decodeMarker mb).val = n * h.grainSize % U64)
    (halloc : ¬ (OFFMAX ≤ h.grainSize * SECTORSZ % U64))
    (hm : marker2grain c f4 h (decodeMarker mb) (zeros (h.grainSize * SECTORSZ % U64)) s.dbuf
      = some (g, f5, buf')) :
    grain2raw c h n s
      = some ⟨f5, awrite (lseekSet s.ofd (n * h.grainSize * SECTORSZ)) g, buf'⟩ := by
  unfold grain2raw
  rw [if_neg hgt, h1]
  show (if t = 0 then _ else _) = _
  rw [if_neg ht, fst_mk_file, snd_mk_file, h2]
  show (if b ≤ 1 then _ else _) = _
  rw [if_neg hb, fst_mk_file, snd_mk_file]
  show (if (decodeMarker (aread (lseekSet f2 (b * SECTORSZ % U64)) 512).1).size = 0
    then _ else _) = _
  rw [h4, fst_mk_triple, snd_mk_triple, if_neg hsize, if_neg (not_not.mpr hval),
    if_neg halloc, hm]

/-! ## The random-access extractor on a file of the writer -/

/-- One call of `grain2raw` on a file that holds the layout of the writer: the
grain `n` is added to the image written so far. -/
theorem Laid.grain2raw_ok {c : Codec} {z : Nat} {D : List Nat} {A : AState} {r : Nat}
    (L : Laid c z D A r) (hc : c.Lossless) (h : SparseExtentHeader) (hh : HOK h)
    (hgd : h.gdOffset = A.V.length / 512 + 1) (n : Nat) (hn : n < A.n) (s : RState) (q : Nat)
    (hifd : s.ifd = ⟨D, q⟩) (hout : OutData s.ofd.data (slice A.img 0 (n * 65536))) :
    ∃ s' q', grain2raw c h n s = some s' ∧ s'.ifd = ⟨D, q'⟩ ∧
      OutData s'.ofd.data (slice A.img 0 ((n + 1) * 65536)) := by
  have hVD := L.agree.len_le
  have hsmall := L.small
  have hal := L.facts.aligned
  have hns := L.nsmall
  have himgl := L.facts.imglen
  have hoff : D.length < OFFMAX := by simp only [OFFMAX]; omega
  have hk : n / 512 < A.tbls.length := by rw [L.cover]; omega
  obtain ⟨p, hp1, hp2, hp3, hfield, hseg⟩ := L.dir_entry (n / 512) hk
  have hdirin := L.dirin
  rw [length_dirSeg] at hdirin
  have hr1 : readentry s.ifd h.gdOffset (n / h.numGTEsPerGT)
      = (p / 512 + 1, ⟨D, (A.V.length / 512 + 1 + n / 512 / 128) * 512 + 512⟩) := by
    rw [hifd, hh.2.2.2, hgd, readentry_eq D q _ _ L.whole (by rw [Nat.add_mul]; omega) hoff,
      hfield]
  have hte := table_entry D A.ents (n / 512) p (n % 512) (Nat.mod_lt _ (by decide)) hp1 hseg
  rw [Nat.div_add_mod n 512] at hte
  have hr2 : readentry ⟨D, (A.V.length / 512 + 1 + n / 512 / 128) * 512 + 512⟩ (p / 512 + 1)
      (n % h.numGTEsPerGT)
      = (A.ents.getD n 0 % U32, ⟨D, (p / 512 + 1 + n % 512 / 128) * 512 + 512⟩) := by
    rw [hh.2.2.2, readentry_eq D _ _ _ L.whole (by rw [Nat.add_mul]; omega) hoff, hte]
  have hsplit : slice A.img 0 ((n + 1) * 65536)
      = slice A.img 0 (n * 65536) ++ slice A.img (n * 65536) 65536 := by
    rw [show (n + 1) * 65536 = n * 65536 + 65536 by omega, slice_split, Nat.zero_add]
  have hg : (slice A.img (n * 65536) 65536).length = GRAINBYTES := by
    rw [length_slice]
    simp only [GRAINBYTES]
    omega
  have hpre : (slice A.img 0 (n * 65536)).length = n * 65536 := by
    rw [length_slice]
    omega
  have hgt0 : h.numGTEsPerGT ≠ 0 := by rw [hh.2.2.2]; decide
  rcases L.grain n hn with ⟨hz, he⟩ | ⟨hnz, p', h1, h2, h3, h4, h5⟩
  · have hle : A.ents.getD n 0 % U32 ≤ 1 := by rw [he]; decide
    refine ⟨_, _, grain2raw_absent c h n s _ _ _ _ hgt0 hr1 (Nat.succ_ne_zero _) hr2 hle, rfl, ?_⟩
    show OutData s.ofd.data _
    rw [hsplit, eq_zeros_of_scan' _ hg hz]
    exact hout.skip _
  · obtain ⟨hinf, hc0, hc1⟩ := hc _ z hg
    have hW : 512 ≤ (grainSeg (n * 128) (c.deflate (slice A.img (n * 65536) 65536) z)).length := by
      rw [length_grainSeg]; omega
    have he : A.ents.getD n 0 % U32 = p' / 512 := by
      rw [h3]
      apply Nat.mod_eq_of_lt
      simp only [U32]
      omega
    rw [he] at hr2
    have hgt1 : ¬ (p' / 512 ≤ 1) := by omega
    have hblk : p' / 512 * SECTORSZ % U64 = p' := by
      simp only [SECTORSZ, U64]
      omega
    have har : aread (lseekSet ⟨D, (p / 512 + 1 + n % 512 / 128) * 512 + 512⟩
        (p' / 512 * SECTORSZ % U64)) 512 = (slice D p' 512, 512, ⟨D, p' + 512⟩) := by
      rw [hblk, lseekSet_lt _ _ (by omega)]
      exact aread_full _ _ (by show p' + 512 ≤ D.length; omega)
    obtain ⟨hsize, hval, _⟩ := grain_marker D p' (n * 128) _ h5 hc1 (by simp only [U64]; omega)
    obtain ⟨buf', hm⟩ := marker2grain_seg c h D p' (n * 128) _ _
      (zeros ((h.grainSize * SECTORSZ) % U64)) s.dbuf h5 hc0 hc1 (by simp only [U64]; omega)
      hinf hg hh.1 hh.2.1 hh.2.2.1
    have hsz : (decodeMarker (slice D p' 512)).size ≠ 0 := by rw [hsize]; omega
    have hv : (decodeMarker (slice D p' 512)).val = n * h.grainSize % U64 := by
      rw [hval, hh.2.2.1]
      simp only [U64]
      omega
    have halloc : ¬ (OFFMAX ≤ h.grainSize * SECTORSZ % U64) := by
      rw [hh.2.2.1]
      decide
    refine ⟨_, _, grain2raw_present c h n s _ _ _ _ _ _ _ _ _ _ hgt0 hr1 (Nat.succ_ne_zero _)
      hr2 hgt1 har hsz hv halloc hm, rfl, ?_⟩
    have hne : slice A.img (n * 65536) 65536 ≠ [] := by
      intro h0
      rw [h0] at hg
      exact absurd hg (by decide)
    show OutData (awrite (lseekSet s.ofd (n * h.grainSize * SECTORSZ)) _).data _
    rw [hh.2.2.1, lseekSet_lt _ _ (by simp only [SECTORSZ, OFFMAX]; omega), awrite_data _ _ hne]
    show OutData (pwrite s.ofd.data (n * 128 * SECTORSZ) _) _
    rw [show n * 128 * SECTORSZ = (slice A.img 0 (n * 65536)).length by
      rw [hpre]; simp only [SECTORSZ]; omega, hout.write, hsplit]
    exact OutData.refl _

/-- The loop of `allgrains2raw` on a file that holds the layout of the writer. -/
theorem Laid.grainLoop_ok {c : Codec} {z : Nat} {D : List Nat} {A : AState} {r : Nat}
    (L : Laid c z D A r) (hc : c.Lossless) (h : SparseExtentHeader) (hh : HOK h)
    (hgd : h.gdOffset = A.V.length / 512 + 1) (count : Nat) :
    ∀ (n : Nat) (s : RState) (q : Nat), n + count ≤ A.n → s.ifd = ⟨D, q⟩ →
      OutData s.ofd.data (slice A.img 0 (n * 65536)) →
      ∃ s' q', grainLoop c h count n s = some s' ∧ s'.ifd = ⟨D, q'⟩ ∧
        OutData s'.ofd.data (slice A.img 0 ((n + count) * 65536)) := by
  induction count with
  | zero =>
    intro n s q _ hifd hout
    exact ⟨s, q, rfl, hifd, hout⟩
  | succ count ih =>
    intro n s q hle hifd hout
    obtain ⟨s1, q1, h1, hifd1, hout1⟩ := L.grain2raw_ok hc h hh hgd n (by omega) s q hifd hout
    obtain ⟨s2, q2, h2, hifd2, hout2⟩ := ih (n + 1) s1 q1 (by omega) hifd1 hout1
    refine ⟨s2, q2, ?_, hifd2, ?_⟩
    · rw [grainLoop, h1]
      exact h2
    · rw [show n + (count + 1) = n + 1 + count by omega]
      exact hout2

/-- The function `allgrains2raw` on a file that holds the layout of the writer
writes the image of all the grains. -/
theorem Laid.allgrains2raw_ok {c : Codec} {z : Nat} {D : List Nat} {A : AState} {r : Nat}
    (L : Laid c z D A r) (hc : c.Lossless) (h : SparseExtentHeader) (hh : HOK h)
    (hgd : h.gdOffset = A.V.length / 512 + 1)
    (hcap : (h.capacity / 128 + (if h.capacity % 128 ≠ 0 then 1 else 0)) % U64 = A.n)
    (q : Nat) :
    ∃ ifd ofd, allgrains2raw c ⟨D, q⟩ h File.empty = some (ifd, ofd) ∧
      OutData ofd.data A.img := by
  obtain ⟨s', q', h1, _, hout⟩ := L.grainLoop_ok hc h hh hgd A.n 0
    { ifd := ⟨D, q⟩, ofd := File.empty, dbuf := [] } q (by omega) rfl (by
      rw [Nat.zero_mul]
      exact OutData.nil)
  refine ⟨s'.ifd, s'.ofd, ?_, ?_⟩
  · unfold allgrains2raw
    rw [if_neg (by rw [hh.2.2.1]; decide), hh.2.2.1]
    show Option.map _ (grainLoop c h
      ((h.capacity / 128 + (if h.capacity % 128 ≠ 0 then 1 else 0)) % U64) 0 _) = _
    rw [hcap, h1]
    rfl
  · rw [Nat.zero_add, slice_all _ _ L.facts.imglen] at hout
    exact hout

/-- The random-access extraction of a VMDK smaller than 2 TiB, written without
capacity override from an input of whole sectors, gives the input back. -/
theorem Written.random_roundtrip {c : Codec} {z : Nat} {raw : List Nat} {f : File}
    {a : AState} {S : List Nat} {r rt : Nat} (w : Written c z raw 0 f a S r rt)
    (hc : c.Lossless) (hL0 : 0 < raw.length) (h512 : raw.length % 512 = 0)
    (hF : f.data.length < 2199023255552) :
    mainRandom c f.data = Outcome.output raw := by
  have L := w.laid hF
  have hrt : rt = raw.length := w.all rfl
  have hlen := w.file_length
  obtain ⟨hfacts, htl, hnl, himgl, _⟩ := w.reach.facts_last
  have hVD := L.agree.len_le
  have hgr := w.grains
  have hns := L.nsmall
  rw [hnl] at hns
  have h1 := w.rtimg
  have h2 := w.tight
  have himglen := w.imglen
  rw [hrt] at h1 h2
  have hcapS : (if (0 : Nat) = 0 then rt else 0) / SECTORSZ % U64 = raw.length / 512 := by
    rw [if_pos rfl, hrt]
    exact Nat.mod_eq_of_lt (by simp only [SECTORSZ, U64]; omega)
  have hG : (a.last.V.length / SECTORSZ + 1) % U32 = a.last.V.length / 512 + 1 := by
    simp only [SECTORSZ, U32]
    omega
  have hinfo := w.info
  rw [hcapS, hG] at hinfo
  generalize hh : ({ writerHeader (raw.length / 512) (a.last.V.length / 512 + 1) with
    streamoptimized := 1 } : SparseExtentHeader) = h at hinfo
  have hHOK : HOK h := by subst hh; exact writerHeader_HOK _ _ _
  have hcap : h.capacity = raw.length / 512 := by subst hh; rfl
  have hgd : h.gdOffset = a.last.V.length / 512 + 1 := by subst hh; rfl
  obtain ⟨ifd', ofd', hall, hout⟩ := L.allgrains2raw_ok hc h hHOK hgd (by
    rw [hcap, hnl, hgr]
    simp only [U64]
    split <;> omega) 1024
  obtain ⟨fd', hset, hdata⟩ := setsize_outData ofd' a.last.img raw h.capacity hout
    (by rw [hcap]; simp only [SECTORSZ]; omega)
    (by rw [himgl]; have := w.img; rw [hrt, List.take_length] at this; exact this)
    (by rw [himgl]; exact h1) (by simp only [OFFMAX]; omega)
  have hsz : ¬ (f.data.length < 512 + SECTORSZ) := by simp only [SECTORSZ]; omega
  have hsent : ¬ ((h.gdOffset + 1) % U64 = 0) := by
    rw [hgd]
    simp only [U64]
    omega
  unfold mainRandom
  rw [if_neg hsz, hinfo]
  dsimp only
  rw [if_neg hsent]
  dsimp only
  rw [hall]
  dsimp only
  rw [hset]
  dsimp only
  rw [hdata]

/-- C2 (amended): for every raw image whose length is a positive multiple of 512
bytes (a multiple of the 64 KiB grain or not), written by `allraw2grains` with no
capacity override under a lossless codec, the function returns, and when the VMDK is
smaller than 2 TiB both the random-access extraction (`allgrains2raw`, then
`setsize`) and the stream extraction (`vmdkparsestream`, then `setsize`) of it output
exactly the bytes of the image, so the two outputs are the same. -/
theorem allraw2grains_both_extractors (c : Codec) (raw : List Nat) (p z : Nat) (ofd : File)
    (hc : c.Lossless) (hofd : ofd.data = []) (hL0 : 0 < raw.length)
    (h512 : raw.length % 512 = 0) (hL : raw.length < 2 ^ 63) :
    ∃ f, allraw2grains c ⟨raw, p⟩ 0 ofd z = some f ∧
      (f.data.length < 2 ^ 41 →
        mainRandom c f.data = Outcome.output raw ∧
        ∀ fuel, f.data.length / 512 < fuel → mainStream c fuel f.data = Outcome.output raw) := by
  have hL' : raw.length < 9223372036854775808 := by
    have : (2 : Nat) ^ 63 = 9223372036854775808 := by norm_num
    omega
  obtain ⟨f, a, S, r, rt, hf, w⟩ := allraw2grains_written c z hc raw p 0 ofd hofd
    (by simp only [U64]; omega)
  refine ⟨f, hf, ?_⟩
  intro hF
  have hF' : f.data.length < 2199023255552 := by
    have : (2 : Nat) ^ 41 = 2199023255552 := by norm_num
    omega
  refine ⟨w.random_roundtrip hc hL0 h512 hF', ?_⟩
  intro fuel hfuel
  have hns := (w.laid hF').nsmall
  obtain ⟨_, _, hnl, _, _⟩ := w.reach.facts_last
  rw [hnl] at hns
  have hrt : rt = raw.length := w.all rfl
  have h1 := w.rtimg
  have h3 := w.imglen
  exact w.stream_roundtrip hc hL0 h512
    (by have : (2 : Nat) ^ 55 = 36028797018963968 := by norm_num
        omega) (by simp only [OFFMAX]; omega) fuel hfuel

/-- C2 witness: an image of 66048 bytes of 0xAA, one grain and a sector, written
at strength 6 with the storing codec; the file is smaller than 2 TiB and both
extractions give the image back. -/
theorem allraw2grains_both_extractors_witness :
    storedCodec.Lossless ∧ 0 < (List.replicate 66048 170).length ∧
    (List.replicate 66048 170).length % 512 = 0 ∧ (List.replicate 66048 170).length < 2 ^ 63 ∧
    ∃ f, allraw2grains storedCodec ⟨List.replicate 66048 170, 0⟩ 0 File.empty 6 = some f ∧
      f.data.length < 2 ^ 41 ∧
      mainRandom storedCodec f.data = Outcome.output (List.replicate 66048 170) ∧
      ∀ fuel, f.data.length / 512 < fuel →
        mainStream storedCodec fuel f.data = Outcome.output (List.replicate 66048 170) := by
  have hlen : (List.replicate 66048 170).length = 66048 := List.length_replicate _ _
  refine ⟨storedCodec_lossless, by rw [hlen]; decide, by rw [hlen], by rw [hlen]; norm_num, ?_⟩
  obtain ⟨f, hf, hboth⟩ := allraw2grains_both_extractors storedCodec
    (List.replicate 66048 170) 0 6 File.empty storedCodec_lossless rfl
    (by rw [hlen]; decide) (by rw [hlen]) (by rw [hlen]; norm_num)
  obtain ⟨f', a, S, r, rt, hf', w⟩ := allraw2grains_written storedCodec 6 storedCodec_lossless
    (List.replicate 66048 170) 0 0 File.empty rfl (by rw [hlen]; decide)
  have hff : f' = f := Option.some.inj (hf'.symm.trans hf)
  subst hff
  have hn := w.grains
  rw [hlen] at hn
  have hle := w.length_le 66048 (storedCodec_seg_le 6)
  have hF : f'.data.length < 2 ^ 41 := by
    have : (2 : Nat) ^ 41 = 2199023255552 := by norm_num
    unfold dirSects at hle
    have hn2 : a.n = 2 := by rw [hn]
    rw [hn2] at hle
    omega
  exact ⟨f', hf, hF, hboth hF⟩

theorem markerAt_aligned (D : List Nat) (p : Nat) (hp : p % 512 = 0) :
    markerAt D (p / 512) = decodeMarker (slice D p 512) := by
  unfold markerAt
  rw [show p / 512 * 512 = p by omega]

theorem Written.gdOffset {c : Codec} {z : Nat} {raw : List Nat} {cap : Nat} {f : File}
    {a : AState} {S : List Nat} {r rt : Nat} (w : Written c z raw cap f a S r rt)
    (hF : f.data.length < 2199023255552) :
    (decodeHeader (f.data.take 512)).gdOffset = a.last.V.length / 512 + 1 := by
  have hVD := w.file_length
  rw [w.header]
  show (a.last.V.length / SECTORSZ + 1) % U32 = _
  simp only [SECTORSZ, U32]
  omega

theorem length_bufwrite (D src : List Nat) (k : Nat) (h : k + src.length ≤ D.length) :
    (bufwrite D k src).length = D.length := by
  unfold bufwrite
  simp only [List.length_append, List.length_take, List.length_drop]
  omega

theorem slice_bufwrite_after (D src : List Nat) (k off len : Nat) (h1 : k + src.length ≤ off)
    (h2 : k + src.length ≤ D.length) :
    slice (bufwrite D k src) off len = slice D off len := by
  unfold bufwrite
  rw [slice_append_right (D.take k ++ src) _ off len (off - (k + src.length))
    (by rw [List.length_append, List.length_take]; omega)]
  unfold slice
  rw [List.drop_drop]
  congr 2
  omega

theorem bufwrite_append_left (A R src : List Nat) (k : Nat) (h : k + src.length ≤ A.length) :
    bufwrite (A ++ R) k src = bufwrite A k src ++ R := by
  unfold bufwrite
  rw [List.take_append_of_le_length (by omega), List.drop_append_of_le_length h]
  simp only [List.append_assoc]

theorem bufwrite_mid (A M M' B : List Nat) (k : Nat) (hA : A.length = k)
    (hM : M.length = M'.length) : bufwrite (A ++ M ++ B) k M' = A ++ M' ++ B := by
  unfold bufwrite
  simp only [List.append_assoc]
  rw [take_append_add A (M ++ B) k 0 (by omega), List.take_zero, List.append_nil,
    drop_append_add A (M ++ B) (k + M'.length) M'.length (by omega),
    drop_append_add M B M'.length 0 (by omega), List.drop_zero]

/-- Overwriting the field `gdOffset` in the bytes of a header. -/
theorem encodeHeader_gdOffset (capacity gdOffset x : Nat) :
    bufwrite (encodeHeader (writerHeader capacity gdOffset)) 56 (encLE 8 x)
      = encodeHeader (writerHeader capacity x) := by
  have h1 : ∀ g, encodeHeader (writerHeader capacity g) =
      (encLE 4 (writerHeader capacity g).magicNumber ++ encLE 4 (writerHeader capacity g).version
        ++ encLE 4 (writerHeader capacity g).flags ++ encLE 8 (writerHeader capacity g).capacity
        ++ encLE 8 (writerHeader capacity g).grainSize
        ++ encLE 8 (writerHeader capacity g).descriptorOffset
        ++ encLE 8 (writerHeader capacity g).descriptorSize
        ++ encLE 4 (writerHeader capacity g).numGTEsPerGT
        ++ encLE 8 (writerHeader capacity g).rgdOffset) ++ encLE 8 g ++
      (encLE 8 (writerHeader capacity g).overHead
        ++ encLE 1 (writerHeader capacity g).uncleanShutdown
        ++ encLE 1 (writerHeader capacity g).singleEndLineChar
        ++ encLE 1 (writerHeader capacity g).nonEndLineChar
        ++ encLE 1 (writerHeader capacity g).doubleEndLineChar1
        ++ encLE 1 (writerHeader capacity g).doubleEndLineChar2
        ++ encLE 2 (writerHeader capacity g).compressAlgorithm
        ++ ((writerHeader capacity g).pad ++
            zeros (432 - (writerHeader capacity g).pad.length)).take 432
        ++ encLE 1 (writerHeader capacity g).streamoptimized) := by
    intro g
    unfold encodeHeader
    simp only [List.append_assoc]
    rfl
  rw [h1 gdOffset, h1 x]
  exact bufwrite_mid _ _ _ _ 56 (by simp only [List.length_append, length_encLE])
    (by rw [length_encLE, length_encLE])

/-- The footer search of `main` when the sector it reads holds a footer marker and the
next one a header that `vmdkinfo` accepts. -/
theorem findFooter_found (ifd : File) (insz : Nat) (mb : List Nat) (k : Nat) (f2 fd : File)
    (h : SparseExtentHeader)
    (hread : aread (lseekSet ifd (((insz + U64 - 512 - SECTORSZ * 2) % U64) / SECTORSZ
      * SECTORSZ)) SECTORSZ = (mb, k, f2))
    (hsize : (decodeMarker mb).size = 0) (htype : (decodeMarker mb).type = MARKER_FOOTER)
    (hinfo : vmdkinfo f2 = Info.ok h fd) :
    findFooter ifd insz = Sum.inr (h, fd) := by
  have hm : ¬ ((decodeMarker mb).size ≠ 0 ∨ (decodeMarker mb).type ≠ MARKER_FOOTER) := by
    rw [hsize, htype]
    exact fun hx => hx.elim (fun h0 => h0 rfl) (fun h0 => h0 rfl)
  unfold findFooter
  show (if (decodeMarker (aread (lseekSet ifd (((insz + U64 - 512 - SECTORSZ * 2) % U64)
    / SECTORSZ * SECTORSZ)) SECTORSZ).1).size ≠ 0 ∨ _ then _ else _) = _
  rw [hread, fst_mk_triple, snd_mk_triple, if_neg hm, hinfo]

/-- The end of a file written by `allraw2grains`: the sector the footer search
reads holds the footer marker, the sector after it the bytes of the header at offset
0, and with the `gdOffset` at offset 0 overwritten by the sentinel the footer search
returns the header that `vmdkinfo` finds in the file as written. -/
theorem Written.footer {c : Codec} {z : Nat} {raw : List Nat} {cap : Nat} {f : File}
    {a : AState} {S : List Nat} {r rt : Nat} (w : Written c z raw cap f a S r rt)
    (hF : f.data.length < OFFMAX) :
    ∃ h, vmdkinfo ⟨f.data, 0⟩ = Info.ok h ⟨f.data, 1024⟩ ∧
      h.gdOffset = (decodeHeader (f.data.take 512)).gdOffset ∧
      h.gdOffset = (a.last.V.length / 512 + 1) % U32 ∧
      (markerAt f.data ((f.data.length - 1536) / 512)).size = 0 ∧
      (markerAt f.data ((f.data.length - 1536) / 512)).type = MARKER_FOOTER ∧
      slice f.data (((f.data.length - 1536) / 512 + 1) * 512) 512 = f.data.take 512 ∧
      (∃ h', vmdkinfo ⟨withSentinel f.data, 0⟩ = Info.ok h' ⟨withSentinel f.data, 1024⟩ ∧
        (h'.gdOffset + 1) % U64 = 0) ∧
      findFooter ⟨withSentinel f.data, 1024⟩ (withSentinel f.data).length
        = Sum.inr (h, ⟨withSentinel f.data, 1024⟩) := by
  obtain ⟨hdl, hval⟩ := w.dir_length
  have hV := w.V_length
  have hN := w.file_length
  have hal := (w.reach.facts_last).1.aligned
  obtain ⟨t1, t2, t3, t4⟩ := vmdkBytes_tail
    (writerHeader ((if cap = 0 then rt else cap) / SECTORSZ % U64)
      ((a.last.V.length / SECTORSZ + 1) % U32))
    (descblk (if cap = 0 then rt else cap)) S (dirSeg a.last.tbls r) (length_descblk _)
  rw [← w.data, ← hV] at t1 t2 t3 t4
  rw [hdl] at t2 t3 t4
  have hdesc : slice f.data 512 512 = descblk (if cap = 0 then rt else cap) := w.desc
  have htake : f.data.take 512 = encodeHeader
      (writerHeader ((if cap = 0 then rt else cap) / SECTORSZ % U64)
        ((a.last.V.length / SECTORSZ + 1) % U32)) := by
    rw [w.data]
    exact vmdkBytes_take_header _ _ _ _
  have hheader := w.header
  have hinfo := w.info
  generalize hcv : (if cap = 0 then rt else cap) / SECTORSZ % U64 = capv at *
  generalize hGv : (a.last.V.length / SECTORSZ + 1) % U32 = G at *
  have hGlt : G < U32 := by rw [← hGv]; exact Nat.mod_lt _ (by decide)
  have hcvlt : capv < U64 := by rw [← hcv]; exact Nat.mod_lt _ (by decide)
  generalize hq : a.last.V.length = q at *
  generalize hv : dirSects a.last.tbls.length = v at *
  have hP : (f.data.length - 1536) / 512 * 512 = q + (512 + 512 * v) := by omega
  have hP1 : ((f.data.length - 1536) / 512 + 1) * 512 = q + (512 + 512 * v) + 512 := by
    rw [Nat.add_mul, hP]
  have hfm := decode_metaMarker 1 MARKER_FOOTER
  -- the file with the sentinel
  have h64 : 56 + (encLE 8 (U64 - 1)).length ≤ f.data.length := by
    rw [length_encLE]; omega
  have hlen' : (withSentinel f.data).length = f.data.length := length_bufwrite _ _ _ h64
  have hsl : ∀ off len, 64 ≤ off → slice (withSentinel f.data) off len = slice f.data off len := by
    intro off len ho
    exact slice_bufwrite_after _ _ _ _ _ (by rw [length_encLE]; omega) h64
  have hhead : slice (withSentinel f.data) 0 512 = encodeHeader (writerHeader capv (U64 - 1)) := by
    have hsplit : f.data = f.data.take 512 ++ f.data.drop 512 := (List.take_append_drop _ _).symm
    unfold withSentinel
    rw [hsplit, bufwrite_append_left _ _ _ _ (by
      rw [htake, length_encodeHeader, length_encLE]; decide), htake, encodeHeader_gdOffset]
    have := slice_zero_length (encodeHeader (writerHeader capv (U64 - 1))) (f.data.drop 512)
    rw [length_encodeHeader] at this
    exact this
  have hi1 := vmdkinfo_writer (withSentinel f.data) 0 capv (U64 - 1) _ hhead
    (by rw [hsl 512 512 (by decide)]; exact hdesc)
  have hi2 := vmdkinfo_writer (withSentinel f.data) (q + (512 + 512 * v) + 512) capv G _
    (by rw [hsl _ 512 (by omega)]; exact t3) (by rw [hsl 512 512 (by decide)]; exact hdesc)
  have hcm : capv % U64 = capv := Nat.mod_eq_of_lt hcvlt
  have hGm : G % U64 = G := Nat.mod_eq_of_lt (by simp only [U32, U64] at hGlt ⊢; omega)
  rw [hcm, hGm] at hi2
  refine ⟨_, hinfo, ?_, rfl, ?_, ?_, ?_, ⟨_, hi1, ?_⟩, ?_⟩
  · rw [hheader]
  · unfold markerAt
    rw [hP, t2]
    exact hfm.2.1
  · unfold markerAt
    rw [hP, t2, hfm.2.2]
    rfl
  · rw [hP1, t3, htake]
  · show ((U64 - 1) % U64 + 1) % U64 = 0
    decide
  · apply findFooter_found _ _ (slice (withSentinel f.data) (q + (512 + 512 * v)) 512) 512
      ⟨withSentinel f.data, q + (512 + 512 * v) + 512⟩
    · have hs : ((withSentinel f.data).length + U64 - 512 - SECTORSZ * 2) % U64 / SECTORSZ
          * SECTORSZ = q + (512 + 512 * v) := by
        rw [hlen']
        simp only [SECTORSZ, U64, OFFMAX] at hF ⊢
        omega
      rw [hs, lseekSet_lt _ _ (by omega)]
      exact aread_full _ _ (by show q + (512 + 512 * v) + 512 ≤ _; rw [hlen']; omega)
    · rw [hsl _ 512 (by omega), t2]
      exact hfm.2.1
    · rw [hsl _ 512 (by omega), t2, hfm.2.2]
      rfl
    · exact hi2

/-- The marker of the grain directory in a file written by `allraw2grains`. -/
theorem Written.gd_marker {c : Codec} {z : Nat} {raw : List Nat} {cap : Nat} {f : File}
    {a : AState} {S : List Nat} {r rt : Nat} (w : Written c z raw cap f a S r rt) :
    slice f.data a.last.V.length 512 = metaMarker (dirSects a.last.tbls.length) MARKER_GD := by
  obtain ⟨hdl, hval⟩ := w.dir_length
  have t1 := (vmdkBytes_tail
    (writerHeader ((if cap = 0 then rt else cap) / SECTORSZ % U64)
      ((a.last.V.length / SECTORSZ + 1) % U32))
    (descblk (if cap = 0 then rt else cap)) S (dirSeg a.last.tbls r) (length_descblk _)).1
  rw [← w.data, ← w.V_length] at t1
  have h1 := slice_sub f.data a.last.V.length (dirSeg a.last.tbls r).length 0 512 (by omega)
  rw [Nat.add_zero] at h1
  rw [h1, t1, dirSeg_marker, hval]

/-- The last sectors of a file written by `allraw2grains`, whatever its size: the
sector the footer search reads holds the footer marker, the sector after it the bytes
of the header at offset 0, whose `gdOffset` is the low 32 bits of the sector after
the marker of the grain directory. -/
theorem Written.footer_sectors {c : Codec} {z : Nat} {raw : List Nat} {cap : Nat} {f : File}
    {a : AState} {S : List Nat} {r rt : Nat} (w : Written c z raw cap f a S r rt) :
    (markerAt f.data ((f.data.length - 1536) / 512)).size = 0 ∧
    (markerAt f.data ((f.data.length - 1536) / 512)).type = MARKER_FOOTER ∧
    slice f.data (((f.data.length - 1536) / 512 + 1) * 512) 512 = f.data.take 512 ∧
    (decodeHeader (f.data.take 512)).gdOffset = (a.last.V.length / 512 + 1) % U32 := by
  obtain ⟨hdl, _⟩ := w.dir_length
  have hV := w.V_length
  have hN := w.file_length
  have hal := (w.reach.facts_last).1.aligned
  obtain ⟨_, t2, t3, _⟩ := vmdkBytes_tail
    (writerHeader ((if cap = 0 then rt else cap) / SECTORSZ % U64)
      ((a.last.V.length / SECTORSZ + 1) % U32))
    (descblk (if cap = 0 then rt else cap)) S (dirSeg a.last.tbls r) (length_descblk _)
  rw [← w.data, ← hV] at t2 t3
  rw [hdl] at t2 t3
  have htake : f.data.take 512 = encodeHeader
      (writerHeader ((if cap = 0 then rt else cap) / SECTORSZ % U64)
        ((a.last.V.length / SECTORSZ + 1) % U32)) := by
    rw [w.data]
    exact vmdkBytes_take_header _ _ _ _
  have hP : (f.data.length - 1536) / 512 * 512
      = a.last.V.length + (512 + 512 * dirSects a.last.tbls.length) := by omega
  have hP1 : ((f.data.length - 1536) / 512 + 1) * 512
      = a.last.V.length + (512 + 512 * dirSects a.last.tbls.length) + 512 := by
    rw [Nat.add_mul, hP]
  have hfm := decode_metaMarker 1 MARKER_FOOTER
  refine ⟨?_, ?_, ?_, ?_⟩
  · unfold markerAt
    rw [hP, t2]
    exact hfm.2.1
  · unfold markerAt
    rw [hP, t2, hfm.2.2]
    rfl
  · rw [hP1, t3, htake]
  · rw [w.header]
    rfl

/-- C6 (amended): in every VMDK that `allraw2grains` produces the sector
`(size - 512 - 2 * 512) / 512` that the footer search of `main` reads holds a footer
marker (`size = 0`, `type = 3`), the sector after it holds the same 512 bytes as the
header at offset 0, and its `gdOffset` is not the all-ones sentinel but the low 32
bits of the sector after the marker of the grain directory, the marker whose
directory sectors end at the footer; in a VMDK smaller than 2 TiB it is that sector
itself. Hence, the VMDK being a file (shorter than two to the 63 bytes), with the
`gdOffset` at offset 0 overwritten by the sentinel `vmdkinfo` returns a header that
makes `main` search the footer, the search succeeds, and the header it returns has
the `gdOffset` of the file as written. -/
theorem allraw2grains_footer (c : Codec) (raw : List Nat) (p cap z : Nat) (ofd : File)
    (hc : c.Lossless) (hofd : ofd.data = []) (hL : raw.length < 2 ^ 63) :
    ∃ f, allraw2grains c ⟨raw, p⟩ cap ofd z = some f ∧
      (markerAt f.data ((f.data.length - 1536) / 512)).size = 0 ∧
      (markerAt f.data ((f.data.length - 1536) / 512)).type = 3 ∧
      slice f.data (((f.data.length - 1536) / 512 + 1) * 512) 512 = f.data.take 512 ∧
      (decodeHeader (slice f.data (((f.data.length - 1536) / 512 + 1) * 512) 512)).gdOffset
        ≠ U64 - 1 ∧
      (∃ g : Nat, (markerAt f.data g).size = 0 ∧ (markerAt f.data g).type = MARKER_GD ∧
        g + 1 + (markerAt f.data g).val = (f.data.length - 1536) / 512 ∧
        (decodeHeader (f.data.take 512)).gdOffset = (g + 1) % U32 ∧
        (f.data.length < 2 ^ 41 → (decodeHeader (f.data.take 512)).gdOffset = g + 1)) ∧
      (f.data.length < 2 ^ 63 →
        (∃ h', vmdkinfo ⟨withSentinel f.data, 0⟩ = Info.ok h' ⟨withSentinel f.data, 1024⟩ ∧
          (h'.gdOffset + 1) % U64 = 0) ∧
        ∃ (h : SparseExtentHeader) (fd : File),
          findFooter ⟨withSentinel f.data, 1024⟩ (withSentinel f.data).length
            = Sum.inr (h, fd) ∧
          h.gdOffset = (decodeHeader (f.data.take 512)).gdOffset) := by
  have hL' : raw.length < 9223372036854775808 := by
    have : (2 : Nat) ^ 63 = 9223372036854775808 := by norm_num
    omega
  obtain ⟨f, a, S, r, rt, hf, w⟩ := allraw2grains_written c z hc raw p cap ofd hofd
    (by simp only [U64]; omega)
  obtain ⟨hsz, hty, hsame, hgd⟩ := w.footer_sectors
  obtain ⟨_, htl, _⟩ := w.reach.facts_last
  have hN := w.file_length
  have hal := (w.reach.facts_last).1.aligned
  have hgdm := decode_metaMarker (dirSects a.last.tbls.length) MARKER_GD
  have hmk : markerAt f.data (a.last.V.length / 512)
      = decodeMarker (metaMarker (dirSects a.last.tbls.length) MARKER_GD) := by
    rw [markerAt_aligned _ _ hal, w.gd_marker]
  have hds : dirSects a.last.tbls.length < U64 := by
    have h1 := w.imglen
    have h2 := w.tight
    have h3 := w.rtle
    unfold dirSects
    rw [htl]
    simp only [U64]
    omega
  have hval : (markerAt f.data (a.last.V.length / 512)).val = dirSects a.last.tbls.length := by
    rw [hmk, hgdm.1]
    exact Nat.mod_eq_of_lt hds
  refine ⟨f, hf, hsz, by rw [hty], hsame, ?_, ⟨a.last.V.length / 512, by rw [hmk, hgdm.2.1],
    by rw [hmk, hgdm.2.2]; rfl, ?_, hgd, ?_⟩, ?_⟩
  · rw [hsame, hgd]
    have : (a.last.V.length / 512 + 1) % U32 < U32 := Nat.mod_lt _ (by decide)
    simp only [U32, U64] at this ⊢
    omega
  · rw [hval, hN]
    omega
  · intro h41
    have h41' : f.data.length < 2199023255552 := by
      have : (2 : Nat) ^ 41 = 2199023255552 := by norm_num
      omega
    rw [hgd]
    apply Nat.mod_eq_of_lt
    simp only [U32]
    omega
  · intro hF
    have hF' : f.data.length < 9223372036854775808 := by
      have : (2 : Nat) ^ 63 = 9223372036854775808 := by norm_num
      omega
    obtain ⟨h, _, hgd1, _, _, _, _, hsent, hfind⟩ := w.footer (by simp only [OFFMAX]; omega)
    exact ⟨hsent, h, _, hfind, hgd1⟩

/-- C6 witness: a 1 MiB image of 0xAA bytes written at strength 6 with the storing
codec; its file is smaller than 2 TiB, and the recovered `gdOffset` is the sector
after the marker of the grain directory. -/
theorem allraw2grains_footer_witness :
    storedCodec.Lossless ∧ (List.replicate 1048576 170).length < 2 ^ 63 ∧
    ∃ f, allraw2grains storedCodec ⟨List.replicate 1048576 170, 0⟩ 0 File.empty 6 = some f ∧
      f.data.length < 2 ^ 41 ∧
      (markerAt f.data ((f.data.length - 1536) / 512)).type = 3 ∧
      ∃ h fd, findFooter ⟨withSentinel f.data, 1024⟩ (withSentinel f.data).length
          = Sum.inr (h, fd) ∧
        h.gdOffset = (decodeHeader (f.data.take 512)).gdOffset ∧
        1 ≤ h.gdOffset ∧
        (markerAt f.data (h.gdOffset - 1)).type = MARKER_GD := by
  have hlen : (List.replicate 1048576 170).length = 1048576 := List.length_replicate _ _
  refine ⟨storedCodec_lossless, by rw [hlen]; norm_num, ?_⟩
  obtain ⟨f, hf, hmain⟩ := allraw2grains_footer storedCodec
    (List.replicate 1048576 170) 0 0 6 File.empty storedCodec_lossless rfl
    (by rw [hlen]; norm_num)
  obtain ⟨f', a, S, r, rt, hf', w⟩ := allraw2grains_written storedCodec 6 storedCodec_lossless
    (List.replicate 1048576 170) 0 0 File.empty rfl (by rw [hlen]; decide)
  have hff : f' = f := Option.some.inj (hf'.symm.trans hf)
  subst hff
  have hn := w.grains
  rw [hlen] at hn
  have hn2 : a.n = 16 := by rw [hn]
  have hle := w.length_le 66048 (storedCodec_seg_le 6)
  have hF : f'.data.length < 2 ^ 41 := by
    have : (2 : Nat) ^ 41 = 2199023255552 := by norm_num
    unfold dirSects at hle
    rw [hn2] at hle
    omega
  have hF63 : f'.data.length < 2 ^ 63 := by
    have : (2 : Nat) ^ 41 = 2199023255552 := by norm_num
    have : (2 : Nat) ^ 63 = 9223372036854775808 := by norm_num
    omega
  obtain ⟨_, h2, _, _, ⟨g, _, h9, _, _, h12⟩, hrec⟩ := hmain
  obtain ⟨_, h, fd, h6, h7⟩ := hrec hF63
  have hg := h12 hF
  refine ⟨f', hf, hF, h2, h, fd, h6, h7, by omega, ?_⟩
  rw [h7, hg, Nat.add_sub_cancel]
  exact h9

/-! ## What `grain2raw` can do to the output, whatever the input file holds -/

theorem grain2raw_nodir (c : Codec) (h : SparseExtentHeader) (n : Nat) (s : RState)
    (f1 : File) (hgt : h.numGTEsPerGT ≠ 0)
    (h1 : readentry s.ifd h.gdOffset (n / h.numGTEsPerGT) = (0, f1)) :
    grain2raw c h n s = some { s with ifd := f1 } := by
  unfold grain2raw
  rw [if_neg hgt, h1]
  show (if (0 : Nat) = 0 then _ else _) = _
  rw [if_pos rfl]

theorem grain2raw_nosize (c : Codec) (h : SparseExtentHeader) (n : Nat) (s : RState)
    (t b k : Nat) (f1 f2 f4 : File) (mb : List Nat) (hgt : h.numGTEsPerGT ≠ 0)
    (h1 : readentry s.ifd h.gdOffset (n / h.numGTEsPerGT) = (t, f1)) (ht : t ≠ 0)
    (h2 : readentry f1 t (n % h.numGTEsPerGT) = (b, f2)) (hb : ¬ b ≤ 1)
    (h4 : aread (lseekSet f2 (b * SECTORSZ % U64)) 512 = (mb, k, f4))
    (hsize : (decodeMarker mb).size = 0) :
    grain2raw c h n s = none := by
  unfold grain2raw
  rw [if_neg hgt, h1]
  show (if t = 0 then _ else _) = _
  rw [if_neg ht, fst_mk_file, snd_mk_file, h2]
  show (if b ≤ 1 then _ else _) = _
  rw [if_neg hb, fst_mk_file, snd_mk_file]
  show (if (decodeMarker (aread (lseekSet f2 (b * SECTORSZ % U64)) 512).1).size = 0
    then _ else _) = _
  rw [h4, fst_mk_triple, if_pos hsize]

/-- Whenever `grain2raw` returns, it has left the output alone or has written one
buffer at the offset of the grain. -/
theorem grain2raw_ofd (c : Codec) (h : SparseExtentHeader) (n : Nat) (s s' : RState)
    (hr : grain2raw c h n s = some s') :
    s'.ofd = s.ofd ∨ ∃ g, s'.ofd = awrite (lseekSet s.ofd (n * h.grainSize * SECTORSZ)) g := by
  by_cases hgt : h.numGTEsPerGT = 0
  · unfold grain2raw at hr
    rw [if_pos hgt] at hr
    exact absurd hr (by simp)
  rcases h1 : readentry s.ifd h.gdOffset (n / h.numGTEsPerGT) with ⟨t, f1⟩
  by_cases ht : t = 0
  · subst ht
    rw [grain2raw_nodir c h n s f1 hgt h1] at hr
    exact Or.inl (by rw [← Option.some.inj hr])
  rcases h2 : readentry f1 t (n % h.numGTEsPerGT) with ⟨b, f2⟩
  by_cases hb : b ≤ 1
  · rw [grain2raw_absent c h n s t b f1 f2 hgt h1 ht h2 hb] at hr
    exact Or.inl (by rw [← Option.some.inj hr])
  rcases h4 : aread (lseekSet f2 (b * SECTORSZ % U64)) 512 with ⟨mb, k, f4⟩
  by_cases hsize : (decodeMarker mb).size = 0
  · rw [grain2raw_nosize c h n s t b k f1 f2 f4 mb hgt h1 ht h2 hb h4 hsize] at hr
    exact absurd hr (by simp)
  by_cases hval : (decodeMarker mb).val = n * h.grainSize % U64
  · by_cases halloc : OFFMAX ≤ h.grainSize * SECTORSZ % U64
    · exfalso
      unfold grain2raw at hr
      rw [if_neg hgt, h1] at hr
      change (if t = 0 then _ else _) = _ at hr
      rw [if_neg ht, fst_mk_file, snd_mk_file, h2] at hr
      change (if b ≤ 1 then _ else _) = _ at hr
      rw [if_neg hb, fst_mk_file, snd_mk_file] at hr
      change (if (decodeMarker (aread (lseekSet f2 (b * SECTORSZ % U64)) 512).1).size = 0
        then _ else _) = _ at hr
      rw [h4, fst_mk_triple, snd_mk_triple, if_neg hsize, if_neg (not_not.mpr hval),
        if_pos halloc] at hr
      exact absurd hr (by simp)
    rcases hm : marker2grain c f4 h (decodeMarker mb) (zeros (h.grainSize * SECTORSZ % U64))
        s.dbuf with _ | ⟨g, f5, buf'⟩
    · exfalso
      unfold grain2raw at hr
      rw [if_neg hgt, h1] at hr
      change (if t = 0 then _ else _) = _ at hr
      rw [if_neg ht, fst_mk_file, snd_mk_file, h2] at hr
      change (if b ≤ 1 then _ else _) = _ at hr
      rw [if_neg hb, fst_mk_file, snd_mk_file] at hr
      change (if (decodeMarker (aread (lseekSet f2 (b * SECTORSZ % U64)) 512).1).size = 0
        then _ else _) = _ at hr
      rw [h4, fst_mk_triple, snd_mk_triple, if_neg hsize, if_neg (not_not.mpr hval),
        if_neg halloc, hm] at hr
      exact absurd hr (by simp)
    · rw [grain2raw_present c h n s t b k f1 f2 f4 f5 mb g buf' hgt h1 ht h2 hb h4 hsize hval
        halloc hm] at hr
      exact Or.inr ⟨g, by rw [← Option.some.inj hr]⟩
  · exfalso
    unfold grain2raw at hr
    rw [if_neg hgt, h1] at hr
    change (if t = 0 then _ else _) = _ at hr
    rw [if_neg ht, fst_mk_file, snd_mk_file, h2] at hr
    change (if b ≤ 1 then _ else _) = _ at hr
    rw [if_neg hb, fst_mk_file, snd_mk_file] at hr
    change (if (decodeMarker (aread (lseekSet f2 (b * SECTORSZ % U64)) 512).1).size = 0
      then _ else _) = _ at hr
    rw [h4, fst_mk_triple, snd_mk_triple, if_neg hsize, if_pos hval] at hr
    exact absurd hr (by simp)

theorem pwrite_head (d g : List Nat) (pos : Nat) (hpos : 1 ≤ pos) (h0 : d.getD 0 0 = 0) :
    (pwrite d pos g).getD 0 0 = 0 := by
  obtain ⟨k, rfl⟩ : ∃ k, pos = k + 1 := ⟨pos - 1, by omega⟩
  unfold pwrite
  cases d with
  | nil =>
    rw [List.nil_append, List.length_nil, Nat.sub_zero, zeros, List.replicate_succ,
      List.take_succ_cons]
    rfl
  | cons x d' =>
    rw [List.cons_append, List.take_succ_cons]
    exact h0

/-- After the first grain the loop of `allgrains2raw` never writes the first byte of
the output. -/
theorem grainLoop_head (c : Codec) (h : SparseExtentHeader) (hgs : h.grainSize = 128)
    (count : Nat) :
    ∀ (n : Nat) (s s' : RState), 1 ≤ n → (n + count) * 65536 < OFFMAX →
      s.ofd.data.getD 0 0 = 0 → grainLoop c h count n s = some s' →
      s'.ofd.data.getD 0 0 = 0 := by
  induction count with
  | zero =>
    intro n s s' _ _ h0 hr
    rw [grainLoop] at hr
    rw [← Option.some.inj hr]
    exact h0
  | succ count ih =>
    intro n s s' hn hb h0 hr
    rw [grainLoop] at hr
    rcases hg : grain2raw c h n s with _ | s1
    · rw [hg] at hr
      exact absurd hr (by simp)
    · rw [hg] at hr
      refine ih (n + 1) s1 s' (by omega) (by omega) ?_ hr
      rcases grain2raw_ofd c h n s s1 hg with he | ⟨g, he⟩
      · rw [he]
        exact h0
      · rw [he, hgs, lseekSet_lt _ _ (by simp only [SECTORSZ, OFFMAX] at hb ⊢; omega)]
        by_cases hge : g = []
        · rw [hge]
          exact h0
        · rw [awrite_data _ _ hge]
          exact pwrite_head _ _ _ (by simp only [SECTORSZ]; omega) h0

/-! ## The layout of an image that has no zero grain -/

/-- The length of the output when every grain of the input is written and takes `K`
bytes. -/
theorem Reach.V_exact {c : Codec} {z : Nat} {raw : List Nat} {a : AState}
    (h : Reach c z raw a) (K : Nat)
    (hK : ∀ g, IsGrainOf raw g → scanNonzero g GRAINBYTES ≠ 0 ∧
      (12 + (c.deflate g z).length + 511) / 512 * 512 = K) :
    a.V.length = 65536 + a.n * K + a.tbls.length * 2560 := by
  induction h with
  | init =>
    rw [AState.init_V, length_zeros]
    show 65536 = 65536 + 0 * K + 0 * 2560
    omega
  | pass a g hr hg ih =>
    obtain ⟨hnz, hKg⟩ := hK g hg
    have hadd : (a.add c z g).V.length = a.V.length + K ∧ (a.add c z g).n = a.n + 1 ∧
        (a.add c z g).tbls = a.tbls ∧ (a.add c z g).cur.length = a.cur.length + 1 := by
      unfold AState.add
      rw [if_neg hnz]
      refine ⟨?_, rfl, rfl, by simp⟩
      show (a.V ++ grainSeg _ _).length = _
      rw [List.length_append, length_grainSeg, hKg]
    unfold AState.pass
    split
    · rename_i h512
      simp only [AState.flush, List.length_append, List.length_singleton]
      rw [length_tableSeg _ (by omega), hadd.1, hadd.2.1, hadd.2.2.1, Nat.add_mul]
      omega
    · rw [hadd.1, hadd.2.1, hadd.2.2.1, Nat.add_mul]
      omega

/-- A grain read from an image of one repeated non-zero byte is not a zero grain. -/
theorem IsGrainOf.replicate_nonzero (N b : Nat) (hb : b ≠ 0) (g : List Nat)
    (h : IsGrainOf (List.replicate N b) g) : scanNonzero g GRAINBYTES ≠ 0 := by
  obtain ⟨pos, hpos, hg⟩ := h
  rw [List.length_replicate] at hpos
  intro hz
  rw [scanNonzero_eq_zero] at hz
  have h0 := hz 0 (by decide)
  obtain ⟨m, hm⟩ : ∃ m, min 65536 (N - pos) = m + 1 := ⟨min 65536 (N - pos) - 1, by omega⟩
  have hs : slice (List.replicate N b) pos GRAINBYTES = b :: List.replicate m b := by
    unfold slice
    rw [List.drop_replicate, List.take_replicate]
    show List.replicate (min 65536 (N - pos)) b = _
    rw [hm, List.replicate_succ]
  rw [hg, hs] at h0
  exact hb h0

theorem bigImage_length : bigImage.length = 2181811339264 := List.length_replicate _ _

theorem bigImage_head : bigImage.getD 0 0 = 1 := by
  unfold bigImage
  rw [List.getD_eq_getElem?_getD, List.getElem?_replicate, if_pos (by decide)]
  rfl

theorem bigImage_grain (z : Nat) (g : List Nat) (hg : IsGrainOf bigImage g) :
    scanNonzero g GRAINBYTES ≠ 0 ∧
      (12 + (storedCodec.deflate g z).length + 511) / 512 * 512 = 66048 := by
  refine ⟨IsGrainOf.replicate_nonzero _ 1 (by decide) g hg, ?_⟩
  show (12 + (1 :: g).length + 511) / 512 * 512 = 66048
  rw [List.length_cons, hg.grain_length]
  decide

/-- The layout of the VMDK of the big image: 33291799 grains of 129 sectors and
65024 grain tables, the last one flushed after the loop at byte 2199023264768. -/
theorem Written.big {z : Nat} {f : File} {a : AState} {S : List Nat} {r rt : Nat}
    (w : Written storedCodec z bigImage 0 f a S r rt) :
    a.V.length = 2199023264768 ∧ a.last.V = a.V ++ tableSeg a.cur ∧
    a.last.tbls = a.tbls ++ [19] ∧ a.tbls.length = 65023 ∧ a.cur.length = 23 ∧
    a.last.V.length = 2199023267328 ∧ f.data.length = 2199023529472 := by
  have hn := w.grains
  rw [bigImage_length] at hn
  have hn' : a.n = 33291799 := by rw [hn]
  obtain ⟨_, hcount, _⟩ := w.reach.facts
  have hlt := w.reach.cur_lt
  have hV := w.reach.V_exact 66048 (bigImage_grain z)
  have ht : a.tbls.length = 65023 := by omega
  have hc : a.cur.length = 23 := by omega
  rw [hn', ht] at hV
  have hVn : a.V.length = 2199023264768 := by rw [hV]
  have hlast : a.last = a.flush := by
    unfold AState.last
    rw [if_pos (by rw [hc]; decide)]
  have hN := w.file_length
  have hlt2 : (a.last).tbls.length = 65024 := by
    rw [hlast]
    show (a.tbls ++ [_]).length = _
    rw [List.length_append, ht]
    rfl
  have hLV : a.last.V.length = 2199023267328 := by
    rw [hlast]
    show (a.V ++ tableSeg a.cur).length = _
    rw [List.length_append, length_tableSeg _ (by omega), hVn]
  refine ⟨hVn, by rw [hlast]; rfl, ?_, ht, hc, hLV, ?_⟩
  · rw [hlast]
    show a.tbls ++ [(a.V.length / 512 + 1) % U32] = _
    rw [hVn]
    rfl
  · rw [hN, hLV, hlt2]
    rfl

theorem getD_zeros (n i : Nat) : (zeros n).getD i 0 = 0 := by
  unfold zeros
  rw [List.getD_eq_getElem?_getD, List.getElem?_replicate]
  split <;> rfl

theorem take_head (d : List Nat) (k m : Nat) (h0 : d.getD 0 0 = 0) :
    ((d ++ zeros k).take m).getD 0 0 = 0 := by
  cases d with
  | nil =>
    rw [List.nil_append, take_zeros]
    exact getD_zeros _ _
  | cons x d' =>
    cases m with
    | zero => rfl
    | succ m =>
      rw [List.cons_append, List.take_succ_cons]
      exact h0

theorem decodeMarker_zeros :
    (decodeMarker (zeros 512)).size = 0 ∧ (decodeMarker (zeros 512)).type = 0 ∧
      (decodeMarker (zeros 512)).val = 0 := by
  unfold decodeMarker Marker.type
  refine ⟨?_, ?_, ?_⟩
  · show field (zeros 512) 8 4 = 0
    unfold field
    rw [slice_zeros _ _ _ (by decide), decLE_zeros]
  · show field (slice (zeros 512) 12 500) 0 4 = 0
    unfold field
    rw [slice_zeros _ _ _ (by decide), slice_zeros _ _ _ (by decide), decLE_zeros]
  · show field (zeros 512) 0 8 = 0
    unfold field
    rw [slice_zeros _ _ _ (by decide), decLE_zeros]

/-- The random-access extraction, when the loop of `allgrains2raw` leaves the first
byte of the output zero or unwritten, does not output an image whose first byte is
not zero. -/
theorem mainRandom_head (c : Codec) (D : List Nat) (h : SparseExtentHeader)
    (hsz : ¬ (D.length < 512 + SECTORSZ)) (hinfo : vmdkinfo ⟨D, 0⟩ = Info.ok h ⟨D, 1024⟩)
    (hsent : ¬ ((h.gdOffset + 1) % U64 = 0))
    (hall : ∀ ifd ofd, allgrains2raw c ⟨D, 1024⟩ h File.empty = some (ifd, ofd) →
      ofd.data.getD 0 0 = 0)
    (hcap : h.capacity * SECTORSZ < OFFMAX) (X : List Nat)
    (hX : mainRandom c D = Outcome.output X) : X.getD 0 0 = 0 := by
  unfold mainRandom at hX
  rw [if_neg hsz, hinfo] at hX
  dsimp only at hX
  rw [if_neg hsent] at hX
  dsimp only at hX
  rcases hr : allgrains2raw c ⟨D, 1024⟩ h File.empty with _ | ⟨ifd, ofd⟩
  · rw [hr] at hX
    exact absurd hX (by simp)
  · rw [hr] at hX
    dsimp only at hX
    obtain ⟨fd', hs, hd, _⟩ := setsize_eq ofd h.capacity hcap
    rw [hs] at hX
    dsimp only at hX
    have hXd : fd'.data = X := by
      injection hX
    rw [← hXd, hd]
    exact take_head _ _ _ (hall ifd ofd hr)

/-- C2 counterexample: the image of 33291799 grains of bytes 1 is 2181811339264 bytes
long, a multiple of 512; its VMDK under the storing codec is larger than 2 TiB, the
`gdOffset` in its header is the low 32 bits 24 of the sector 4294967320, and the
random-access extraction, which reads the directory entry of the first grain in the
zero sector 24, does not output the image. -/
theorem allraw2grains_random_counterexample :
    storedCodec.Lossless ∧ 0 < bigImage.length ∧ bigImage.length % 512 = 0 ∧
    ∃ f, allraw2grains storedCodec ⟨bigImage, 0⟩ 0 File.empty 6 = some f ∧
      mainRandom storedCodec f.data ≠ Outcome.output bigImage := by
  refine ⟨storedCodec_lossless, by rw [bigImage_length]; decide, by rw [bigImage_length], ?_⟩
  obtain ⟨f, a, S, r, rt, hf, w⟩ := allraw2grains_written storedCodec 6 storedCodec_lossless
    bigImage 0 0 File.empty rfl (by rw [bigImage_length]; decide)
  refine ⟨f, hf, ?_⟩
  obtain ⟨hV, hlastV, hlt, ht, hc, hLV, hN⟩ := w.big
  have hrt : rt = bigImage.length := w.all rfl
  have hinfo := w.info
  have hcapS : (if (0 : Nat) = 0 then rt else 0) / SECTORSZ % U64 = 4261350272 := by
    rw [if_pos rfl, hrt, bigImage_length]
    decide
  have hG : (a.last.V.length / SECTORSZ + 1) % U32 = 24 := by
    rw [hLV]
    decide
  rw [hcapS, hG] at hinfo
  generalize hh : ({ writerHeader 4261350272 24 with streamoptimized := 1 } :
    SparseExtentHeader) = h at hinfo
  have hHOK : HOK h := by subst hh; exact writerHeader_HOK _ _ _
  have hcap : h.capacity = 4261350272 := by subst hh; rfl
  have hgd : h.gdOffset = 24 := by subst hh; rfl
  have hoff : f.data.length < OFFMAX := by rw [hN]; decide
  intro hX
  have h0 := mainRandom_head storedCodec f.data h (by rw [hN]; decide) hinfo
    (by rw [hgd]; decide) ?_ (by rw [hcap]; decide) bigImage hX
  · rw [bigImage_head] at h0
    exact absurd h0 (by decide)
  · intro ifd ofd hr
    have hfield : field f.data (24 * 512 + 4 * 0) 4 = 0 := by
      unfold field
      rw [w.data, vmdkBytes_overhead _ _ _ _ (length_descblk _) _ _ (by decide) (by decide),
        decLE_zeros]
    have hr1 : readentry (⟨f.data, 1024⟩ : File) h.gdOffset (0 / h.numGTEsPerGT)
        = (0, ⟨f.data, (24 + 0 / 128) * 512 + 512⟩) := by
      rw [hgd, Nat.zero_div, readentry_eq f.data 1024 24 0 (by rw [hN]) (by rw [hN]; decide)
        hoff, hfield]
    have hgt0 : h.numGTEsPerGT ≠ 0 := by rw [hHOK.2.2.2]; decide
    have hg0 := grain2raw_nodir storedCodec h 0
      { ifd := ⟨f.data, 1024⟩, ofd := File.empty, dbuf := [] } _ hgt0 hr1
    have hgr : (h.capacity / 128 + (if h.capacity % 128 ≠ 0 then 1 else 0)) % U64
        = 33291798 + 1 := by
      rw [hcap]
      decide
    unfold allgrains2raw at hr
    rw [if_neg (by rw [hHOK.2.2.1]; decide), hHOK.2.2.1] at hr
    change Option.map _ (grainLoop storedCodec h
      ((h.capacity / 128 + (if h.capacity % 128 ≠ 0 then 1 else 0)) % U64) 0 _) = _ at hr
    rw [hgr, grainLoop, hg0] at hr
    change Option.map _ (grainLoop storedCodec h 33291798 (0 + 1) _) = _ at hr
    rcases hl : grainLoop storedCodec h 33291798 (0 + 1)
        { ifd := ⟨f.data, (24 + 0 / 128) * 512 + 512⟩, ofd := File.empty, dbuf := [] }
      with _ | s'
    · rw [hl] at hr
      exact absurd hr (by simp)
    · rw [hl] at hr
      have hofd : s'.ofd = ofd := by
        have := Option.some.inj hr
        exact (Prod.mk.inj this).2
      rw [← hofd]
      exact grainLoop_head storedCodec h hHOK.2.2.1 33291798 (0 + 1)
        { ifd := ⟨f.data, (24 + 0 / 128) * 512 + 512⟩, ofd := File.empty, dbuf := [] } s'
        (by decide) (by decide) rfl hl

/-- C6 counterexample: in the VMDK of the image of 33291799 grains of bytes 1 under
the storing codec the grain directory has its marker in sector 4294967319; with the
sentinel at offset 0 the footer search succeeds and returns the `gdOffset` of the
header, which is 24, and sector 23 holds no grain-directory marker. -/
theorem allraw2grains_footer_counterexample :
    storedCodec.Lossless ∧ bigImage.length < 2 ^ 63 ∧
    ∃ f, allraw2grains storedCodec ⟨bigImage, 0⟩ 0 File.empty 6 = some f ∧
      ∃ h fd, findFooter ⟨withSentinel f.data, 1024⟩ (withSentinel f.data).length
          = Sum.inr (h, fd) ∧
        h.gdOffset = (decodeHeader (f.data.take 512)).gdOffset ∧ h.gdOffset = 24 ∧
        (markerAt f.data (h.gdOffset - 1)).type ≠ MARKER_GD ∧
        (markerAt f.data 4294967319).type = MARKER_GD := by
  refine ⟨storedCodec_lossless, by rw [bigImage_length]; norm_num, ?_⟩
  obtain ⟨f, a, S, r, rt, hf, w⟩ := allraw2grains_written storedCodec 6 storedCodec_lossless
    bigImage 0 0 File.empty rfl (by rw [bigImage_length]; decide)
  refine ⟨f, hf, ?_⟩
  obtain ⟨hV, hlastV, hlt, ht, hc, hLV, hN⟩ := w.big
  obtain ⟨h, _, hgd1, hgd2, _, _, _, _, hfind⟩ := w.footer (by rw [hN]; decide)
  have hgd : h.gdOffset = 24 := by
    rw [hgd2, hLV]
    decide
  refine ⟨h, _, hfind, hgd1, hgd, ?_, ?_⟩
  · rw [hgd]
    unfold markerAt
    rw [w.data, vmdkBytes_overhead _ _ _ _ (length_descblk _) _ _ (by decide) (by decide),
      decodeMarker_zeros.2.1]
    decide
  · have hm := w.gd_marker
    rw [hLV] at hm
    unfold markerAt
    rw [show 4294967319 * 512 = 2199023267328 by decide, hm,
      (decode_metaMarker _ MARKER_GD).2.2]
    rfl

/-! ## The output for an empty input -/

theorem Reach.n_zero {c : Codec} {z : Nat} {raw : List Nat} {a : AState}
    (h : Reach c z raw a) (hn : a.n = 0) : a = AState.init := by
  cases h with
  | init => rfl
  | pass a' g _ _ =>
    have := (AState.pass_n c z a' g).1
    omega

theorem AState.last_init : AState.init.last = AState.init := rfl

/-- What `allraw2grains` writes for an empty input: the overhead, a directory of one
zero sector, the footer and the end-of-stream marker. -/
theorem Written.empty {c : Codec} {z : Nat} {cap : Nat} {f : File}
    {a : AState} {S : List Nat} {r rt : Nat} (w : Written c z [] cap f a S r rt) :
    a = AState.init ∧ S = [] ∧ r = 512 ∧ rt = 0 ∧ f.data.length = 68096 ∧
    f.data = vmdkBytes (writerHeader (cap / SECTORSZ % U64) 129) (descblk cap) []
      (dirSeg [] 512) := by
  have h1 := w.rtle
  have h2 := w.tight
  have h3 := w.imglen
  have hrt : rt = 0 := by
    rw [List.length_nil] at h1
    omega
  have hn : a.n = 0 := by omega
  have ha := w.reach.n_zero hn
  subst ha
  have hV : AState.init.last.V.length = 65536 := by
    rw [AState.last_init, AState.init_V, length_zeros]
  have hS : S = [] := by
    have := w.V_length
    rw [hV] at this
    exact List.eq_nil_of_length_eq_zero (by omega)
  have hr : r = 512 := by
    have := w.dirlen
    rw [AState.last_init] at this
    have h0 : AState.init.tbls.length = 0 := rfl
    rw [h0] at this
    omega
  have hcap : (if cap = 0 then rt else cap) = cap := by
    rw [hrt]
    split
    · rename_i h0
      exact h0.symm
    · rfl
  have hG : (AState.init.last.V.length / SECTORSZ + 1) % U32 = 129 := by
    rw [hV]
    decide
  have hd := w.data
  rw [hcap, hG, hS, hr] at hd
  have ht : AState.init.last.tbls = [] := rfl
  rw [ht] at hd
  refine ⟨rfl, hS, hr, hrt, ?_, hd⟩
  have hN := w.file_length
  rw [hV, ht] at hN
  rw [hN]
  rfl

theorem aread_eof (f : File) (n : Nat) (h : f.data.length ≤ f.pos) :
    aread f n = (zeros n, 0, f) := by
  have hs : slice f.data f.pos n = [] := by
    unfold slice
    rw [List.drop_of_length_le h, List.take_nil]
  unfold aread readRaw
  simp only [hs, List.length_nil, Nat.sub_zero, List.nil_append, Nat.add_zero]

theorem grainLoop_add (c : Codec) (h : SparseExtentHeader) (k1 k2 : Nat) :
    ∀ (n : Nat) (s : RState), grainLoop c h (k1 + k2) n s =
      match grainLoop c h k1 n s with
      | none => none
      | some s' => grainLoop c h k2 (n + k1) s' := by
  induction k1 with
  | zero =>
    intro n s
    rw [Nat.zero_add, grainLoop]
    rfl
  | succ k1 ih =>
    intro n s
    rw [show k1 + 1 + k2 = (k1 + k2) + 1 by omega, grainLoop, grainLoop]
    rcases grain2raw c h n s with _ | s1
    · rfl
    · show grainLoop c h (k1 + k2) (n + 1) s1 = _
      rw [ih (n + 1) s1, show n + (k1 + 1) = n + 1 + k1 by omega]

set_option maxRecDepth 100000 in
theorem descHead_field : field descHead 0 4 = 1766072355 := by decide

theorem footer_field : field (metaMarker 1 MARKER_FOOTER) 0 4 = 1 := by
  unfold metaMarker
  rw [List.append_assoc, List.append_assoc]
  unfold field
  rw [slice_append_left _ _ _ _ (by rw [length_encLE]; decide)]
  decide

/-- The loop of `allgrains2raw` over grains whose directory entries are zero leaves
the output alone. -/
theorem grainLoop_zero_dir (c : Codec) (h : SparseExtentHeader) (D : List Nat) (lim : Nat)
    (hgt : h.numGTEsPerGT = 512) (hz : ∀ k, k < lim → field D (h.gdOffset * 512 + 4 * k) 4 = 0)
    (hin : h.gdOffset * 512 + 4 * lim ≤ D.length) (hD : D.length % 512 = 0)
    (hoff : D.length < OFFMAX) (count : Nat) :
    ∀ (n : Nat) (s : RState) (q : Nat), n + count ≤ 512 * lim → s.ifd = ⟨D, q⟩ →
      ∃ q', grainLoop c h count n s = some { s with ifd := ⟨D, q'⟩ } := by
  induction count with
  | zero =>
    intro n s q _ hifd
    exact ⟨q, by rw [grainLoop, ← hifd]⟩
  | succ count ih =>
    intro n s q hle hifd
    have hk : n / 512 < lim := by omega
    have hr1 : readentry s.ifd h.gdOffset (n / h.numGTEsPerGT)
        = (0, ⟨D, (h.gdOffset + n / 512 / 128) * 512 + 512⟩) := by
      rw [hifd, hgt, readentry_eq D q _ _ hD (by omega) hoff, hz _ hk]
    have hg := grain2raw_nodir c h n s _ (by rw [hgt]; decide) hr1
    obtain ⟨q', hq'⟩ := ih (n + 1) { s with ifd := ⟨D, (h.gdOffset + n / 512 / 128) * 512 + 512⟩ }
      _ (by omega) rfl
    exact ⟨q', by rw [grainLoop, hg]; exact hq'⟩

/-- C10: for the empty input with the capacity override 8 GiB, `allraw2grains`
returns a file of 133 sectors whose header has the capacity of the override (16777216
sectors) and whose directory, the sector after the marker in sector 128, is zero; the
random-access extraction of that file fails an assertion: for grain 65536 it reads the
directory entry 128 in the sector of the footer marker, follows it to the descriptor
in sector 1, and finds no grain marker at the sector it reads there. -/
theorem allraw2grains_empty_override_abort :
    ∃ f, allraw2grains storedCodec ⟨[], 0⟩ 8589934592 File.empty 6 = some f ∧
      f.data.length = 68096 ∧
      (decodeHeader (f.data.take 512)).capacity = 8589934592 / 512 ∧
      (markerAt f.data 128).type = MARKER_GD ∧ slice f.data (129 * 512) 512 = zeros 512 ∧
      (markerAt f.data 130).type = MARKER_FOOTER ∧
      mainRandom storedCodec f.data = Outcome.aborted := by
  obtain ⟨f, a, S, r, rt, hf, w⟩ := allraw2grains_written storedCodec 6 storedCodec_lossless
    [] 0 8589934592 File.empty rfl (by decide)
  obtain ⟨ha, hS, hr, hrt, hN, hD⟩ := w.empty
  subst ha hS hr hrt
  have hcv : 8589934592 / SECTORSZ % U64 = 16777216 := by decide
  rw [hcv] at hD
  obtain ⟨t1, t2, _, _⟩ := vmdkBytes_tail (writerHeader 16777216 129) (descblk 8589934592) []
    (dirSeg [] 512) (length_descblk _)
  rw [← hD] at t1 t2
  have hdl : (dirSeg [] 512).length = 1024 := by rw [length_dirSeg]; rfl
  rw [hdl] at t1 t2
  have t1 : slice f.data 65536 1024 = dirSeg [] 512 := t1
  have t2 : slice f.data 66560 512 = metaMarker 1 MARKER_FOOTER := t2
  have t1' : slice f.data 65536 (dirSeg [] 512).length = dirSeg [] 512 := by
    rw [hdl]
    exact t1
  have t2' : slice f.data 66560 (metaMarker 1 MARKER_FOOTER).length = metaMarker 1 MARKER_FOOTER := by
    rw [length_metaMarker]
    exact t2
  have hdesc : slice f.data 512 512 = descblk 8589934592 := by
    rw [hD]
    exact vmdkBytes_desc _ _ _ _ (length_descblk _)
  have hdesc' : slice f.data 512 (descblk 8589934592).length = descblk 8589934592 := by
    rw [length_descblk]
    exact hdesc
  have hz : ∀ k, k < 128 → field f.data (129 * 512 + 4 * k) 4 = 0 := by
    intro k hk
    rw [show 129 * 512 + 4 * k = 65536 + (512 + 4 * k) by omega,
      field_within f.data _ 65536 _ 4 t1' (by rw [hdl]; omega),
      dirSeg_field [] 512 k (by rw [List.length_nil]; omega)]
    rfl
  refine ⟨f, hf, hN, ?_, ?_, ?_, ?_, ?_⟩
  · rw [w.header]
    rfl
  · have hm := w.gd_marker
    have hV : AState.init.last.V.length = 65536 := by
      rw [AState.last_init, AState.init_V, length_zeros]
    rw [hV] at hm
    unfold markerAt
    rw [show 128 * 512 = 65536 by decide, hm, (decode_metaMarker _ MARKER_GD).2.2]
    rfl
  · rw [show 129 * 512 = 65536 + 512 by decide, slice_sub f.data 65536 1024 512 512 (by decide),
      t1]
    unfold dirSeg
    rw [show enc32s [] = [] from rfl, List.append_nil,
      slice_append_right _ _ 512 512 0 (by rw [length_metaMarker])]
    exact slice_all _ _ (length_zeros _)
  · unfold markerAt
    rw [show 130 * 512 = 66560 by decide, t2, (decode_metaMarker _ MARKER_FOOTER).2.2]
    rfl
  · have h0 : slice f.data 0 512 = encodeHeader (writerHeader 16777216 129) := by
      rw [hD]
      exact vmdkBytes_take_header _ _ _ _
    have hinfo := vmdkinfo_writer f.data 0 16777216 129 _ h0 hdesc
    rw [show 16777216 % U64 = 16777216 by decide, show 129 % U64 = 129 by decide] at hinfo
    generalize hh : ({ writerHeader 16777216 129 with streamoptimized := 1 } :
      SparseExtentHeader) = h at hinfo
    have hHOK : HOK h := by subst hh; exact writerHeader_HOK _ _ _
    have hcap : h.capacity = 16777216 := by subst hh; rfl
    have hgd : h.gdOffset = 129 := by subst hh; rfl
    have hoff : f.data.length < OFFMAX := by rw [hN]; decide
    -- the first 65536 grains have zero directory entries
    obtain ⟨q1, hq1⟩ := grainLoop_zero_dir storedCodec h f.data 128 hHOK.2.2.2
      (by rw [hgd]; exact hz) (by rw [hgd, hN]; decide) (by rw [hN]) hoff 65536 0
      { ifd := ⟨f.data, 1024⟩, ofd := File.empty, dbuf := [] } 1024 (by decide) rfl
    -- grain 65536
    have hr1 : readentry (⟨f.data, q1⟩ : File) h.gdOffset (65536 / h.numGTEsPerGT)
        = (1, ⟨f.data, (129 + 128 / 128) * 512 + 512⟩) := by
      rw [hgd, hHOK.2.2.2, show 65536 / 512 = 128 by decide,
        readentry_eq f.data q1 129 128 (by rw [hN]) (by rw [hN]; decide) hoff,
        show 129 * 512 + 4 * 128 = 66560 + 0 by decide,
        field_within f.data _ 66560 0 4 t2' (by rw [length_metaMarker]; decide), footer_field]
    have hr2 : readentry (⟨f.data, (129 + 128 / 128) * 512 + 512⟩ : File) 1
        (65536 % h.numGTEsPerGT) = (1766072355, ⟨f.data, (1 + 0 / 128) * 512 + 512⟩) := by
      obtain ⟨X, hX⟩ := descblk_head 8589934592
      rw [hHOK.2.2.2, show 65536 % 512 = 0 by decide,
        readentry_eq f.data _ 1 0 (by rw [hN]) (by rw [hN]; decide) hoff,
        show 1 * 512 + 4 * 0 = 512 + 0 by decide,
        field_within f.data _ 512 0 4 hdesc' (by rw [length_descblk]; decide), hX]
      have hf4 : decLE (slice descHead 0 4) = 1766072355 := descHead_field
      unfold field
      rw [slice_append_left _ _ _ _ (by rw [descHead_facts.1]; decide), hf4]
    have har : aread (lseekSet (⟨f.data, (1 + 0 / 128) * 512 + 512⟩ : File)
        (1766072355 * SECTORSZ % U64)) 512
        = (zeros 512, 0, ⟨f.data, 904229045760⟩) := by
      rw [show 1766072355 * SECTORSZ % U64 = 904229045760 by decide,
        lseekSet_lt _ _ (by decide)]
      exact aread_eof _ _ (by show f.data.length ≤ 904229045760; rw [hN]; decide)
    have hg := grain2raw_nosize storedCodec h 65536
      { ifd := ⟨f.data, q1⟩, ofd := File.empty, dbuf := [] } 1 1766072355 0 _ _ _ _
      (by rw [hHOK.2.2.2]; decide) hr1 (by decide) hr2 (by decide) har decodeMarker_zeros.1
    have hall : allgrains2raw storedCodec ⟨f.data, 1024⟩ h File.empty = none := by
      unfold allgrains2raw
      rw [if_neg (by rw [hHOK.2.2.1]; decide), hHOK.2.2.1]
      show Option.map _ (grainLoop storedCodec h
        ((h.capacity / 128 + (if h.capacity % 128 ≠ 0 then 1 else 0)) % U64) 0 _) = _
      rw [show (h.capacity / 128 + (if h.capacity % 128 ≠ 0 then 1 else 0)) % U64
        = 65536 + (65535 + 1) by rw [hcap]; decide, grainLoop_add, hq1]
      show Option.map _ (grainLoop storedCodec h (65535 + 1) (0 + 65536) _) = _
      rw [grainLoop, hg]
      rfl
    unfold mainRandom
    rw [if_neg (by rw [hN]; decide), hinfo]
    dsimp only
    rw [if_neg (by rw [hgd]; decide)]
    dsimp only
    rw [hall]

/-- One pass of the loop of `vmdkparsestream` in which an assertion fails. -/
theorem parseLoop_abort (c : Codec) (mt md fuel : Nat) (s : PState) (D : List Nat) (p : Nat)
    (hifd : s.ifd = ⟨D, p⟩) (hlen : p + 512 ≤ D.length)
    (hm : parseMarker c mt md (decodeMarker (slice D p 512)) { s with ifd := ⟨D, p + 512⟩ }
      = none) :
    parseLoop c mt md (fuel + 1) s = Run.aborted := by
  have hl : (slice D p 512).length = 512 := by rw [length_slice]; omega
  rw [parseLoop]
  simp only [readRaw, hifd, hl, if_true, hm]

/-- The body of the loop on a grain-directory marker whose `val` is not the number
of sectors the header gives. -/
theorem parseMarker_dir_mismatch (c : Codec) (mt md : Nat) (s : PState) (v : Nat)
    (hv : v < U64) (hne : v ≠ md) :
    parseMarker c mt md (decodeMarker (metaMarker v MARKER_GD)) s = none := by
  obtain ⟨hval, hs, ht⟩ := decode_metaMarker v MARKER_GD
  have hv64 : v % U64 = v := Nat.mod_eq_of_lt hv
  have ht' : (decodeMarker (metaMarker v MARKER_GD)).type = 2 := by rw [ht]; rfl
  unfold parseMarker
  rw [hs, hval, hv64, ht']
  have h1 : ¬ ((0 : Nat) ≠ 0) := fun h => h rfl
  have h2 : ¬ ((2 : Nat) = MARKER_GT) := by decide
  have h3 : (2 : Nat) = MARKER_GD := rfl
  rw [if_neg h1, if_neg h2, if_pos h3, if_pos hne]

/-- C12: for the empty input with the capacity override 8 GiB, the grain-directory
marker that `allraw2grains` writes in sector 128 has `val = 1` (`mdirsz / 512 - 1` for
the two-sector buffer), `dirblks` of the final header, whose capacity is 16777216
sectors, is 2, and the stream extraction of the file fails the assertion
`val == dirblks(header)` in its first pass. -/
theorem allraw2grains_dirblks_mismatch :
    ∃ f, allraw2grains storedCodec ⟨[], 0⟩ 8589934592 File.empty 6 = some f ∧
      (markerAt f.data 128).type = MARKER_GD ∧ (markerAt f.data 128).val = 1 ∧
      dirblks (decodeHeader (f.data.take 512)) = some 2 ∧
      ∀ fuel, mainStream storedCodec (fuel + 1) f.data = Outcome.aborted := by
  obtain ⟨f, a, S, r, rt, hf, w⟩ := allraw2grains_written storedCodec 6 storedCodec_lossless
    [] 0 8589934592 File.empty rfl (by decide)
  obtain ⟨ha, hS, hr, hrt, hN, hD⟩ := w.empty
  subst ha hS hr hrt
  have hcv : 8589934592 / SECTORSZ % U64 = 16777216 := by decide
  rw [hcv] at hD
  have hm := w.gd_marker
  have hV : AState.init.last.V.length = 65536 := by
    rw [AState.last_init, AState.init_V, length_zeros]
  rw [hV] at hm
  have hm1 : slice f.data 65536 512 = metaMarker 1 MARKER_GD := hm
  have hdesc : slice f.data 512 512 = descblk 8589934592 := by
    rw [hD]
    exact vmdkBytes_desc _ _ _ _ (length_descblk _)
  have htake : f.data.take 512 = encodeHeader (writerHeader 16777216 129) := by
    rw [hD]
    exact vmdkBytes_take_header _ _ _ _
  have hdec : decodeHeader (f.data.take 512) = writerHeader 16777216 129 := by
    have := decode_writerHeader 16777216 129 []
    rw [List.append_nil] at this
    rw [htake, this]
    rfl
  have hdb2 : (toInt32 (((16777216 + 127) / 128 + 65535) / 65536)) = 2 := by decide
  refine ⟨f, hf, ?_, ?_, ?_, ?_⟩
  · unfold markerAt
    rw [show 128 * 512 = 65536 by decide, hm1, (decode_metaMarker _ MARKER_GD).2.2]
    rfl
  · unfold markerAt
    rw [show 128 * 512 = 65536 by decide, hm1, (decode_metaMarker _ MARKER_GD).1]
    rfl
  · rw [hdec, dirblks_writer _ rfl rfl (by show 16777216 < 2 ^ 50; norm_num)]
    show some (toInt32 (((16777216 + 127) / 128 + 65535) / 65536)) = some 2
    rw [hdb2]
  · intro fuel
    have hinfo := vmdkinfo_writer f.data 0 16777216 129 _ htake hdesc
    rw [show 16777216 % U64 = 16777216 by decide, show 129 % U64 = 129 by decide] at hinfo
    generalize hh : ({ writerHeader 16777216 129 with streamoptimized := 1 } :
      SparseExtentHeader) = h at hinfo
    have hHOK : HOK h := by subst hh; exact writerHeader_HOK _ _ _
    have hcap : h.capacity = 16777216 := by subst hh; rfl
    have hso : h.streamoptimized = 1 := by subst hh; rfl
    have hoh : h.overHead * SECTORSZ = 65536 := by
      have : h.overHead = 128 := by
        subst hh
        exact writerHeader_overHead 16777216 129
      rw [this]
      decide
    have hdb : dirblks h = some 2 := by
      rw [dirblks_writer h hHOK.2.2.1 hHOK.2.2.2 (by rw [hcap]; norm_num), hcap, hdb2]
    have hrun : vmdkparsestream storedCodec (fuel + 1) ⟨f.data, 65536⟩ h File.empty
        = Run.aborted := by
      have halloc : ¬ (OFFMAX ≤ h.grainSize * SECTORSZ % U64) := by
        rw [hHOK.2.2.1]
        decide
      rw [vmdkparsestream_eq storedCodec (fuel + 1) _ h _ _ hdb halloc]
      apply parseLoop_abort _ _ _ _ _ f.data 65536 rfl (by rw [hN]; decide)
      rw [hm1]
      exact parseMarker_dir_mismatch _ _ _ _ 1 (by decide) (by decide)
    unfold mainStream
    have hsz : ¬ (f.data.length < 512 + SECTORSZ) := by rw [hN]; decide
    have hso' : ¬ (h.streamoptimized = 0) := by rw [hso]; decide
    have halg : ¬ (h.flags &&& FLAGBIT_COMPRESSED ≠ 0 ∧ h.compressAlgorithm ≠ COMPRESSION_NONE ∧
        h.compressAlgorithm ≠ COMPRESSION_DEFLATE) := by
      rw [hHOK.2.1]
      exact fun hx => hx.2.2 rfl
    rw [if_neg hsz, hinfo]
    dsimp only
    rw [if_neg hso', if_neg halg, hoh, lseekSet_lt _ 65536 (by decide), hrun]

set_option maxRecDepth 100000 in
/-- C11: for a grain marker with `size = 2^32 - 1` the sum `m->size + 12` wraps to 11
in `uint32_t`, so `marker2grain` wants one sector, sizes an empty scratch buffer to 500
bytes, reads no input after the marker sector, and hands the decoder the 500 bytes of
the marker as the `size` payload bytes; the claim asks for a buffer of
`⌈(12 + s) / 512⌉ * 512 - 12 = 4294967796` bytes. -/
theorem marker2grain_size_wrap (c : Codec) (ifd : File) (grain : List Nat) :
    marker2grain c ifd (writerHeader 0 0) ⟨0, 4294967295, zeros 500⟩ grain []
      = (match c.inflate (zeros 500) with
        | none => none
        | some g => if g.length = 65536 then some (g, ifd, zeros 500) else none) ∧
    (12 + 4294967295 + 511) / 512 * 512 - 12 = 4294967796 := by
  constructor
  · have hbuf : bufwrite ([] ++ zeros (500 - ([] : List Nat).length)) 0 (zeros 500) = zeros 500 := by
      decide
    have htake : (zeros 500).take 4294967295 = zeros 500 := by
      rw [take_zeros]
      rfl
    unfold marker2grain
    show (if ([] : List Nat).length < 500 ∧ OFFMAX ≤ 500 then none else _) = _
    rw [if_neg (by decide)]
    show (if (writerHeader 0 0).flags &&& FLAGBIT_COMPRESSED ≠ 0 ∧
      (writerHeader 0 0).compressAlgorithm = COMPRESSION_DEFLATE then
        (match c.inflate ((bufwrite ([] ++ zeros (500 - ([] : List Nat).length)) 0
          (zeros 500)).take 4294967295) with
        | none => none
        | some g => if g.length = 65536 then
            some (g, ifd, bufwrite ([] ++ zeros (500 - ([] : List Nat).length)) 0 (zeros 500))
          else none)
      else _) = _
    rw [if_pos (by decide), hbuf, htake]
  · decide

theorem ceil_ite (a b : Nat) (hb : 0 < b) :
    a / b + (if a % b ≠ 0 then 1 else 0) = ceilDiv a b := by
  have hd := Nat.div_add_mod a b
  have hm := Nat.mod_lt a hb
  unfold ceilDiv
  generalize a / b = q at hd ⊢
  generalize a % b = r at hd hm ⊢
  symm
  split
  · apply Nat.div_eq_of_lt_le
    · have e : (q + 1) * b = b * q + b := by ring
      omega
    · have e : (q + 1 + 1) * b = b * q + b + b := by ring
      omega
  · apply Nat.div_eq_of_lt_le
    · have e : (q + 0) * b = b * q := by ring
      omega
    · have e : (q + 0 + 1) * b = b * q + b := by ring
      omega

theorem ceilDiv_le_self (x g : Nat) (hg : 0 < g) : ceilDiv x g ≤ x := by
  unfold ceilDiv
  rw [Nat.div_le_iff_le_mul_add_pred hg]
  have : x ≤ g * x := Nat.le_mul_of_pos_left x hg
  omega

/-- Rounding up twice: the bytes of the capacity over the grain size, then over 512,
gives the capacity over the grain size. -/
theorem ceilDiv_nested (c g : Nat) (hg : 0 < g) :
    ceilDiv (ceilDiv (c * 512) g) 512 = ceilDiv c g := by
  unfold ceilDiv
  have h1 : (c * 512 + g - 1) / g + 512 - 1 = (c * 512 + g - 1) / g + 511 :=
    Nat.add_sub_assoc (by decide) _
  have h2 : (c * 512 + g - 1) / g + 511 = (c * 512 + g - 1 + 511 * g) / g := by
    rw [Nat.add_mul_div_right _ _ hg]
  have h3 : c * 512 + g - 1 + 511 * g = (c + g) * 512 - 1 := by
    have : (c + g) * 512 = c * 512 + 512 * g := by ring
    omega
  rw [h1, h2, h3, Nat.div_div_eq_div_mul, Nat.mul_comm g 512, ← Nat.div_div_eq_div_mul]
  congr 1
  omega

theorem toInt32_small (x : Nat) (h : x < 2147483648) : toInt32 x = (x : Int) := by
  unfold toInt32
  have hm : x % U32 = x := Nat.mod_eq_of_lt (by simp only [U32]; omega)
  rw [hm, if_pos h]

/-- Where `numGTEsPerGT` is 512, the value of `SECTORSZ`, the remainder that `dirblks`
tests is the remainder by its divisor: for every such header with `grainSize > 0` and
`capacity * 512 < 2^64`, when the number fits the `int` that `dirblks` returns,
`dirblks(header)` is `⌈4 * ⌈⌈capacity / grainSize⌉ / numGTEsPerGT⌉ / 512⌉`, the whole
sectors that hold one 32-bit entry per grain table. -/
theorem dirblks_of_512 (h : SparseExtentHeader) (hgs : 0 < h.grainSize)
    (hgt : h.numGTEsPerGT = 512) (hcap : h.capacity * 512 < 2 ^ 64)
    (hint : dirblksSpec h < 2 ^ 31) :
    dirblks h = some (dirblksSpec h : Int) := by
  have hc : h.capacity * 512 < 18446744073709551616 := by
    have : (2 : Nat) ^ 64 = 18446744073709551616 := by norm_num
    omega
  have hi : dirblksSpec h < 2147483648 := by
    have : (2 : Nat) ^ 31 = 2147483648 := by norm_num
    omega
  unfold dirblksSpec at hi ⊢
  unfold dirblks
  rw [hgt] at hi ⊢
  have h0 : ¬ (h.grainSize = 0 ∨ (512 : Nat) = 0) := by
    intro hx
    rcases hx with hx | hx
    · omega
    · exact absurd hx (by decide)
  rw [if_neg h0]
  simp only [SECTORSZ, U64]
  generalize h.capacity = cap at hc hi ⊢
  generalize h.grainSize = gs at hgs hi ⊢
  have e1 : cap * 512 % 18446744073709551616 = cap * 512 := Nat.mod_eq_of_lt hc
  rw [e1]
  have hb1 := ceilDiv_le_self (cap * 512) gs hgs
  have e2 : (cap * 512 / gs + if cap * 512 % gs ≠ 0 then 1 else 0) % 18446744073709551616
      = ceilDiv (cap * 512) gs := by
    rw [ceil_ite _ _ hgs]
    exact Nat.mod_eq_of_lt (by omega)
  rw [e2]
  have hG := ceilDiv_nested cap gs hgs
  have hGle : ceilDiv cap gs ≤ cap := ceilDiv_le_self cap gs hgs
  generalize ceilDiv (cap * 512) gs = b1 at hb1 hG ⊢
  generalize ceilDiv cap gs = G at hG hGle hi ⊢
  have e3 : (b1 / 512 + if b1 % 512 ≠ 0 then 1 else 0) % 18446744073709551616 = G := by
    rw [ceil_ite _ _ (by decide), hG]
    exact Nat.mod_eq_of_lt (by omega)
  rw [e3]
  have e4 : G * 4 % 18446744073709551616 = G * 4 := Nat.mod_eq_of_lt (by omega)
  rw [e4]
  have e5 : (G * 4 / 512 + if G * 4 % 512 ≠ 0 then 1 else 0) % 18446744073709551616
      = (G + 127) / 128 := by
    split <;> omega
  rw [e5]
  unfold ceilDiv at hi ⊢
  have e6 : (if (G + 127) / 128 % 512 ≠ 0 then ((G + 127) / 128 + 512) % 18446744073709551616
      else (G + 127) / 128) / 512 = (4 * ((G + 512 - 1) / 512) + 512 - 1) / 512 := by
    split <;> omega
  rw [e6, toInt32_small _ hi]

/-- The header of a 1 MiB image, 2048 sectors in grains of 128 sectors and tables of
512 entries, needs one directory sector. -/
theorem dirblks_of_512_writer :
    0 < (writerHeader 2048 0).grainSize ∧ (writerHeader 2048 0).numGTEsPerGT = 512 ∧
    (writerHeader 2048 0).capacity * 512 < 2 ^ 64 ∧ dirblksSpec (writerHeader 2048 0) < 2 ^ 31 ∧
    dirblks (writerHeader 2048 0) = some (dirblksSpec (writerHeader 2048 0) : Int) :=
  ⟨by decide, rfl, by decide, by decide,
    dirblks_of_512 (writerHeader 2048 0) (by decide) rfl (by decide) (by decide)⟩

/-- C13, the code at the failing input: for a header with capacity 1, grain size 512
and one entry per grain table, the one grain table takes four bytes of directory,
which need one sector, and `dirblks` returns 0. The function counts the sectors of
the table bytes as `blks / SECTORSZ` rounded up by the test `blks % numGTEsPerGT`,
which is zero for 4 bytes and 1 entry per table, where the remainder by the divisor
`SECTORSZ` is not. The same happens for capacity 4096 with grains of 128 sectors and
256 entries per table: 32 grains in one table, and again 0 for 1. -/
theorem dirblks_modulus_slip :
    0 < ({ writerHeader 1 0 with grainSize := 512, numGTEsPerGT := 1 } :
      SparseExtentHeader).grainSize ∧
    0 < ({ writerHeader 1 0 with grainSize := 512, numGTEsPerGT := 1 } :
      SparseExtentHeader).numGTEsPerGT ∧
    ({ writerHeader 1 0 with grainSize := 512, numGTEsPerGT := 1 } :
      SparseExtentHeader).capacity * 512 < 2 ^ 64 ∧
    dirblks { writerHeader 1 0 with grainSize := 512, numGTEsPerGT := 1 } = some 0 ∧
    dirblksSpec { writerHeader 1 0 with grainSize := 512, numGTEsPerGT := 1 } = 1 ∧
    4 / SECTORSZ + (if 4 % 1 ≠ 0 then 1 else 0) = 0 ∧
    4 / SECTORSZ + (if 4 % SECTORSZ ≠ 0 then 1 else 0) = 1 ∧
    dirblks { writerHeader 4096 0 with numGTEsPerGT := 256 } = some 0 ∧
    dirblksSpec { writerHeader 4096 0 with numGTEsPerGT := 256 } = 1 := by
  decide

theorem slice_bufwrite_self (D src : List Nat) (k : Nat) (h : k ≤ D.length) :
    slice (bufwrite D k src) k src.length = src := by
  unfold bufwrite
  exact slice_mid _ _ _ _ _ (by rw [List.length_take]; omega) rfl

theorem slice_bufwrite_before (D src : List Nat) (k off len : Nat) (h : off + len ≤ k)
    (hk : k ≤ D.length) : slice (bufwrite D k src) off len = slice D off len := by
  unfold bufwrite
  rw [List.append_assoc, slice_append_left _ _ _ _ (by rw [List.length_take]; omega)]
  unfold slice
  rw [List.drop_take, List.take_take]
  congr 1
  omega

/-- The block that flushes a grain table, as far as the directory goes: the slot
`128 + mdirent` is inside the buffer after the growth, the assertion holds, the entry
is stored in the slot, and the slots before it are as they were. -/
theorem flushTable_dir (s : WState) (h : DirOK s) :
    ∃ s', flushTable s = some s' ∧ 4 * (128 + s.mdirent) + 4 ≤ s'.mdir.length ∧
      s'.mdirent = s.mdirent + 1 ∧ DirOK s' ∧
      slice s'.mdir (4 * (128 + s.mdirent)) 4 = encLE 4 ((tell s.ofd / SECTORSZ + 1) % U32) ∧
      ∀ j, j < 128 + s.mdirent → slice s'.mdir (4 * j) 4 = slice s.mdir (4 * j) 4 := by
  unfold DirOK at h
  have hn : (SECTORSZ / 4 + s.mdirent) * 4 = 4 * (128 + s.mdirent) := by
    simp only [SECTORSZ]
    omega
  by_cases hg : 4 * (128 + s.mdirent) ≥ s.mdir.length
  · have hf : flushTable s = some { s with
          ofd := awrite s.ofd (bufwrite s.mtbl 0
            (encLE 8 (mtblsz / SECTORSZ) ++ encLE 4 0 ++ encLE 4 MARKER_GT))
          mdir := bufwrite (s.mdir ++ zeros SECTORSZ) (4 * (128 + s.mdirent))
            (encLE 4 ((tell s.ofd / SECTORSZ + 1) % U32))
          mdirent := s.mdirent + 1
          mtbl := zeros (SECTORSZ + mtblsz)
          mtblent := 0 } := by
      unfold flushTable
      simp only [hn, hg, decide_True, if_true, List.length_append, length_zeros, true_and]
      rw [if_neg (by simp only [SECTORSZ]; omega)]
    have hl : (s.mdir ++ zeros SECTORSZ).length = s.mdir.length + 512 := by
      rw [List.length_append, length_zeros]
    refine ⟨_, hf, ?_, rfl, ?_, ?_, ?_⟩
    · show 4 * (128 + s.mdirent) + 4 ≤ (bufwrite _ _ _).length
      rw [length_bufwrite _ _ _ (by rw [hl, length_encLE]; omega), hl]
      omega
    · show (bufwrite _ _ _).length = 512 + 512 * max 1 ((s.mdirent + 1 + 127) / 128)
      rw [length_bufwrite _ _ _ (by rw [hl, length_encLE]; omega), hl]
      omega
    · have := slice_bufwrite_self (s.mdir ++ zeros SECTORSZ)
        (encLE 4 ((tell s.ofd / SECTORSZ + 1) % U32)) (4 * (128 + s.mdirent))
        (by rw [hl]; omega)
      rw [length_encLE] at this
      exact this
    · intro j hj
      show slice (bufwrite _ _ _) (4 * j) 4 = _
      rw [slice_bufwrite_before _ _ _ _ _ (by omega) (by rw [hl]; omega),
        slice_append_left _ _ _ _ (by omega)]
  · have hf : flushTable s = some { s with
          ofd := awrite s.ofd (bufwrite s.mtbl 0
            (encLE 8 (mtblsz / SECTORSZ) ++ encLE 4 0 ++ encLE 4 MARKER_GT))
          mdir := bufwrite s.mdir (4 * (128 + s.mdirent))
            (encLE 4 ((tell s.ofd / SECTORSZ + 1) % U32))
          mdirent := s.mdirent + 1
          mtbl := zeros (SECTORSZ + mtblsz)
          mtblent := 0 } := by
      unfold flushTable
      simp only [hn, hg, decide_False, if_false, false_and, Bool.false_eq_true]
    refine ⟨_, hf, ?_, rfl, ?_, ?_, ?_⟩
    · show 4 * (128 + s.mdirent) + 4 ≤ (bufwrite _ _ _).length
      rw [length_bufwrite _ _ _ (by rw [length_encLE]; omega)]
      omega
    · show (bufwrite _ _ _).length = 512 + 512 * max 1 ((s.mdirent + 1 + 127) / 128)
      rw [length_bufwrite _ _ _ (by rw [length_encLE]; omega)]
      omega
    · have := slice_bufwrite_self s.mdir
        (encLE 4 ((tell s.ofd / SECTORSZ + 1) % U32)) (4 * (128 + s.mdirent)) (by omega)
      rw [length_encLE] at this
      exact this
    · intro j hj
      show slice (bufwrite _ _ _) (4 * j) 4 = _
      rw [slice_bufwrite_before _ _ _ _ _ (by omega) (by omega)]

theorem writerInit_dirOK (ifd ofd : File) : DirOK (writerInit ifd ofd) := by
  unfold DirOK
  show (zeros (SECTORSZ * 2)).length = 512 + 512 * max 1 ((0 + 127) / 128)
  rw [length_zeros]
  rfl

/-- A pass of the loop changes the directory buffer only by flushing a table. -/
theorem writerPass_dir (c : Codec) (cap z : Nat) (s s' : WState) (got : Nat)
    (hp : writerPass c cap z s = some (s', got)) :
    (s'.mdir = s.mdir ∧ s'.mdirent = s.mdirent) ∨
    ∃ s1 s2, s1.mdir = s.mdir ∧ s1.mdirent = s.mdirent ∧ flushTable s1 = some s2 ∧
      s'.mdir = s2.mdir ∧ s'.mdirent = s2.mdirent := by
  unfold writerPass at hp
  generalize (if cap ≠ 0 ∧ s.read_total ≥ cap then (([] : List Nat), 0, s.ifd)
    else aread s.ifd GRAINBYTES) = r at hp
  by_cases hgot : r.2.1 ≠ 0
  · rcases hrg : raw2grain c r.1 s.ofd s.sec z with _ | ⟨ent, ofd⟩
    · simp only [hgot, hrg, if_true, ne_eq, not_false_eq_true] at hp
      exact absurd hp (by simp)
    · simp only [hgot, hrg, if_true, ne_eq, not_false_eq_true] at hp
      split at hp
      · exact absurd hp (by simp)
      · rename_i s2 hs2
        simp only [Option.some.injEq, Prod.mk.injEq] at hp
        split at hs2
        · refine Or.inr ⟨_, s2, ?_, ?_, hs2, by rw [← hp.1], by rw [← hp.1]⟩ <;> rfl
        · have := Option.some.inj hs2
          exact Or.inl ⟨by rw [← hp.1, ← this], by rw [← hp.1, ← this]⟩
  · have hgot0 : r.2.1 = 0 := not_not.mp hgot
    simp only [hgot0, ne_eq, not_true_eq_false, if_false] at hp
    split at hp
    · exact absurd hp (by simp)
    · rename_i s2 hs2
      simp only [Option.some.injEq, Prod.mk.injEq] at hp
      split at hs2
      · refine Or.inr ⟨_, s2, ?_, ?_, hs2, by rw [← hp.1], by rw [← hp.1]⟩ <;> rfl
      · have := Option.some.inj hs2
        exact Or.inl ⟨by rw [← hp.1, ← this], by rw [← hp.1, ← this]⟩

/-- The size of the directory buffer is kept by every pass of the loop. -/
theorem writerPass_dirOK (c : Codec) (cap z : Nat) (s s' : WState) (got : Nat) (h : DirOK s)
    (hp : writerPass c cap z s = some (s', got)) : DirOK s' := by
  rcases writerPass_dir c cap z s s' got hp with ⟨h1, h2⟩ | ⟨s1, s2, h1, h2, hf, h3, h4⟩
  · unfold DirOK at h ⊢
    rw [h1, h2]
    exact h
  · have h1' : DirOK s1 := by
      unfold DirOK at h ⊢
      rw [h1, h2]
      exact h
    obtain ⟨s2', hf', _, _, hok, _⟩ := flushTable_dir s1 h1'
    have := Option.some.inj (hf'.symm.trans hf)
    subst this
    unfold DirOK at hok ⊢
    rw [h3, h4]
    exact hok

theorem TableSects.extend {V tbls qs : List Nat} (h : TableSects V tbls qs) (X : List Nat) :
    TableSects (V ++ X) tbls qs := by
  obtain ⟨h1, h2, h3⟩ := h
  refine ⟨h1, ?_, h3⟩
  intro k hk
  obtain ⟨a1, a2, a3, a4⟩ := h2 k hk
  refine ⟨a1, by rw [List.length_append]; omega, ?_, a4⟩
  rw [slice_append_left _ _ _ _ (by omega), a3]

/-- Flushing a grain table at the end of the aligned output `V` adds the sector
`V.length / 512` of its marker after the sectors of the tables before it. -/
theorem TableSects.flushed {V tbls qs : List Nat} (h : TableSects V tbls qs) (cur : List Nat)
    (hal : V.length % 512 = 0) (hbig : 65536 ≤ V.length) (hcur : cur.length ≤ 512) :
    TableSects (V ++ tableSeg cur) (tbls ++ [(V.length / 512 + 1) % U32])
      (qs ++ [V.length / 512]) := by
  obtain ⟨h1, h2, h3⟩ := h
  have hlen : (qs ++ [V.length / 512]).length = qs.length + 1 := by
    rw [List.length_append, List.length_singleton]
  refine ⟨?_, ?_, ?_⟩
  · rw [List.length_append, List.length_append, List.length_singleton, List.length_singleton, h1]
  · intro k hk
    rw [hlen] at hk
    by_cases hk' : k < qs.length
    · rw [getD_append_left _ _ _ hk', getD_append_left _ _ _ (by omega)]
      obtain ⟨a1, a2, a3, a4⟩ := h2 k hk'
      refine ⟨a1, by rw [List.length_append]; omega, ?_, a4⟩
      rw [slice_append_left _ _ _ _ (by omega), a3]
    · have hkq : k = qs.length := by omega
      subst hkq
      rw [getD_append_length]
      refine ⟨by omega, ?_, ?_, ?_⟩
      · rw [List.length_append, length_tableSeg _ hcur]
        omega
      · rw [show V.length / 512 * 512 = V.length by omega,
          slice_append_right V _ V.length 512 0 rfl, tableSeg_marker]
      · rw [h1, getD_append_length]
  · intro i j hij hj
    rw [hlen] at hj
    by_cases hj' : j < qs.length
    · rw [getD_append_left _ _ _ (by omega), getD_append_left _ _ _ hj']
      exact h3 i j hij hj'
    · have hjq : j = qs.length := by omega
      subst hjq
      rw [getD_append_left _ _ _ hij, getD_append_length]
      obtain ⟨_, a2, _, _⟩ := h2 i hij
      omega

/-- Every layout the writer reaches has its grain tables at increasing sectors. -/
theorem Reach.table_sects {c : Codec} {z : Nat} {raw : List Nat} {a : AState}
    (h : Reach c z raw a) : ∃ qs, TableSects a.V a.tbls qs := by
  induction h with
  | init =>
    exact ⟨[], rfl, fun k hk => absurd hk (Nat.not_lt_zero _),
      fun i j _ hj => absurd hj (Nat.not_lt_zero _)⟩
  | pass a g hR hg ih =>
    obtain ⟨qs, hq⟩ := ih
    obtain ⟨hf, hcount, _⟩ := hR.facts
    have hfa := hf.of_add g hg.grain_length hcount
    obtain ⟨X, hX⟩ := AState.add_V c z a g
    obtain ⟨_, _, htbls⟩ := AState.add_n c z a g
    have hq1 : TableSects (a.add c z g).V (a.add c z g).tbls qs := by
      rw [hX, htbls]
      exact hq.extend X
    unfold AState.pass
    split
    · rename_i h512
      exact ⟨_, hq1.flushed (a.add c z g).cur hfa.aligned hfa.big (by omega)⟩
    · exact ⟨qs, hq1⟩

theorem Reach.table_sects_last {c : Codec} {z : Nat} {raw : List Nat} {a : AState}
    (h : Reach c z raw a) : ∃ qs, TableSects a.last.V a.last.tbls qs := by
  obtain ⟨qs, hq⟩ := h.table_sects
  obtain ⟨hf, _, _⟩ := h.facts
  have hlt := h.cur_lt
  unfold AState.last
  split
  · exact ⟨_, hq.flushed a.cur hf.aligned hf.big (by omega)⟩
  · exact ⟨qs, hq⟩

/-- The directory buffer of a state that holds the layout `a`, and the sectors
`writerFinish` sends to the output for it. -/
theorem Sim.mdir_bytes {s : WState} {a : AState} (h : Sim s a) (r : Nat)
    (hr : 4 * a.tbls.length + r = 512 * max 1 ((a.tbls.length + 127) / 128)) :
    s.mdir = zeros 512 ++ enc32s a.tbls ++ zeros r ∧
    bufwrite s.mdir 0 (encLE 8 (s.mdir.length / SECTORSZ - 1) ++ encLE 4 0 ++ encLE 4 MARKER_GD)
      = dirSeg a.tbls r := by
  obtain ⟨r', _, hmdir, _⟩ := h.mdir
  have hml : s.mdir.length = 512 + 4 * a.tbls.length + r' := by
    rw [hmdir]; simp only [List.length_append, length_zeros, length_enc32s]
  have hrr : r' = r := by
    have := h.mdirlen
    omega
  subst hrr
  refine ⟨hmdir, ?_⟩
  rw [hml, hmdir, List.append_assoc, bufwrite_zeros_head _ _ _ (by simp)]
  simp [dirSeg, metaMarker, List.append_assoc]

/-- The function `allraw2grains` returns: its loop ends in a state that holds a
layout of the writer, and the output is what `writerFinish` makes of that state. -/
theorem allraw2grains_state (c : Codec) (z : Nat) (hc : c.Lossless) (raw : List Nat)
    (p cap : Nat) (ofd : File) (hofd : ofd.data = []) (hL : raw.length < U64) :
    ∃ s a S r rt, writerRun c ⟨raw, p⟩ cap ofd z = some s ∧ Sim s a.last ∧
      allraw2grains c ⟨raw, p⟩ cap ofd z = some (writerFinish cap s) ∧
      Written c z raw cap (writerFinish cap s) a S r rt := by
  obtain ⟨s, a, hl, hsim, hR, htot, hle, himg, hilen, hposle, htight, hall⟩ :=
    writerLoop_sim c z hc raw cap hL (raw.length + 1) (writerInit ⟨raw, p⟩ ofd) AState.init
      (writerInit_sim _ _ hofd) (writerInit_simIn raw p ofd) Reach.init
      (by show raw.length - 0 < _; omega)
  obtain ⟨S, hS⟩ := AState.last_stream a hR.stream
  obtain ⟨r, hr4, hdl, hdata⟩ := writerFinish_data cap s a.last S hsim hS
  have hrun : writerRun c ⟨raw, p⟩ cap ofd z = some s := by
    unfold writerRun
    exact hl
  refine ⟨s, a, S, r, s.ifd.pos, hrun, hsim, ?_, hR, hS, hr4, hdl, ?_, hle, himg, hilen,
    hposle, htight, hall⟩
  · unfold allraw2grains
    rw [hrun]
    rfl
  · rw [hdata]
    unfold finalHeader
    simp only [tell]
    rw [hsim.pos, htot]

/-- The directory as the file holds it, after the grains and grain tables. -/
theorem Written.dir_slice {c : Codec} {z : Nat} {raw : List Nat} {cap : Nat} {f : File}
    {a : AState} {S : List Nat} {r rt : Nat} (w : Written c z raw cap f a S r rt) :
    slice f.data a.last.V.length (dirSeg a.last.tbls r).length = dirSeg a.last.tbls r := by
  rw [w.data, w.V_length]
  exact (vmdkBytes_tail _ _ _ _ (length_descblk _)).1

/-- C14 (amended): in `allraw2grains` the directory buffer has on entering the loop,
and keeps across every pass, the size of one sector for the marker and one for every
128 tables entered or part of them, at least one, and a pass changes the buffer only
by flushing a table; with that size every flush of a grain table finds its slot
`128 + mdirent` inside the buffer after the growth (`4 * n + 4 <= mdirsz`), passes
the assertion, stores the 32-bit entry there and leaves the earlier slots alone. The
function returns for every input, and when its loop has ended, `t` tables having been
flushed, the buffer is `1 + max(1, ⌈t/128⌉)` sectors long; the tables have their
markers at increasing sectors of the output, slot `128 + k` for `k < t` holds the low
32 bits of the sector after the marker of table `k`, which is that sector itself in an
output smaller than 2 TiB, every later slot of the buffer is zero, and the output
holds the buffer, with the head of the directory marker in its first sector, at the
offset the loop ended at. -/
theorem allraw2grains_directory_buffer (c : Codec) (raw : List Nat) (p cap z : Nat)
    (ofd : File) (hc : c.Lossless) (hofd : ofd.data = []) (hL : raw.length < 2 ^ 63) :
    DirOK (writerInit ⟨raw, p⟩ ofd) ∧
    (∀ s s' got, DirOK s → writerPass c cap z s = some (s', got) → DirOK s' ∧
      ((s'.mdir = s.mdir ∧ s'.mdirent = s.mdirent) ∨
        ∃ s1 s2, s1.mdir = s.mdir ∧ s1.mdirent = s.mdirent ∧ flushTable s1 = some s2 ∧
          s'.mdir = s2.mdir ∧ s'.mdirent = s2.mdirent)) ∧
    (∀ s, DirOK s → ∃ s', flushTable s = some s' ∧
      4 * (128 + s.mdirent) + 4 ≤ s'.mdir.length ∧ s'.mdirent = s.mdirent + 1 ∧
      slice s'.mdir (4 * (128 + s.mdirent)) 4 = encLE 4 ((tell s.ofd / SECTORSZ + 1) % U32) ∧
      ∀ j, j < 128 + s.mdirent → slice s'.mdir (4 * j) 4 = slice s.mdir (4 * j) 4) ∧
    ∃ (s : WState) (f : File) (qs : List Nat), writerRun c ⟨raw, p⟩ cap ofd z = some s ∧
      allraw2grains c ⟨raw, p⟩ cap ofd z = some f ∧
      (cap = 0 → s.mdirent = ((raw.length + 65535) / 65536 + 511) / 512) ∧
      s.mdir.length = (1 + max 1 ((s.mdirent + 127) / 128)) * 512 ∧
      qs.length = s.mdirent ∧
      (∀ i j, i < j → j < s.mdirent → qs.getD i 0 < qs.getD j 0) ∧
      (∀ k, k < s.mdirent →
        (markerAt f.data (qs.getD k 0)).type = MARKER_GT ∧
        (markerAt f.data (qs.getD k 0)).val = 4 ∧
        (markerAt f.data (qs.getD k 0)).size = 0 ∧
        field s.mdir (4 * (128 + k)) 4 = (qs.getD k 0 + 1) % U32 ∧
        (f.data.length < 2 ^ 41 → field s.mdir (4 * (128 + k)) 4 = qs.getD k 0 + 1)) ∧
      (∀ k, s.mdirent ≤ k → 4 * (128 + k) + 4 ≤ s.mdir.length →
        field s.mdir (4 * (128 + k)) 4 = 0) ∧
      slice f.data (tell s.ofd) s.mdir.length = bufwrite s.mdir 0
        (encLE 8 (s.mdir.length / SECTORSZ - 1) ++ encLE 4 0 ++ encLE 4 MARKER_GD) := by
  refine ⟨writerInit_dirOK _ _, fun s s' got h hp =>
    ⟨writerPass_dirOK c cap z s s' got h hp, writerPass_dir c cap z s s' got hp⟩, ?_, ?_⟩
  · intro s h
    obtain ⟨s', h1, h2, h3, _, h5, h6⟩ := flushTable_dir s h
    exact ⟨s', h1, h2, h3, h5, h6⟩
  have hL' : raw.length < 9223372036854775808 := by
    have : (2 : Nat) ^ 63 = 9223372036854775808 := by norm_num
    omega
  obtain ⟨s, a, S, r, rt, hrun, hsim, hf, w⟩ := allraw2grains_state c z hc raw p cap ofd hofd
    (by simp only [U64]; omega)
  obtain ⟨hfacts, htl, _⟩ := w.reach.facts_last
  obtain ⟨qs, hq1, hq2, hq3⟩ := w.reach.table_sects_last
  obtain ⟨hmdir, hbytes⟩ := hsim.mdir_bytes r w.dirlen
  have hent := hsim.mdirent
  have hml : s.mdir.length = 512 + 4 * a.last.tbls.length + r := by
    rw [hmdir]; simp only [List.length_append, length_zeros, length_enc32s]
  have hdl := w.dirlen
  have hagree : Agree (writerFinish cap s).data a.last.V := by
    rw [w.data, w.stream]
    exact vmdkBytes_agree _ _ _ _ (length_descblk _)
  have hslot : ∀ k, 4 * (128 + k) + 4 ≤ s.mdir.length →
      field s.mdir (4 * (128 + k)) 4 = a.last.tbls.getD k 0 % U32 := by
    intro k hk
    rw [hmdir, List.append_assoc, field_skip (zeros 512) _ _ 4 (4 * k)
      (by rw [length_zeros]; omega)]
    exact enc32s_field _ r k (by omega)
  refine ⟨s, writerFinish cap s, qs, hrun, hf, ?_, ?_, ?_, ?_, ?_, ?_, ?_⟩
  · intro h0
    subst h0
    rw [hent, htl, w.grains]
  · rw [hent, hml]
    omega
  · rw [hent, hq1]
  · intro i j hij hj
    exact hq3 i j hij (by rw [hq1, ← hent]; exact hj)
  · intro k hk
    have hk' : k < qs.length := by rw [hq1, ← hent]; exact hk
    obtain ⟨b1, b2, b3, b4⟩ := hq2 k hk'
    have hm : markerAt (writerFinish cap s).data (qs.getD k 0)
        = decodeMarker (metaMarker 4 MARKER_GT) := by
      unfold markerAt
      rw [hagree.slice _ _ (by omega) (by omega), b3]
    have hd := decode_metaMarker 4 MARKER_GT
    have hs : field s.mdir (4 * (128 + k)) 4 = (qs.getD k 0 + 1) % U32 := by
      rw [hslot k (by omega), b4, Nat.mod_mod]
    refine ⟨by rw [hm, hd.2.2]; rfl, by rw [hm, hd.1]; rfl, by rw [hm, hd.2.1], hs, ?_⟩
    intro hF
    have hF' : (writerFinish cap s).data.length < 2199023255552 := by
      have : (2 : Nat) ^ 41 = 2199023255552 := by norm_num
      omega
    have hle := hagree.len_le
    rw [hs]
    apply Nat.mod_eq_of_lt
    simp only [U32]
    omega
  · intro k hk hin
    rw [hslot k hin, List.getD_eq_default _ _ (by omega)]
    rfl
  · show slice _ s.ofd.pos _ = _
    rw [hbytes, hsim.pos]
    have := w.dir_slice
    rw [w.dir_length.1] at this
    rw [hml]
    have e : 512 + 4 * a.last.tbls.length + r = 512 + 512 * dirSects a.last.tbls.length := by
      unfold dirSects
      omega
    rw [e]
    exact this

/-- C14 witness: a 1 MiB image of 0xAA bytes written at strength 6 with the storing
codec: one table is flushed, the buffer is two sectors, slot 128 holds the sector
after the marker of the table, and slots 129 to 255 are zero. -/
theorem allraw2grains_directory_buffer_witness :
    storedCodec.Lossless ∧ (List.replicate 1048576 170).length < 2 ^ 63 ∧
    ∃ s f q, writerRun storedCodec ⟨List.replicate 1048576 170, 0⟩ 0 File.empty 6 = some s ∧
      allraw2grains storedCodec ⟨List.replicate 1048576 170, 0⟩ 0 File.empty 6 = some f ∧
      s.mdirent = 1 ∧ s.mdir.length = 1024 ∧ f.data.length < 2 ^ 41 ∧
      (markerAt f.data q).type = MARKER_GT ∧ field s.mdir (4 * 128) 4 = q + 1 ∧
      (∀ k, 1 ≤ k → k < 128 → field s.mdir (4 * (128 + k)) 4 = 0) := by
  have hlen : (List.replicate 1048576 170).length = 1048576 := List.length_replicate _ _
  refine ⟨storedCodec_lossless, by rw [hlen]; norm_num, ?_⟩
  obtain ⟨_, _, _, s, f, qs, hrun, hf, hT, hlenm, _, _, hslots, hzero, _⟩ :=
    allraw2grains_directory_buffer storedCodec
      (List.replicate 1048576 170) 0 0 6 File.empty storedCodec_lossless rfl
      (by rw [hlen]; norm_num)
  obtain ⟨f', a, S, r, rt, hf', w⟩ := allraw2grains_written storedCodec 6 storedCodec_lossless
    (List.replicate 1048576 170) 0 0 File.empty rfl (by rw [hlen]; decide)
  have hff : f' = f := Option.some.inj (hf'.symm.trans hf)
  subst hff
  have hn := w.grains
  rw [hlen] at hn
  have hn2 : a.n = 16 := by rw [hn]
  have hle := w.length_le 66048 (storedCodec_seg_le 6)
  have hF : f'.data.length < 2 ^ 41 := by
    have : (2 : Nat) ^ 41 = 2199023255552 := by norm_num
    unfold dirSects at hle
    rw [hn2] at hle
    omega
  have hT1 : s.mdirent = 1 := by rw [hT rfl, hlen]
  rw [hT1] at hlenm hslots hzero
  obtain ⟨h1, _, _, _, h5⟩ := hslots 0 (by decide)
  refine ⟨s, f', qs.getD 0 0, hrun, hf, hT1, by rw [hlenm]; rfl, hF, h1, h5 hF, ?_⟩
  intro k hk hlt
  exact hzero k hk (by rw [hlenm]; omega)

/-- C14 counterexample: in the VMDK of the image of 33291799 grains of bytes 1 under
the storing codec the directory buffer is written at sector 4294967319, the last of
the 65024 tables has its marker in sector 4294967314, and slot `128 + 65023` of the
buffer holds 19, the low 32 bits of the table's sector 4294967315; sector 18 holds no
grain-table marker. -/
theorem allraw2grains_directory_buffer_counterexample :
    storedCodec.Lossless ∧ bigImage.length < 2 ^ 63 ∧
    ∃ f, allraw2grains storedCodec ⟨bigImage, 0⟩ 0 File.empty 6 = some f ∧
      (markerAt f.data 4294967319).type = MARKER_GD ∧
      field f.data (4294967319 * 512 + 4 * (128 + 65023)) 4 = 19 ∧
      (markerAt f.data (19 - 1)).type ≠ MARKER_GT ∧
      (markerAt f.data 4294967314).type = MARKER_GT := by
  refine ⟨storedCodec_lossless, by rw [bigImage_length]; norm_num, ?_⟩
  obtain ⟨f, a, S, r, rt, hf, w⟩ := allraw2grains_written storedCodec 6 storedCodec_lossless
    bigImage 0 0 File.empty rfl (by rw [bigImage_length]; decide)
  refine ⟨f, hf, ?_⟩
  obtain ⟨hV, hlastV, hlt, ht, hc, hLV, hN⟩ := w.big
  have hds := w.dir_slice
  rw [hLV] at hds
  have hdl := w.dir_length.1
  have hagree : Agree f.data a.last.V := by
    rw [w.data, w.stream]
    exact vmdkBytes_agree _ _ _ _ (length_descblk _)
  have htl : a.last.tbls.length = 65024 := by
    rw [hlt, List.length_append, ht]
    rfl
  have hdl' : (dirSeg a.last.tbls r).length = 260608 := by
    rw [hdl, htl]
    rfl
  refine ⟨?_, ?_, ?_, ?_⟩
  · have hm := w.gd_marker
    rw [hLV] at hm
    unfold markerAt
    rw [show 4294967319 * 512 = 2199023267328 by decide, hm,
      (decode_metaMarker _ MARKER_GD).2.2]
    rfl
  · have hr := w.dirlen
    rw [show 4294967319 * 512 + 4 * (128 + 65023) = 2199023267328 + (512 + 4 * 65023) by decide,
      field_within f.data _ 2199023267328 _ 4 hds (by rw [hdl']),
      dirSeg_field _ _ _ (by rw [htl]; omega), hlt]
    have := getD_append_length a.tbls 19
    rw [ht] at this
    rw [this]
    decide
  · unfold markerAt
    rw [w.data, vmdkBytes_overhead _ _ _ _ (length_descblk _) _ _ (by decide) (by decide),
      decodeMarker_zeros.2.1]
    exact fun h => absurd h (by decide)
  · have hs : slice f.data 2199023264768 2560 = tableSeg a.cur := by
      rw [hagree.slice _ _ (by decide) (by rw [hLV]), hlastV]
      have := slice_mid a.V (tableSeg a.cur) [] 2199023264768 2560 hV.symm
        (by rw [length_tableSeg _ (by omega)])
      rw [List.append_nil] at this
      exact this
    unfold markerAt
    have h5 := slice_slice f.data 2199023264768 2560 0 512 (by decide)
    rw [Nat.add_zero] at h5
    rw [show 4294967314 * 512 = 2199023264768 by decide, ← h5, hs, tableSeg_marker,
      (decode_metaMarker _ MARKER_GT).2.2]
    rfl

end Vmdk
